import Mathlib

/-!
# Left-leaning red-black tree of `mudlark/tree/llrb_tree`

A shallow embedding of `ll_rb_tree.go` (with `max_depth` and the item types `Int` and `Real`
of `heteroset_test.go`) and a verification of its contract.

Conventions of the embedding.

* A `*ll_rb_node` is a value of the inductive type `ll_rb_node`; the nil pointer is the
  constructor `nil`. Nodes are never aliased, so in-place updates are functions that return the
  updated node.
* Dereferencing a nil pointer is a run-time panic; every function that can do so returns
  `Except Fault`, with `Fault.nil_deref` for the panic.
* `delete` and `delete_left_most` recurse into a child of a node they have just restructured; the
  embedding gives them a recursion budget and `Fault.out_of_fuel` marks an exhausted budget. The
  tree-level `delete` passes the number of nodes; `delete_spec` shows that this budget is not
  exhausted when the tree has the invariants and the item is stored.
* The `uint64` field `count` is a natural number, incremented and decremented modulo `2 ^ 64`.
  The counter `iterations` of `find` is bounded by the depth of the tree and is kept unbounded.
* A channel fed by a traversal is the list of the items sent, in the order sent.
* The items of all types form one type `α`; each item carries its dynamic type, and `Less` is
  taken to return a value on every pair of items.
* The set layer of the package `heteroset` (`New`, `Add`, `Intersect`, `Disjoint`) is not among
  the sources; its functions are modelled from the specification, a set being a tree.
-/

namespace llrb_tree

/-- Go strings are byte sequences; a byte is kept as its numeric value. -/
abbrev GoString := List Nat

/-- What `reflect.Typeof` gives: `id` stands for the identity of the run-time type (the `==` of
two `reflect.Type` values compares it), `PkgPath` and `Name` are the results of the two methods
of the same names. -/
structure GoType where
  id : Nat
  PkgPath : GoString
  Name : GoString
deriving DecidableEq, Repr

/-- The interface `Item`: a value with a dynamic type and a method `Less`. -/
class Item (α : Type) where
  TypeOf : α → GoType
  Less : α → α → Bool

/-- Abnormal outcomes. -/
inductive Fault where
  | nil_deref
  | out_of_fuel
deriving DecidableEq, Repr

/-- LLRB tree node (`nil` is the nil pointer). -/
inductive ll_rb_node (α : Type) where
  | nil : ll_rb_node α
  | mk (item : α) (left right : ll_rb_node α) (red : Bool) : ll_rb_node α
deriving DecidableEq, Repr

variable {α : Type}

/-- The expression `node.left`. -/
def get_left : ll_rb_node α → Except Fault (ll_rb_node α)
  | .nil => .error .nil_deref
  | .mk _ l _ _ => .ok l

/-- The expression `node.right`. -/
def get_right : ll_rb_node α → Except Fault (ll_rb_node α)
  | .nil => .error .nil_deref
  | .mk _ _ r _ => .ok r

/-- The expression `node.item`. -/
def get_item : ll_rb_node α → Except Fault α
  | .nil => .error .nil_deref
  | .mk v _ _ _ => .ok v

/-- The expression `node.red`. -/
def get_red : ll_rb_node α → Except Fault Bool
  | .nil => .error .nil_deref
  | .mk _ _ _ c => .ok c

/-- The assignment `node.left = l`. -/
def set_left : ll_rb_node α → ll_rb_node α → Except Fault (ll_rb_node α)
  | .nil, _ => .error .nil_deref
  | .mk v _ r c, l => .ok (.mk v l r c)

/-- The assignment `node.right = r`. -/
def set_right : ll_rb_node α → ll_rb_node α → Except Fault (ll_rb_node α)
  | .nil, _ => .error .nil_deref
  | .mk v l _ c, r => .ok (.mk v l r c)

/-- The assignment `node.item = v`. -/
def set_item : ll_rb_node α → α → Except Fault (ll_rb_node α)
  | .nil, _ => .error .nil_deref
  | .mk _ l r c, v => .ok (.mk v l r c)

/-- The assignment `node.red = c`. -/
def set_red : ll_rb_node α → Bool → Except Fault (ll_rb_node α)
  | .nil, _ => .error .nil_deref
  | .mk v l r _, c => .ok (.mk v l r c)

def new_ll_rb_node (item : α) : ll_rb_node α := .mk item .nil .nil true

def min (a b : Int) : Int := if a < b then a else b

/-- The loop of `cmp_string`: `n` iterations are left and `i` is the loop variable. -/
def cmp_string_loop (a b : GoString) : Nat → Nat → Int
  | 0, _ => (a.length : Int) - (b.length : Int)
  | n + 1, i =>
    if a.getD i 0 < b.getD i 0 then -1
    else if a.getD i 0 > b.getD i 0 then 1
    else cmp_string_loop a b n (i + 1)

def cmp_string (a b : GoString) : Int :=
  cmp_string_loop a b (min (a.length : Int) (b.length : Int)).toNat 0

def cmp_type [Item α] (a b : α) : Int :=
  let ta := Item.TypeOf a
  let tb := Item.TypeOf b
  if ta = tb then 0
  else
    let cp := cmp_string ta.PkgPath tb.PkgPath
    if cp ≠ 0 then cp else cmp_string ta.Name tb.Name

/-- The body of `compare_item` for a receiver whose field `item` is `this_item`. -/
def compare_items [Item α] (this_item item : α) : Int :=
  let ct := cmp_type this_item item
  if ct ≠ 0 then ct
  else if Item.Less this_item item then -1
  else if Item.Less item this_item then 1
  else 0

def compare_item [Item α] (this : ll_rb_node α) (item : α) : Except Fault Int := do
  let this_item ← get_item this
  pure (compare_items this_item item)

/-- The test `node == nil`. -/
def is_nil : ll_rb_node α → Bool
  | .nil => true
  | .mk _ _ _ _ => false

def is_red : ll_rb_node α → Bool
  | .nil => false
  | .mk _ _ _ c => c

def flip_colours (node : ll_rb_node α) : Except Fault (ll_rb_node α) := do
  let node ← set_red node (!(← get_red node))
  let l ← get_left node
  let l ← set_red l (!(← get_red l))
  let node ← set_left node l
  let r ← get_right node
  let r ← set_red r (!(← get_red r))
  set_right node r

def rotate_left (node : ll_rb_node α) : Except Fault (ll_rb_node α) := do
  let tmp ← get_right node
  let node ← set_right node (← get_left tmp)
  let tmp ← set_left tmp node
  let tmp ← set_red tmp (← get_red node)
  let node ← set_red node true
  set_left tmp node

def rotate_right (node : ll_rb_node α) : Except Fault (ll_rb_node α) := do
  let tmp ← get_left node
  let node ← set_left node (← get_right tmp)
  let tmp ← set_right tmp node
  let tmp ← set_red tmp (← get_red node)
  let node ← set_red node true
  set_right tmp node

def fix_up (node : ll_rb_node α) : Except Fault (ll_rb_node α) := do
  let node ←
    if is_red (← get_right node) && !is_red (← get_left node) then rotate_left node
    else pure node
  let l ← get_left node
  let left_left_red ← if is_red l then (do pure (is_red (← get_left l))) else pure false
  let node ← if left_left_red then rotate_right node else pure node
  let node ←
    if is_red (← get_left node) && is_red (← get_right node) then flip_colours node
    else pure node
  pure node

/-- The function `insert`. On a node, `node.compare_item(item)` is `compare_items` of the
node's item. -/
def insert [Item α] : ll_rb_node α → α → Except Fault (ll_rb_node α × Bool)
  | .nil, item => pure (new_ll_rb_node item, true)
  | .mk v l r c, item =>
    let cmp := compare_items v item
    if cmp > 0 then do
      let (l, inserted) ← insert l item
      pure (← fix_up (.mk v l r c), inserted)
    else if cmp < 0 then do
      let (r, inserted) ← insert r item
      pure (← fix_up (.mk v l r c), inserted)
    else do
      pure (← fix_up (.mk v l r c), false)

def move_red_left (node : ll_rb_node α) : Except Fault (ll_rb_node α) := do
  let node ← flip_colours node
  let r ← get_right node
  if is_red (← get_left r) then
    let node ← set_right node (← rotate_right r)
    let node ← rotate_left node
    flip_colours node
  else pure node

def move_red_right (node : ll_rb_node α) : Except Fault (ll_rb_node α) := do
  let node ← flip_colours node
  let l ← get_left node
  if is_red (← get_left l) then
    let node ← rotate_right node
    flip_colours node
  else pure node

/-- The condition `!is_red(node.x) && !is_red(node.x.left)` for the child `x` of `node`; the
second operand is evaluated only when the first holds. -/
def needs_red (x : ll_rb_node α) : Except Fault Bool :=
  if !is_red x then (do pure (!is_red (← get_left x))) else pure false

/-- The function `delete_left_most`, with a recursion budget. -/
def delete_left_most : Nat → ll_rb_node α → Except Fault (ll_rb_node α)
  | _, .nil => .error .nil_deref
  | 0, _ => .error .out_of_fuel
  | fuel + 1, node => do
    let l ← get_left node
    if is_nil l then pure .nil
    else
      let node ← if (← needs_red l) then move_red_left node else pure node
      let l ← delete_left_most fuel (← get_left node)
      let node ← set_left node l
      fix_up node

/-- The loop `for left_most.left != nil { left_most = left_most.left }` followed by
`left_most.item`. -/
def left_most_item : ll_rb_node α → Except Fault α
  | .nil => .error .nil_deref
  | .mk v .nil _ _ => .ok v
  | .mk _ l _ _ => left_most_item l

/-- The function `delete`, with a recursion budget. On a nil node the first statement,
`node.compare_item(item)`, panics. -/
def delete [Item α] : Nat → ll_rb_node α → α → Except Fault (ll_rb_node α × Bool)
  | _, .nil, _ => .error .nil_deref
  | 0, _, _ => .error .out_of_fuel
  | fuel + 1, node, item => do
    if (← compare_item node item) > 0 then
      let node ← if (← needs_red (← get_left node)) then move_red_left node else pure node
      let (l, deleted) ← delete fuel (← get_left node) item
      let node ← set_left node l
      pure (← fix_up node, deleted)
    else
      let node ← if is_red (← get_left node) then rotate_right node else pure node
      if decide ((← compare_item node item) = 0) && is_nil (← get_right node) then
        pure (.nil, true)
      else
        let node ← if (← needs_red (← get_right node)) then move_red_right node else pure node
        if (← compare_item node item) = 0 then
          let v ← left_most_item (← get_right node)
          let node ← set_item node v
          let r ← delete_left_most fuel (← get_right node)
          let node ← set_right node r
          pure (← fix_up node, true)
        else
          let (r, deleted) ← delete fuel (← get_right node) item
          let node ← set_right node r
          pure (← fix_up node, deleted)

def iterate_preorder : ll_rb_node α → List α
  | .nil => []
  | .mk v l r _ => [v] ++ iterate_preorder l ++ iterate_preorder r

def iterate_inorder : ll_rb_node α → List α
  | .nil => []
  | .mk v l r _ => iterate_inorder l ++ [v] ++ iterate_inorder r

def iterate_postorder : ll_rb_node α → List α
  | .nil => []
  | .mk v l r _ => iterate_postorder l ++ iterate_postorder r ++ [v]

def iterate_reverseorder : ll_rb_node α → List α
  | .nil => []
  | .mk v l r _ => iterate_reverseorder r ++ [v] ++ iterate_reverseorder l

def PRE_ORDER : Int := 0
def IN_ORDER : Int := 1
def POST_ORDER : Int := 2
def REVERSE_ORDER : Int := 3

def iterate (node : ll_rb_node α) (order : Int) : List α :=
  if order = PRE_ORDER then iterate_preorder node
  else if order = IN_ORDER then iterate_inorder node
  else if order = POST_ORDER then iterate_postorder node
  else if order = REVERSE_ORDER then iterate_reverseorder node
  else []

/-- Number of nodes. -/
def size : ll_rb_node α → Nat
  | .nil => 0
  | .mk _ l r _ => size l + size r + 1

/-- From `heteroset_test.go`. -/
def max_depth : ll_rb_node α → Nat
  | .nil => 0
  | .mk _ l r _ =>
    let ld := max_depth l
    let rd := max_depth r
    if ld > rd then ld + 1 else rd + 1

structure ll_rb_tree (α : Type) where
  root : ll_rb_node α
  count : Nat
deriving DecidableEq, Repr

/-- The loop of `find`; `iterations` is the running counter. The loop runs on nodes only, where
`node.compare_item(item)` is `compare_items` of the node's item. -/
def find_loop [Item α] (item : α) : ll_rb_node α → Nat → Bool × Nat
  | .nil, iterations => (false, iterations)
  | .mk v l r _, iterations =>
    let iterations := iterations + 1
    let cmp := compare_items v item
    if cmp > 0 then find_loop item l iterations
    else if cmp < 0 then find_loop item r iterations
    else (true, iterations)

def ll_rb_tree.find [Item α] (this : ll_rb_tree α) (item : α) : Bool × Nat :=
  if this.count = 0 then (false, 0) else find_loop item this.root 0

def ll_rb_tree.insert [Item α] (this : ll_rb_tree α) (item : α) : Except Fault (ll_rb_tree α) := do
  let (root, inserted) ← llrb_tree.insert this.root item
  let count := if inserted then (this.count + 1) % 2 ^ 64 else this.count
  let root ← set_red root false
  pure ⟨root, count⟩

/-- The method `delete` of the tree; the recursion budget of `delete` is the number of
nodes. -/
def ll_rb_tree.delete [Item α] (this : ll_rb_tree α) (item : α) : Except Fault (ll_rb_tree α) := do
  let (root, deleted) ← llrb_tree.delete (size this.root) this.root item
  let count := if deleted then (this.count + 2 ^ 64 - 1) % 2 ^ 64 else this.count
  let root ← set_red root false
  pure ⟨root, count⟩

def ll_rb_tree.iterator (this : ll_rb_tree α) (order : Int) : List α :=
  iterate this.root order

/-- The zero value of `ll_rb_tree`. -/
def ll_rb_tree.empty : ll_rb_tree α := ⟨.nil, 0⟩

/-! ## The item types of the tests -/

/-- The values of the two item types of `heteroset_test.go`: `type Int int` and
`type Real float64` (a finite `float64` is the rational number it denotes). -/
inductive TestItem where
  | Int (i : ℤ)
  | Real (r : ℚ)
deriving DecidableEq

/-- The bytes of the package path `mudlark/set/heteroset`. -/
def test_pkg_path : GoString :=
  [109, 117, 100, 108, 97, 114, 107, 47, 115, 101, 116, 47, 104, 101, 116, 101, 114, 111, 115,
    101, 116]

/-- The type `Int`; its name is the bytes of `Int`. -/
def Int_type : GoType := ⟨0, test_pkg_path, [73, 110, 116]⟩

/-- The type `Real`; its name is the bytes of `Real`. -/
def Real_type : GoType := ⟨1, test_pkg_path, [82, 101, 97, 108]⟩

/-- `Int.Less` and `Real.Less`. Each asserts that `other` has the receiver's type and panics
otherwise; that case is given the value `false` here (`compare_items` does not reach it, the two
type names being different). -/
instance : Item TestItem where
  TypeOf
    | .Int _ => Int_type
    | .Real _ => Real_type
  Less
    | .Int i, .Int j => decide (i < j)
    | .Real r, .Real s => decide (r < s)
    | _, _ => false

/-- The tree after `insert(Int(1))` into the empty tree. -/
def test_tree1 : ll_rb_tree TestItem := ⟨.mk (.Int 1) .nil .nil false, 1⟩

/-- The tree after `insert(Int(1))`, `insert(Int(2))`. -/
def test_tree2 : ll_rb_tree TestItem :=
  ⟨.mk (.Int 2) (.mk (.Int 1) .nil .nil true) .nil false, 2⟩

/-- The tree after `insert(Int(1))`, `insert(Int(2))`, `insert(Int(3))`. -/
def test_tree3 : ll_rb_tree TestItem :=
  ⟨.mk (.Int 2) (.mk (.Int 1) .nil .nil false) (.mk (.Int 3) .nil .nil false) false, 3⟩

/-! ## The vocabulary of the specification -/

/-- The requirements on `Less` among the items of one type: a strict weak order (irreflexive,
transitive, and being unordered either way is transitive). -/
structure LessContract (α : Type) [Item α] : Prop where
  irrefl : ∀ a : α, Item.Less a a = false
  trans : ∀ a b c : α, Item.TypeOf a = Item.TypeOf b → Item.TypeOf b = Item.TypeOf c →
    Item.Less a b = true → Item.Less b c = true → Item.Less a c = true
  incomp_trans : ∀ a b c : α, Item.TypeOf a = Item.TypeOf b → Item.TypeOf b = Item.TypeOf c →
    Item.Less a b = false → Item.Less b a = false → Item.Less b c = false →
    Item.Less c b = false → Item.Less a c = false ∧ Item.Less c a = false

/-- Distinct types have distinct (package path, type name) pairs. -/
def TypesNamedApart (α : Type) [Item α] : Prop :=
  ∀ a b : α, Item.TypeOf a ≠ Item.TypeOf b →
    (Item.TypeOf a).PkgPath ≠ (Item.TypeOf b).PkgPath ∨
      (Item.TypeOf a).Name ≠ (Item.TypeOf b).Name

/-- Item `a` orders before item `b`: a node holding `a` compares negative against `b`. -/
def before [Item α] (a b : α) : Prop := compare_items a b < 0

/-- Invariant (a): at every node, the items of the left subtree order before the node's item
and the node's item orders before the items of the right subtree. -/
def search_ordered [Item α] : ll_rb_node α → Prop
  | .nil => True
  | .mk v l r _ =>
    (∀ a ∈ iterate_inorder l, before a v) ∧ (∀ b ∈ iterate_inorder r, before v b) ∧
      search_ordered l ∧ search_ordered r

/-- Invariant (b): no node has a red right child. -/
def no_red_right : ll_rb_node α → Prop
  | .nil => True
  | .mk _ l r _ => is_red r = false ∧ no_red_right l ∧ no_red_right r

/-- Invariant (c): no red node has a red left child. -/
def no_red_red_left : ll_rb_node α → Prop
  | .nil => True
  | .mk _ l r c => (c = true → is_red l = false) ∧ no_red_red_left l ∧ no_red_red_left r

/-- The number of black nodes on each path from the root to an empty subtree, one entry per
path. -/
def black_counts : ll_rb_node α → List Nat
  | .nil => [0]
  | .mk _ l r c => (black_counts l ++ black_counts r).map (fun n => if c then n else n + 1)

/-- Invariant (d): every path from the root to an empty subtree passes through the same number
of black nodes. -/
def black_balanced (t : ll_rb_node α) : Prop :=
  ∀ m ∈ black_counts t, ∀ n ∈ black_counts t, m = n

/-- Invariant (e): the root is black (an empty tree has no red root). -/
def root_black (t : ll_rb_node α) : Prop := is_red t = false

/-- The LLRB invariants (a)-(e). -/
structure llrb_invariants [Item α] (t : ll_rb_node α) : Prop where
  ordered : search_ordered t
  right_black : no_red_right t
  no_red_red : no_red_red_left t
  balanced : black_balanced t
  black_root : root_black t

/-- Item `x` is stored in the tree: some stored item compares equal to it. -/
def stored [Item α] (t : ll_rb_node α) (x : α) : Prop :=
  ∃ y ∈ iterate_inorder t, compare_items y x = 0

/-- The trees that a sequence of insertions makes of the tree `t0`. -/
inductive reachable_from [Item α] (t0 : ll_rb_tree α) : ll_rb_tree α → Prop where
  | start : reachable_from t0 t0
  | step (t t' : ll_rb_tree α) (x : α) :
    reachable_from t0 t → t.insert x = .ok t' → reachable_from t0 t'

/-- The trees reachable from the empty tree by insertions. -/
def reachable [Item α] (t : ll_rb_tree α) : Prop := reachable_from ll_rb_tree.empty t

/-- Strictly ascending. -/
def ascending [Item α] (xs : List α) : Prop := xs.Pairwise before

/-- Black height along the left spine. -/
def bh : ll_rb_node α → Nat
  | .nil => 0
  | .mk _ l _ c => bh l + (if c then 0 else 1)

/-- Invariants (b), (c) and (d) of a subtree, in recursive form. -/
def LL : ll_rb_node α → Prop
  | .nil => True
  | .mk _ l r c => LL l ∧ LL r ∧ is_red r = false ∧ (c = true → is_red l = false) ∧ bh l = bh r

/-- As `LL`, except that a red root may have a red left child. -/
def LLw : ll_rb_node α → Prop
  | .nil => True
  | .mk _ l r _ => LL l ∧ LL r ∧ is_red r = false ∧ bh l = bh r

/-! ## Devices of the proofs -/

/-- The comparison that the loop of `cmp_string` computes, by recursion on the two strings. -/
def cmp_list : GoString → GoString → Int
  | x :: a, y :: b => if x < y then -1 else if x > y then 1 else cmp_list a b
  | [], b => ((0 : Nat) : Int) - (b.length : Int)
  | a, [] => (a.length : Int) - ((0 : Nat) : Int)

/-- What the tree needs of the comparison `compare_items`. -/
structure CmpOrder (α : Type) [Item α] : Prop where
  swap : ∀ a b : α, 0 < compare_items a b ↔ compare_items b a < 0
  trans : ∀ a b c : α, before a b → before b c → before a c
  eq_left : ∀ a b c : α, compare_items a b = 0 → before b c → before a c
  eq_right : ∀ a b c : α, compare_items b c = 0 → before a b → before a c

/-- What `delete` and `delete_left_most` need of the subtree they are called on: the children
have the invariants and the same black height, at most one of them is red, and the node is black
if one is. The colour of the node is otherwise free. -/
def DelPre : ll_rb_node α → Prop
  | .nil => False
  | .mk _ l r c =>
    LL l ∧ LL r ∧ bh l = bh r ∧ (is_red l = true → is_red r = false ∧ c = false) ∧
      (is_red r = true → c = false)

/-- What `delete` and `delete_left_most` give back for the subtree `t`: the result `t'` has the
invariants but for a red root with a red left child; if `t` is red or has a red child, `t'` has
all of them and the black height of `t`; if `t` has a red child, `t'` is black. -/
def DelPost : ll_rb_node α → ll_rb_node α → Prop
  | .nil, _ => False
  | .mk v l r c, t' =>
    LLw t' ∧
      ((c = true ∨ is_red l = true ∨ is_red r = true) → LL t' ∧ bh t' = bh (.mk v l r c)) ∧
      ((is_red l = true ∨ is_red r = true) → is_red t' = false)

/-- The items that do not compare equal to `x`. -/
def without [Item α] (x : α) (xs : List α) : List α :=
  xs.filter (fun y => decide (compare_items y x ≠ 0))

/-- The outcome of `delete` on the subtree `t` when `x` is stored in it: it returns, reports a
deletion, and the in-order sequence loses the item equal to `x`. -/
def DeleteResult [Item α] (x : α) (fuel : Nat) (t : ll_rb_node α) : Prop :=
  ∃ t', delete fuel t x = .ok (t', true) ∧ DelPost t t' ∧
    iterate_inorder t' = without x (iterate_inorder t) ∧
    (iterate_inorder t').length + 1 = (iterate_inorder t).length

/-- The statement proved of `delete` by induction on the recursion budget. -/
def DeleteSpec [Item α] (x : α) (fuel : Nat) : Prop :=
  ∀ (v : α) (l r : ll_rb_node α) (c : Bool), size (.mk v l r c) ≤ fuel →
    DelPre (.mk v l r c) → (is_red r = true → ¬ 0 < compare_items v x) →
    ascending (iterate_inorder (.mk v l r c)) → stored (.mk v l r c) x →
    DeleteResult x fuel (.mk v l r c)


/-! ## The calls of `Less` -/

/-- The calls of the method `Less` that the body of `compare_item` makes for a receiver whose
field `item` is `this_item`, as pairs (receiver of `Less`, argument) in the order of the calls:
`cmp_type` makes none, `this.item.Less(item)` is called when `ct` is 0, and
`item.Less(this.item)` after it when the first call returns false. -/
def compare_items_calls [Item α] (this_item item : α) : List (α × α) :=
  let ct := cmp_type this_item item
  if ct ≠ 0 then []
  else if Item.Less this_item item then [(this_item, item)]
  else [(this_item, item), (item, this_item)]

/-! ## Items of two types without a name -/

/-- The values of two pointer types `*A` and `*B` (`A` and `B` being struct types with one field
of type `int`, and `Less` declared on the pointers). -/
inductive PtrItem where
  | A (n : ℤ)
  | B (n : ℤ)
deriving DecidableEq

/-- The type `*A`: a pointer type has no name and no package path. -/
def PtrA_type : GoType := ⟨2, [], []⟩

/-- The type `*B`: a pointer type has no name and no package path. -/
def PtrB_type : GoType := ⟨3, [], []⟩

/-- Each `Less` compares the fields of two pointers of its own type; on a pointer of the other
type it is given the value `false`. -/
instance : Item PtrItem where
  TypeOf
    | .A _ => PtrA_type
    | .B _ => PtrB_type
  Less
    | .A i, .A j => decide (i < j)
    | .B i, .B j => decide (i < j)
    | _, _ => false

/-! ## Items of two more types without a name -/

/-- The values of two more pointer types, `*C` and `*D` (`C` and `D` being struct types with one
field of type `int`, and `Less` declared on the pointers). -/
inductive LooseItem where
  | C (n : ℤ)
  | D (n : ℤ)
deriving DecidableEq

/-- The type `*C`: a pointer type has no name and no package path. -/
def PtrC_type : GoType := ⟨4, [], []⟩

/-- The type `*D`: a pointer type has no name and no package path. -/
def PtrD_type : GoType := ⟨5, [], []⟩

/-- Each `Less` compares the fields of two pointers of its own type and returns true on a
pointer of the other type (the requirements on `Less` are on items of one type). -/
instance : Item LooseItem where
  TypeOf
    | .C _ => PtrC_type
    | .D _ => PtrD_type
  Less
    | .C i, .C j => decide (i < j)
    | .D i, .D j => decide (i < j)
    | _, _ => true

/-- The tree after `insert(C(0))` into the empty tree. -/
def loose_tree1 : ll_rb_tree LooseItem := ⟨.mk (.C 0) .nil .nil false, 1⟩

/-- The tree after `insert(C(0))`, `insert(D(0))`. -/
def loose_tree2 : ll_rb_tree LooseItem :=
  ⟨.mk (.D 0) (.mk (.C 0) .nil .nil true) .nil false, 2⟩

/-- The tree after `insert(C(0))`, `insert(D(0))`, `insert(D(1))`. -/
def loose_tree3 : ll_rb_tree LooseItem :=
  ⟨.mk (.D 0) (.mk (.C 0) .nil .nil false) (.mk (.D 1) .nil .nil false) false, 3⟩

/-- The tree after `insert(C(0))`, `insert(D(0))`, `insert(D(1))`, `insert(C(0))`. -/
def loose_tree4 : ll_rb_tree LooseItem :=
  ⟨.mk (.D 0) (.mk (.C 0) .nil .nil false)
    (.mk (.C 0) (.mk (.D 1) .nil .nil true) .nil false) false, 4⟩

/-- The tree after `insert(C(0))`, `insert(D(0))`, `insert(D(1))`, `insert(C(0))`,
`insert(C(1))`. -/
def loose_tree5 : ll_rb_tree LooseItem :=
  ⟨.mk (.C 0)
    (.mk (.D 0) (.mk (.C 0) .nil .nil false) (.mk (.D 1) .nil .nil false) true)
    (.mk (.C 1) .nil .nil false) false, 5⟩

/-- The tree after `insert(D(0))`, `insert(C(0))`, `insert(C(1))`. -/
def loose_tree6 : ll_rb_tree LooseItem :=
  ⟨.mk (.C 0) (.mk (.D 0) .nil .nil false) (.mk (.C 1) .nil .nil false) false, 3⟩

/-! ## The set layer -/

/-- The tree-level insertions of the items of a list, in the order of the list. -/
def insert_all [Item α] : ll_rb_tree α → List α → Except Fault (ll_rb_tree α)
  | t, [] => pure t
  | t, x :: xs => do
    let t ← t.insert x
    insert_all t xs

/-- Modelled from the spec: the constructor `New(items...)` of the package `heteroset`, whose
source file is not among the sources. It builds an empty tree and inserts each supplied item in
argument order. -/
def New [Item α] (items : List α) : Except Fault (ll_rb_tree α) :=
  insert_all ll_rb_tree.empty items

/-- Modelled from the spec: the method `Add` of the package `heteroset`, whose source file is
not among the sources. It inserts and ignores the `inserted` flag. -/
def Add [Item α] (set : ll_rb_tree α) (item : α) : Except Fault (ll_rb_tree α) :=
  set.insert item

/-- Modelled from the spec: the function `Intersect` of the package `heteroset`, whose source
file is not among the sources. It is true iff some item of the in-order enumeration of the first
set is found in the second by `find`. -/
def Intersect [Item α] (a b : ll_rb_tree α) : Bool :=
  (a.iterator IN_ORDER).any (fun item => (b.find item).1)

/-- Modelled from the spec: the function `Disjoint` of the package `heteroset`, whose source
file is not among the sources. It is the negation of `Intersect`. -/
def Disjoint [Item α] (a b : ll_rb_tree α) : Bool :=
  !Intersect a b

/-- The value of an `int` expression whose mathematical value is `n`: an `int` is taken to be
64 bits wide, and its arithmetic wraps around. -/
def wrap_int (n : ℤ) : ℤ := (n + 2 ^ 63) % 2 ^ 64 - 2 ^ 63

/-- The loop `for i := begin; i <= end; i++ { set.Add(i) }` of `make_Int_set_serial`, from the
test of the loop condition on. The loop variable is an `int` and `i++` wraps around, so the loop
need not end; it has a recursion budget, as `delete` has. -/
def make_Int_set_serial_loop :
    Nat → ℤ → ℤ → ll_rb_tree TestItem → Except Fault (ll_rb_tree TestItem)
  | 0, _, _, _ => .error .out_of_fuel
  | fuel + 1, i, end_, set =>
    if i ≤ end_ then do
      let set ← Add set (.Int i)
      make_Int_set_serial_loop fuel (wrap_int (i + 1)) end_ set
    else pure set

/-- From `heteroset_test.go`: the set of the items `Int(i)` for `i` from `begin` to `end`, with
the recursion budget of the loop. -/
def make_Int_set_serial (fuel : Nat) (begin end_ : ℤ) :
    Except Fault (ll_rb_tree TestItem) := do
  let set ← New []
  make_Int_set_serial_loop fuel begin end_ set

/-! ## More vocabulary of the specification -/

/-- The requirements on `Less` that the comment on the interface `Item` documents, for items
`a`, `b` and `c` of one type: `a.Less(b)` implies `!b.Less(a)`; `a.Less(b) && b.Less(c)` implies
`a.Less(c)`; `!a.Less(b) && !b.Less(a)` implies `a == b`. -/
structure LessRequirements (α : Type) [Item α] : Prop where
  asymm : ∀ a b : α, Item.TypeOf a = Item.TypeOf b → Item.Less a b = true →
    Item.Less b a = false
  trans : ∀ a b c : α, Item.TypeOf a = Item.TypeOf b → Item.TypeOf b = Item.TypeOf c →
    Item.Less a b = true → Item.Less b c = true → Item.Less a c = true
  eq_of_incomp : ∀ a b : α, Item.TypeOf a = Item.TypeOf b → Item.Less a b = false →
    Item.Less b a = false → a = b

/-- The number of items of `xs` that compare equal neither to an item of `seen` nor to an
earlier item of `xs`. -/
def count_new [Item α] : List α → List α → Nat
  | _, [] => 0
  | seen, x :: xs =>
    (if seen.any (fun y => decide (compare_items y x = 0)) then 0 else 1) +
      count_new (x :: seen) xs

/-- The number of distinct items of a list under the heterogeneous ordering: items that compare
equal are counted once. -/
def distinct_count [Item α] (xs : List α) : Nat := count_new [] xs

/-- Byte-wise lexicographic order of strings: the first byte that differs decides, and a string
sorts before every string that extends it. -/
def lex_less (a b : GoString) : Prop := List.Lex (fun x y : Nat => x < y) a b

/-! ## Evaluation of the primitive steps -/

@[simp] theorem ok_bind {β γ : Type} (a : β) (f : β → Except Fault γ) :
    (Except.ok a >>= f) = f a := rfl

@[simp] theorem error_bind {β γ : Type} (e : Fault) (f : β → Except Fault γ) :
    ((Except.error e : Except Fault β) >>= f) = Except.error e := rfl

@[simp] theorem pure_eq_ok {β : Type} (a : β) : (pure a : Except Fault β) = Except.ok a := rfl

@[simp] theorem rotate_left_mk (v w : α) (l rl rr : ll_rb_node α) (c rc : Bool) :
    rotate_left (.mk v l (.mk w rl rr rc) c) = .ok (.mk w (.mk v l rl true) rr c) := rfl

@[simp] theorem rotate_right_mk (v w : α) (ll lr r : ll_rb_node α) (c lc : Bool) :
    rotate_right (.mk v (.mk w ll lr lc) r c) = .ok (.mk w ll (.mk v lr r true) c) := rfl

@[simp] theorem flip_colours_mk (v lv rv : α) (ll lr rl rr : ll_rb_node α) (c lc rc : Bool) :
    flip_colours (.mk v (.mk lv ll lr lc) (.mk rv rl rr rc) c) =
      .ok (.mk v (.mk lv ll lr (!lc)) (.mk rv rl rr (!rc)) (!c)) := rfl

@[simp] theorem is_red_nil : is_red (ll_rb_node.nil : ll_rb_node α) = false := rfl

@[simp] theorem is_red_mk (v : α) (l r : ll_rb_node α) (c : Bool) :
    is_red (.mk v l r c) = c := rfl

@[simp] theorem get_left_mk (v : α) (l r : ll_rb_node α) (c : Bool) :
    get_left (.mk v l r c) = .ok l := rfl

@[simp] theorem get_right_mk (v : α) (l r : ll_rb_node α) (c : Bool) :
    get_right (.mk v l r c) = .ok r := rfl

@[simp] theorem iterate_inorder_nil : iterate_inorder (ll_rb_node.nil : ll_rb_node α) = [] := rfl

@[simp] theorem iterate_inorder_mk (v : α) (l r : ll_rb_node α) (c : Bool) :
    iterate_inorder (.mk v l r c) = iterate_inorder l ++ v :: iterate_inorder r := by
  simp [iterate_inorder]

@[simp] theorem size_nil : size (ll_rb_node.nil : ll_rb_node α) = 0 := rfl

@[simp] theorem size_mk (v : α) (l r : ll_rb_node α) (c : Bool) :
    size (.mk v l r c) = size l + size r + 1 := rfl

/-! ## Closed forms of `fix_up` -/

/-- Nothing to repair: the right child is black and there is no red left child with a red left
child. -/
theorem fix_up_id (v : α) (l r : ll_rb_node α) (c : Bool) (hr : is_red r = false)
    (hl : is_red l = true → ∀ l', get_left l = .ok l' → is_red l' = false) :
    fix_up (.mk v l r c) = .ok (.mk v l r c) := by
  rcases l with _ | ⟨lv, ll, lr, lc⟩
  · simp [fix_up, hr]
  · cases lc
    · simp [fix_up, hr]
    · have := hl rfl ll rfl
      simp [fix_up, hr, this]

/-- A red right child beside a black left child is rotated to the left. -/
theorem fix_up_rotate_left (v rv : α) (l rl rr : ll_rb_node α) (c : Bool)
    (hl : is_red l = false) (hrr : is_red rr = false) :
    fix_up (.mk v l (.mk rv rl rr true) c) = .ok (.mk rv (.mk v l rl true) rr c) := by
  simp [fix_up, hl, hrr]

/-- Two red children are both made black and the node changes colour. -/
theorem fix_up_flip (v lv rv : α) (ll lr rl rr : ll_rb_node α) (c : Bool)
    (hll : is_red ll = false) :
    fix_up (.mk v (.mk lv ll lr true) (.mk rv rl rr true) c) =
      .ok (.mk v (.mk lv ll lr false) (.mk rv rl rr false) (!c)) := by
  simp [fix_up, hll]

/-- A red left child with a red left child is rotated to the right, then the colours are
flipped. -/
theorem fix_up_rotate_right (v lv llv : α) (lll llr lr r : ll_rb_node α) (c : Bool)
    (hr : is_red r = false) :
    fix_up (.mk v (.mk lv (.mk llv lll llr true) lr true) r c) =
      .ok (.mk lv (.mk llv lll llr false) (.mk v lr r false) (!c)) := by
  simp [fix_up, hr]

/-! ## `cmp_string` -/

theorem cmp_string_loop_eq (a b : GoString) : ∀ (n i : Nat),
    n + i ≤ a.length → n + i ≤ b.length → (n + i = a.length ∨ n + i = b.length) →
    cmp_string_loop a b n i = cmp_list (a.drop i) (b.drop i) := by
  intro n
  induction n with
  | zero =>
    intro i hia hib hi
    simp only [Nat.zero_add] at hi hia hib
    simp only [cmp_string_loop]
    rcases hi with h | h
    · have : a.drop i = [] := by rw [h]; exact List.drop_length a
      rw [this]
      cases hb : b.drop i with
      | nil =>
        have := congrArg List.length hb
        simp at this
        simp [cmp_list]; omega
      | cons y ys =>
        have := congrArg List.length hb
        simp at this
        simp [cmp_list]; omega
    · have : b.drop i = [] := by rw [h]; exact List.drop_length b
      rw [this]
      cases ha : a.drop i with
      | nil =>
        have := congrArg List.length ha
        simp at this
        simp [cmp_list]; omega
      | cons y ys =>
        have := congrArg List.length ha
        simp at this
        simp [cmp_list]; omega
  | succ n ih =>
    intro i hia hib hi
    have hia' : i < a.length := by omega
    have hib' : i < b.length := by omega
    rw [List.drop_eq_getElem_cons hia', List.drop_eq_getElem_cons hib']
    simp only [cmp_string_loop, cmp_list]
    have ha : a.getD i 0 = a[i] := by simp [List.getD, List.getElem?_eq_getElem hia']
    have hb : b.getD i 0 = b[i] := by simp [List.getD, List.getElem?_eq_getElem hib']
    rw [ha, hb, ih (i + 1) (by omega) (by omega) (by omega)]

theorem cmp_string_eq_cmp_list (a b : GoString) : cmp_string a b = cmp_list a b := by
  unfold cmp_string
  have h := cmp_string_loop_eq a b (min (a.length : Int) (b.length : Int)).toNat 0
  simp only [List.drop_zero, Nat.add_zero] at h
  apply h
  · unfold min; split <;> omega
  · unfold min; split <;> omega
  · unfold min; split <;> omega

theorem cmp_list_eq_zero : ∀ (a b : GoString), cmp_list a b = 0 ↔ a = b
  | [], [] => by simp [cmp_list]
  | [], y :: b => by simp [cmp_list]; omega
  | x :: a, [] => by simp [cmp_list]; omega
  | x :: a, y :: b => by
    have ih := cmp_list_eq_zero a b
    simp only [cmp_list]
    split
    · constructor
      · intro h; omega
      · intro h; simp at h; omega
    · split
      · constructor
        · intro h; omega
        · intro h; simp at h; omega
      · have : x = y := by omega
        simp [ih, this]

theorem cmp_list_swap : ∀ (a b : GoString), 0 < cmp_list a b ↔ cmp_list b a < 0
  | [], [] => by simp [cmp_list]
  | [], y :: b => by simp [cmp_list]; omega
  | x :: a, [] => by simp [cmp_list]; omega
  | x :: a, y :: b => by
    have ih := cmp_list_swap a b
    simp only [cmp_list]
    by_cases h1 : x < y
    · have h2 : ¬ y < x := by omega
      simp [h1, h2]
    · by_cases h2 : y < x
      · simp [h1, h2]
      · simp [h1, h2, ih]

theorem cmp_list_trans : ∀ (a b c : GoString),
    cmp_list a b < 0 → cmp_list b c < 0 → cmp_list a c < 0
  | [], [], _ => by simp [cmp_list]
  | [], _ :: _, [] => by simp [cmp_list]; omega
  | [], _ :: _, _ :: _ => by simp [cmp_list]; omega
  | _ :: _, [], _ => by simp [cmp_list]; omega
  | _ :: _, _ :: _, [] => by simp [cmp_list]; omega
  | x :: a, y :: b, z :: c => by
    have ih := cmp_list_trans a b c
    simp only [cmp_list]
    by_cases h1 : x < y
    · by_cases h2 : y < z
      · have : x < z := by omega
        simp [h1, h2, this]
      · by_cases h3 : z < y
        · simp [h1, h2, h3]
        · have : x < z := by omega
          simp [h1, h2, h3, this]
    · by_cases h1' : y < x
      · simp [h1, h1']
      · have hxy : x = y := by omega
        subst hxy
        by_cases h2 : x < z
        · simp [h1, h2]
        · by_cases h3 : z < x
          · simp [h1, h2, h3]
          · simpa [h1, h2, h3] using ih

theorem cmp_string_eq_zero (a b : GoString) : cmp_string a b = 0 ↔ a = b := by
  rw [cmp_string_eq_cmp_list]; exact cmp_list_eq_zero a b

theorem cmp_string_swap (a b : GoString) : 0 < cmp_string a b ↔ cmp_string b a < 0 := by
  rw [cmp_string_eq_cmp_list, cmp_string_eq_cmp_list]; exact cmp_list_swap a b

theorem cmp_string_trans (a b c : GoString) :
    cmp_string a b < 0 → cmp_string b c < 0 → cmp_string a c < 0 := by
  rw [cmp_string_eq_cmp_list, cmp_string_eq_cmp_list, cmp_string_eq_cmp_list]
  exact cmp_list_trans a b c

/-! ## `cmp_type` and `compare_items` -/

theorem cmp_type_self_type [Item α] (a b : α) (h : Item.TypeOf a = Item.TypeOf b) :
    cmp_type a b = 0 := by
  simp [cmp_type, h]

theorem cmp_type_congr_left [Item α] (a b c : α) (h : Item.TypeOf a = Item.TypeOf b) :
    cmp_type a c = cmp_type b c := by
  simp [cmp_type, h]

theorem cmp_type_congr_right [Item α] (a b c : α) (h : Item.TypeOf b = Item.TypeOf c) :
    cmp_type a b = cmp_type a c := by
  simp [cmp_type, h]

theorem cmp_type_eq_zero [Item α] (hT : TypesNamedApart α) (a b : α) :
    cmp_type a b = 0 ↔ Item.TypeOf a = Item.TypeOf b := by
  constructor
  · intro h
    by_contra hne
    simp only [cmp_type, hne, if_false] at h
    by_cases hp : cmp_string (Item.TypeOf a).PkgPath (Item.TypeOf b).PkgPath = 0
    · simp only [hp, ne_eq, not_true_eq_false, if_false] at h
      rcases hT a b hne with h1 | h1
      · exact h1 ((cmp_string_eq_zero _ _).1 hp)
      · exact h1 ((cmp_string_eq_zero _ _).1 h)
    · simp only [ne_eq, hp, not_false_eq_true, if_true] at h
  · exact cmp_type_self_type a b

theorem cmp_type_neg_iff [Item α] (a b : α) :
    cmp_type a b < 0 ↔ Item.TypeOf a ≠ Item.TypeOf b ∧
      (cmp_string (Item.TypeOf a).PkgPath (Item.TypeOf b).PkgPath < 0 ∨
        ((Item.TypeOf a).PkgPath = (Item.TypeOf b).PkgPath ∧
          cmp_string (Item.TypeOf a).Name (Item.TypeOf b).Name < 0)) := by
  by_cases hne : Item.TypeOf a = Item.TypeOf b
  · simp [cmp_type, hne]
  · simp only [cmp_type, hne, if_false, ne_eq, not_false_eq_true, true_and]
    by_cases hp : cmp_string (Item.TypeOf a).PkgPath (Item.TypeOf b).PkgPath = 0
    · have hpe := (cmp_string_eq_zero _ _).1 hp
      simp only [hp, not_true_eq_false, if_false, lt_self_iff_false, false_or]
      exact ⟨fun h => ⟨hpe, h⟩, fun h => h.2⟩
    · have hpe : ¬ (Item.TypeOf a).PkgPath = (Item.TypeOf b).PkgPath := fun h =>
        hp ((cmp_string_eq_zero _ _).2 h)
      simp [hp, hpe]

theorem cmp_type_swap [Item α] (a b : α) : 0 < cmp_type a b ↔ cmp_type b a < 0 := by
  by_cases hne : Item.TypeOf a = Item.TypeOf b
  · simp [cmp_type, hne]
  · have hne' : ¬ Item.TypeOf b = Item.TypeOf a := fun h => hne h.symm
    simp only [cmp_type, hne, hne', if_false, ne_eq]
    by_cases hp : cmp_string (Item.TypeOf a).PkgPath (Item.TypeOf b).PkgPath = 0
    · have hpe := (cmp_string_eq_zero _ _).1 hp
      have hp' : cmp_string (Item.TypeOf b).PkgPath (Item.TypeOf a).PkgPath = 0 :=
        (cmp_string_eq_zero _ _).2 hpe.symm
      simp only [hp, hp', not_true_eq_false, if_false]
      exact cmp_string_swap _ _
    · have hp' : ¬ cmp_string (Item.TypeOf b).PkgPath (Item.TypeOf a).PkgPath = 0 := fun h =>
        hp ((cmp_string_eq_zero _ _).2 ((cmp_string_eq_zero _ _).1 h).symm)
      simp only [hp, hp', not_false_eq_true, if_true]
      exact cmp_string_swap _ _

theorem cmp_string_irrefl (a : GoString) : ¬ cmp_string a a < 0 := by
  have := (cmp_string_eq_zero a a).2 rfl
  omega

theorem cmp_type_trans [Item α] (a b c : α) :
    cmp_type a b < 0 → cmp_type b c < 0 → cmp_type a c < 0 := by
  rw [cmp_type_neg_iff, cmp_type_neg_iff, cmp_type_neg_iff]
  rintro ⟨_, h1⟩ ⟨_, h2⟩
  have key : cmp_string (Item.TypeOf a).PkgPath (Item.TypeOf c).PkgPath < 0 ∨
      ((Item.TypeOf a).PkgPath = (Item.TypeOf c).PkgPath ∧
        cmp_string (Item.TypeOf a).Name (Item.TypeOf c).Name < 0) := by
    rcases h1 with h1 | ⟨e1, h1⟩ <;> rcases h2 with h2 | ⟨e2, h2⟩
    · exact Or.inl (cmp_string_trans _ _ _ h1 h2)
    · left; rw [← e2]; exact h1
    · left; rw [e1]; exact h2
    · right; exact ⟨e1.trans e2, cmp_string_trans _ _ _ h1 h2⟩
  refine ⟨?_, key⟩
  intro hac
  rcases key with k | ⟨_, k⟩
  · rw [hac] at k; exact cmp_string_irrefl _ k
  · rw [hac] at k; exact cmp_string_irrefl _ k

theorem compare_items_neg_iff [Item α] (a b : α) :
    compare_items a b < 0 ↔
      cmp_type a b < 0 ∨ (cmp_type a b = 0 ∧ Item.Less a b = true) := by
  unfold compare_items
  by_cases h : cmp_type a b = 0
  · cases hab : Item.Less a b <;> cases hba : Item.Less b a <;> simp [h]
  · simp [h]

theorem compare_items_pos_iff [Item α] (a b : α) :
    0 < compare_items a b ↔
      0 < cmp_type a b ∨
        (cmp_type a b = 0 ∧ Item.Less a b = false ∧ Item.Less b a = true) := by
  unfold compare_items
  by_cases h : cmp_type a b = 0
  · cases hab : Item.Less a b <;> cases hba : Item.Less b a <;> simp [h]
  · simp [h]

theorem compare_items_zero_iff [Item α] (a b : α) :
    compare_items a b = 0 ↔
      cmp_type a b = 0 ∧ Item.Less a b = false ∧ Item.Less b a = false := by
  unfold compare_items
  by_cases h : cmp_type a b = 0
  · cases hab : Item.Less a b <;> cases hba : Item.Less b a <;> simp [h]
  · simp [h]

theorem less_asymm [Item α] (hL : LessContract α) (a b : α)
    (ht : Item.TypeOf a = Item.TypeOf b) (h : Item.Less a b = true) : Item.Less b a = false := by
  by_contra h'
  have h'' : Item.Less b a = true := by simpa using h'
  have := hL.trans a b a ht ht.symm h h''
  rw [hL.irrefl a] at this
  exact Bool.noConfusion this

/-- Under the requirements on `Less`, and with types told apart by their names,
`compare_items` is a comparison the tree can use. -/
theorem cmp_order_of_contract [Item α] (hL : LessContract α) (hT : TypesNamedApart α) :
    CmpOrder α := by
  have tz := cmp_type_eq_zero hT
  have zsymm : ∀ a b : α, cmp_type a b = 0 → cmp_type b a = 0 := fun a b h =>
    (tz b a).2 ((tz a b).1 h).symm
  refine ⟨?_, ?_, ?_, ?_⟩
  · intro a b
    rw [compare_items_pos_iff, compare_items_neg_iff, cmp_type_swap]
    constructor
    · rintro (h | ⟨h0, _, h2⟩)
      · exact Or.inl h
      · exact Or.inr ⟨zsymm a b h0, h2⟩
    · rintro (h | ⟨h0, h2⟩)
      · exact Or.inl h
      · exact Or.inr ⟨zsymm b a h0, less_asymm hL b a ((tz b a).1 h0) h2, h2⟩
  · intro a b c
    unfold before
    rw [compare_items_neg_iff, compare_items_neg_iff, compare_items_neg_iff]
    rintro (h1 | ⟨z1, l1⟩) (h2 | ⟨z2, l2⟩)
    · exact Or.inl (cmp_type_trans a b c h1 h2)
    · left; rw [← cmp_type_congr_right a b c ((tz b c).1 z2)]; exact h1
    · left; rw [cmp_type_congr_left a b c ((tz a b).1 z1)]; exact h2
    · right
      exact ⟨(tz a c).2 (((tz a b).1 z1).trans ((tz b c).1 z2)),
        hL.trans a b c ((tz a b).1 z1) ((tz b c).1 z2) l1 l2⟩
  · intro a b c
    unfold before
    rw [compare_items_zero_iff, compare_items_neg_iff, compare_items_neg_iff]
    rintro ⟨z1, n1, n2⟩ (h2 | ⟨z2, l2⟩)
    · left; rw [cmp_type_congr_left a b c ((tz a b).1 z1)]; exact h2
    · right
      have tab := (tz a b).1 z1
      have tbc := (tz b c).1 z2
      refine ⟨(tz a c).2 (tab.trans tbc), ?_⟩
      by_contra hac
      have hac' : Item.Less a c = false := by simpa using hac
      cases hca : Item.Less c a with
      | true =>
        have := hL.trans b c a tbc (tab.trans tbc).symm l2 hca
        rw [n2] at this
        exact Bool.noConfusion this
      | false =>
        have := (hL.incomp_trans b a c tab.symm (tab.trans tbc) n2 n1 hac' hca).1
        rw [l2] at this
        exact Bool.noConfusion this
  · intro a b c
    unfold before
    rw [compare_items_zero_iff, compare_items_neg_iff, compare_items_neg_iff]
    rintro ⟨z1, n1, n2⟩ (h2 | ⟨z2, l2⟩)
    · left; rw [← cmp_type_congr_right a b c ((tz b c).1 z1)]; exact h2
    · right
      have tbc := (tz b c).1 z1
      have tab := (tz a b).1 z2
      refine ⟨(tz a c).2 (tab.trans tbc), ?_⟩
      by_contra hac
      have hac' : Item.Less a c = false := by simpa using hac
      cases hca : Item.Less c a with
      | true =>
        have := hL.trans c a b (tab.trans tbc).symm tab hca l2
        rw [n2] at this
        exact Bool.noConfusion this
      | false =>
        have := (hL.incomp_trans a c b (tab.trans tbc) tbc.symm hac' hca n2 n1).1
        rw [l2] at this
        exact Bool.noConfusion this

/-! ## The item types of the tests meet the requirements -/

theorem test_item_less_contract : LessContract TestItem := by
  refine ⟨?_, ?_, ?_⟩
  · intro a
    cases a <;> simp [Item.Less]
  · intro a b c h1 h2
    cases a <;> cases b <;> cases c <;>
      simp [Item.Less, Item.TypeOf, Int_type, Real_type] at h1 h2 ⊢
    · intro h1 h2; exact lt_trans h1 h2
    · intro h1 h2; exact lt_trans h1 h2
  · intro a b c h1 h2
    cases a <;> cases b <;> cases c <;>
      simp [Item.Less, Item.TypeOf, Int_type, Real_type] at h1 h2 ⊢
    · intro h1 h2 h3 h4
      constructor <;> omega
    · intro h1 h2 h3 h4
      exact ⟨le_trans h3 h1, le_trans h2 h4⟩

theorem test_item_types_named_apart : TypesNamedApart TestItem := by
  intro a b h
  cases a <;> cases b
  · exact absurd rfl h
  · right; simp [Item.TypeOf, Int_type, Real_type]
  · right; simp [Item.TypeOf, Int_type, Real_type]
  · exact absurd rfl h

theorem test_item_cmp_order : CmpOrder TestItem :=
  cmp_order_of_contract test_item_less_contract test_item_types_named_apart

/-! ## The invariants in recursive form -/

@[simp] theorem bh_nil : bh (ll_rb_node.nil : ll_rb_node α) = 0 := rfl

@[simp] theorem bh_mk (v : α) (l r : ll_rb_node α) (c : Bool) :
    bh (.mk v l r c) = bh l + (if c then 0 else 1) := rfl

@[simp] theorem LL_nil : LL (ll_rb_node.nil : ll_rb_node α) := trivial

@[simp] theorem LLw_nil : LLw (ll_rb_node.nil : ll_rb_node α) := trivial

theorem LL_mk (v : α) (l r : ll_rb_node α) (c : Bool) :
    LL (.mk v l r c) ↔
      LL l ∧ LL r ∧ is_red r = false ∧ (c = true → is_red l = false) ∧ bh l = bh r := Iff.rfl

theorem LL_weak {t : ll_rb_node α} (h : LL t) : LLw t := by
  cases t with
  | nil => trivial
  | mk v l r c => exact ⟨h.1, h.2.1, h.2.2.1, h.2.2.2.2⟩

theorem LLw_strong {t : ll_rb_node α} (h : LLw t) (hb : is_red t = false) : LL t := by
  cases t with
  | nil => trivial
  | mk v l r c =>
    simp only [is_red_mk] at hb
    subst hb
    exact ⟨h.1, h.2.1, h.2.2.1, fun h' => Bool.noConfusion h', h.2.2.2⟩

theorem LL_red_left {l : ll_rb_node α} (h : LL l) (hr : is_red l = true) :
    ∀ l', get_left l = .ok l' → is_red l' = false := by
  cases l with
  | nil => simp at hr
  | mk v ll lr c =>
    intro l' hl'
    simp only [get_left_mk, Except.ok.injEq] at hl'
    subst hl'
    simp only [is_red_mk] at hr
    exact h.2.2.2.1 hr

theorem fix_up_id_LL (v : α) (l r : ll_rb_node α) (c : Bool) (hl : LL l)
    (hr : is_red r = false) : fix_up (.mk v l r c) = .ok (.mk v l r c) :=
  fix_up_id v l r c hr (LL_red_left hl)

theorem black_counts_ne_nil : ∀ t : ll_rb_node α, bh t ∈ black_counts t
  | .nil => by simp [black_counts]
  | .mk v l r c => by
    have := black_counts_ne_nil l
    simp only [black_counts, List.mem_map, List.mem_append, bh_mk]
    exact ⟨bh l, Or.inl this, by cases c <;> simp⟩

theorem black_balanced_mk (v : α) (l r : ll_rb_node α) (c : Bool) :
    black_balanced (.mk v l r c) ↔ black_balanced l ∧ black_balanced r ∧ bh l = bh r := by
  have hl := black_counts_ne_nil l
  have hr := black_counts_ne_nil r
  have inj : ∀ m n : Nat, (if c then m else m + 1) = (if c then n else n + 1) → m = n := by
    intro m n h
    cases c <;> simp at h <;> exact h
  unfold black_balanced
  simp only [black_counts, List.mem_map, List.mem_append]
  constructor
  · intro h
    have key : ∀ m n, (m ∈ black_counts l ∨ m ∈ black_counts r) →
        (n ∈ black_counts l ∨ n ∈ black_counts r) → m = n := fun m n hm hn =>
      inj m n (h _ ⟨m, hm, rfl⟩ _ ⟨n, hn, rfl⟩)
    exact ⟨fun m hm n hn => key m n (Or.inl hm) (Or.inl hn),
      fun m hm n hn => key m n (Or.inr hm) (Or.inr hn), key _ _ (Or.inl hl) (Or.inr hr)⟩
  · rintro ⟨h1, h2, h3⟩ m ⟨m', hm', rfl⟩ n ⟨n', hn', rfl⟩
    have e1 : m' = bh l := by
      rcases hm' with h | h
      · exact h1 _ h _ hl
      · rw [h3]; exact h2 _ h _ hr
    have e2 : n' = bh l := by
      rcases hn' with h | h
      · exact h1 _ h _ hl
      · rw [h3]; exact h2 _ h _ hr
    rw [e1, e2]

/-- Invariants (b), (c) and (d) together are the recursive invariant `LL`. -/
theorem LL_iff : ∀ t : ll_rb_node α,
    LL t ↔ no_red_right t ∧ no_red_red_left t ∧ black_balanced t
  | .nil => by
    simp only [LL_nil, no_red_right, no_red_red_left, true_and, true_iff]
    intro m hm n hn
    simp only [black_counts, List.mem_singleton] at hm hn
    rw [hm, hn]
  | .mk v l r c => by
    rw [LL_mk, LL_iff l, LL_iff r, black_balanced_mk]
    simp only [no_red_right, no_red_red_left]
    tauto

/-! ## Search order and the in-order sequence -/

theorem size_eq_length : ∀ t : ll_rb_node α, size t = (iterate_inorder t).length
  | .nil => rfl
  | .mk v l r c => by
    simp [size_eq_length l, size_eq_length r]
    omega

theorem sorted_mid [Item α] (ho : CmpOrder α) (L R : List α) (v : α) :
    (L ++ v :: R).Pairwise before ↔
      L.Pairwise before ∧ R.Pairwise before ∧ (∀ a ∈ L, before a v) ∧ (∀ b ∈ R, before v b) := by
  rw [List.pairwise_append, List.pairwise_cons]
  constructor
  · rintro ⟨h1, ⟨h2, h3⟩, h4⟩
    exact ⟨h1, h3, fun a ha => h4 a ha v (List.mem_cons_self _ _), h2⟩
  · rintro ⟨h1, h2, h3, h4⟩
    refine ⟨h1, ⟨h4, h2⟩, ?_⟩
    intro a ha b hb
    rcases List.mem_cons.1 hb with rfl | hb
    · exact h3 a ha
    · exact ho.trans _ _ _ (h3 a ha) (h4 b hb)

/-- Invariant (a) says that the in-order sequence is strictly ascending. -/
theorem search_ordered_iff [Item α] (ho : CmpOrder α) : ∀ t : ll_rb_node α,
    search_ordered t ↔ (iterate_inorder t).Pairwise before
  | .nil => by simp [search_ordered]
  | .mk v l r c => by
    rw [iterate_inorder_mk, sorted_mid ho, search_ordered, search_ordered_iff ho l,
      search_ordered_iff ho r]
    tauto

theorem cmp_refl [Item α] (ho : CmpOrder α) (a : α) : compare_items a a = 0 := by
  have h := ho.swap a a
  omega

theorem cmp_zero_symm [Item α] (ho : CmpOrder α) (a b : α) (h : compare_items a b = 0) :
    compare_items b a = 0 := by
  have h1 := ho.swap a b
  have h2 := ho.swap b a
  omega

/-! ## `fix_up` on the way back from an insertion -/

theorem fix_up_ins_left (v : α) (l r : ll_rb_node α) (c : Bool) (hl : LLw l)
    (hlc : c = true → LL l) (hr : LL r) (hrb : is_red r = false) (hb : bh l = bh r) :
    ∃ t, fix_up (.mk v l r c) = .ok t ∧
      iterate_inorder t = iterate_inorder l ++ v :: iterate_inorder r ∧
      LLw t ∧ (c = false → LL t) ∧ bh t = bh l + (if c then 0 else 1) := by
  by_cases hLL : LL l
  · refine ⟨_, fix_up_id_LL v l r c hLL hrb, by simp, ⟨hLL, hr, hrb, hb⟩, ?_, by simp⟩
    intro hc
    exact ⟨hLL, hr, hrb, fun h => by rw [hc] at h; exact Bool.noConfusion h, hb⟩
  · have hc : c = false := by
      cases c
      · rfl
      · exact absurd (hlc rfl) hLL
    subst hc
    rcases l with _ | ⟨lv, ll, lr, lc⟩
    · exact absurd trivial hLL
    · cases lc
      · exact absurd (LLw_strong hl rfl) hLL
      · rcases ll with _ | ⟨llv, lll, llr, llc⟩
        · exact absurd ⟨hl.1, hl.2.1, hl.2.2.1, fun _ => rfl, hl.2.2.2⟩ hLL
        · cases llc
          · exact absurd ⟨hl.1, hl.2.1, hl.2.2.1, fun _ => rfl, hl.2.2.2⟩ hLL
          · obtain ⟨h1, h2, h3, h4⟩ := hl
            obtain ⟨h5, h6, h7, h8, h9⟩ := h1
            have e1 : bh lll = bh lr := by simpa using h4
            have e2 : bh lll = bh r := by simpa using hb
            have hA : LL (.mk llv lll llr false) := ⟨h5, h6, h7, fun h => Bool.noConfusion h, h9⟩
            have hB : LL (.mk v lr r false) :=
              ⟨h2, hr, hrb, fun h => Bool.noConfusion h, by omega⟩
            have e3 : bh (.mk llv lll llr false) = bh (.mk v lr r false) := by simp; omega
            refine ⟨_, fix_up_rotate_right v lv llv lll llr lr r false hrb, by simp, ?_, ?_, ?_⟩
            · exact ⟨hA, hB, rfl, e3⟩
            · intro _
              exact ⟨hA, hB, rfl, fun _ => rfl, e3⟩
            · simp

theorem fix_up_ins_right (v : α) (l r : ll_rb_node α) (c : Bool) (hl : LL l) (hr : LL r)
    (hlc : c = true → is_red l = false) (hb : bh l = bh r) :
    ∃ t, fix_up (.mk v l r c) = .ok t ∧
      iterate_inorder t = iterate_inorder l ++ v :: iterate_inorder r ∧
      LLw t ∧ (c = false → LL t) ∧ bh t = bh l + (if c then 0 else 1) := by
  by_cases hrr : is_red r = false
  · exact ⟨_, fix_up_id_LL v l r c hl hrr, by simp, ⟨hl, hr, hrr, hb⟩,
      fun hc => ⟨hl, hr, hrr, fun h => by rw [hc] at h; exact Bool.noConfusion h, hb⟩, by simp⟩
  · rcases r with _ | ⟨rv, rl, rr, rc⟩
    · exact absurd rfl hrr
    · cases rc
      · exact absurd rfl hrr
      · obtain ⟨r1, r2, r3, r4, r5⟩ := hr
        have r4 := r4 rfl
        have e1 : bh l = bh rl := by simpa using hb
        by_cases hlr : is_red l = false
        · have hA : LL (.mk v l rl true) := ⟨hl, r1, r4, fun _ => hlr, e1⟩
          have e2 : bh (.mk v l rl true) = bh rr := by simp; omega
          refine ⟨_, fix_up_rotate_left v rv l rl rr c hlr r3, by simp, ⟨hA, r2, r3, e2⟩, ?_, ?_⟩
          · intro hc
            exact ⟨hA, r2, r3, fun h => by rw [hc] at h; exact Bool.noConfusion h, e2⟩
          · simp
        · have hc : c = false := by
            cases c
            · rfl
            · exact absurd (hlc rfl) hlr
          subst hc
          rcases l with _ | ⟨lv, ll, lr, lc⟩
          · exact absurd rfl hlr
          · cases lc
            · exact absurd rfl hlr
            · obtain ⟨l1, l2, l3, l4, l5⟩ := hl
              have l4 := l4 rfl
              have hA : LL (.mk lv ll lr false) := ⟨l1, l2, l3, fun h => Bool.noConfusion h, l5⟩
              have hB : LL (.mk rv rl rr false) := ⟨r1, r2, r3, fun h => Bool.noConfusion h, r5⟩
              have e2 : bh (.mk lv ll lr false) = bh (.mk rv rl rr false) := by
                simp at e1 ⊢; omega
              refine ⟨_, fix_up_flip v lv rv ll lr rl rr false l4, by simp, ?_, ?_, ?_⟩
              · exact ⟨hA, hB, rfl, e2⟩
              · intro _
                exact ⟨hA, hB, rfl, fun _ => rfl, e2⟩
              · simp

/-! ## Where a stored item can be -/

theorem cmp_before_of_pos [Item α] (ho : CmpOrder α) {a b : α}
    (h : 0 < compare_items a b) : before b a := (ho.swap a b).1 h

theorem cmp_pos_of_before [Item α] (ho : CmpOrder α) {a b : α} (h : before b a) :
    0 < compare_items a b := (ho.swap a b).2 h

theorem stored_mk [Item α] (v x : α) (l r : ll_rb_node α) (c : Bool) :
    stored (.mk v l r c) x ↔ stored l x ∨ compare_items v x = 0 ∨ stored r x := by
  unfold stored
  simp only [iterate_inorder_mk, List.mem_append, List.mem_cons]
  constructor
  · rintro ⟨y, (h | rfl | h), hy⟩
    · exact Or.inl ⟨y, h, hy⟩
    · exact Or.inr (Or.inl hy)
    · exact Or.inr (Or.inr ⟨y, h, hy⟩)
  · rintro (⟨y, h, hy⟩ | h | ⟨y, h, hy⟩)
    · exact ⟨y, Or.inl h, hy⟩
    · exact ⟨v, Or.inr (Or.inl rfl), h⟩
    · exact ⟨y, Or.inr (Or.inr h), hy⟩

theorem not_stored_of_all_after [Item α] (ho : CmpOrder α) (x : α) (t : ll_rb_node α)
    (h : ∀ y ∈ iterate_inorder t, before x y) : ¬ stored t x := by
  rintro ⟨y, hy, e⟩
  have := cmp_pos_of_before ho (h y hy)
  omega

theorem not_stored_of_all_before [Item α] (x : α) (t : ll_rb_node α)
    (h : ∀ y ∈ iterate_inorder t, before y x) : ¬ stored t x := by
  rintro ⟨y, hy, e⟩
  have := h y hy
  unfold before at this
  omega

theorem stored_left [Item α] (ho : CmpOrder α) (v x : α) (l r : ll_rb_node α) (c : Bool)
    (hr : ∀ b ∈ iterate_inorder r, before v b) (hc : 0 < compare_items v x) :
    stored (.mk v l r c) x ↔ stored l x := by
  rw [stored_mk]
  have h1 : ¬ compare_items v x = 0 := by omega
  have h2 : ¬ stored r x :=
    not_stored_of_all_after ho x r fun y hy => ho.trans _ _ _ (cmp_before_of_pos ho hc) (hr y hy)
  tauto

theorem stored_right [Item α] (ho : CmpOrder α) (v x : α) (l r : ll_rb_node α) (c : Bool)
    (hl : ∀ a ∈ iterate_inorder l, before a v) (hc : compare_items v x < 0) :
    stored (.mk v l r c) x ↔ stored r x := by
  rw [stored_mk]
  have h1 : ¬ compare_items v x = 0 := by omega
  have h2 : ¬ stored l x :=
    not_stored_of_all_before x l fun y hy => ho.trans _ _ _ (hl y hy) hc
  tauto

/-! ## Insertion into a subtree -/

theorem or_shuffle (p q r s : Prop) : ((p ∨ q) ∨ r ∨ s) ↔ ((p ∨ r ∨ s) ∨ q) := by tauto

theorem insert_mk [Item α] (v x : α) (l r : ll_rb_node α) (c : Bool) :
    llrb_tree.insert (.mk v l r c) x =
      if 0 < compare_items v x then
        llrb_tree.insert l x >>= fun p => fix_up (.mk v p.1 r c) >>= fun t => .ok (t, p.2)
      else if compare_items v x < 0 then
        llrb_tree.insert r x >>= fun p => fix_up (.mk v l p.1 c) >>= fun t => .ok (t, p.2)
      else fix_up (.mk v l r c) >>= fun t => .ok (t, false) := by
  rw [llrb_tree.insert]
  rfl

theorem insert_spec [Item α] (ho : CmpOrder α) (x : α) (t : ll_rb_node α) :
    LL t → (iterate_inorder t).Pairwise before →
    ∃ t' b, llrb_tree.insert t x = .ok (t', b) ∧ LLw t' ∧ (is_red t = false → LL t') ∧
      bh t' = bh t ∧
      (iterate_inorder t').Pairwise before ∧
      (∀ y, y ∈ iterate_inorder t' ↔ y ∈ iterate_inorder t ∨ (b = true ∧ y = x)) ∧
      (b = true ↔ ¬ stored t x) ∧
      (iterate_inorder t').length = (iterate_inorder t).length + (if b then 1 else 0) ∧
      (b = false → t' = t) := by
  induction t with
  | nil =>
    intro _ _
    refine ⟨new_ll_rb_node x, true, rfl, ?_, ?_, rfl, ?_, ?_, ?_, rfl, ?_⟩
    · exact ⟨trivial, trivial, rfl, rfl⟩
    · intro _; exact ⟨trivial, trivial, rfl, fun _ => rfl, rfl⟩
    · simp [new_ll_rb_node]
    · simp [new_ll_rb_node]
    · simp [stored]
    · intro h; exact Bool.noConfusion h
  | mk v l r c ihl ihr =>
    intro hLL hs
    obtain ⟨hl, hr, hrb, hlc, hb⟩ := hLL
    rw [iterate_inorder_mk, sorted_mid ho] at hs
    obtain ⟨sl, sr, hlv, hvr⟩ := hs
    rcases lt_trichotomy (compare_items v x) 0 with hc | hc | hc
    · -- the item goes to the right
      obtain ⟨r', b, e, w, s, ebh, sr', mem, bst, len, same⟩ := ihr hr sr
      have s := s hrb
      obtain ⟨t', ef, ei, wt, st, ebt⟩ := fix_up_ins_right v l r' c hl s hlc (by omega)
      have hc' : ¬ 0 < compare_items v x := by omega
      refine ⟨t', b, ?_, wt, ?_, ?_, ?_, ?_, ?_, ?_, ?_⟩
      · rw [insert_mk, if_neg hc', if_pos hc, e]; simp [ef]
      · intro h; exact st (by simpa using h)
      · rw [ebt]; simp
      · rw [ei, sorted_mid ho]
        refine ⟨sl, sr', hlv, ?_⟩
        intro y hy
        rcases (mem y).1 hy with h | ⟨_, rfl⟩
        · exact hvr y h
        · exact hc
      · intro y
        rw [ei]
        simp only [List.mem_append, List.mem_cons, mem y, iterate_inorder_mk, or_assoc]
      · rw [bst, stored_right ho v x l r c hlv hc]
      · rw [ei]
        simp only [List.length_append, List.length_cons, len, iterate_inorder_mk]
        omega
      · intro hb'
        have := same hb'
        subst this
        rw [fix_up_id_LL v l r' c hl hrb] at ef
        exact (Except.ok.inj ef).symm
    · -- an equal item is stored at this node
      have h1 : ¬ 0 < compare_items v x := by omega
      have h2 : ¬ compare_items v x < 0 := by omega
      refine ⟨.mk v l r c, false, ?_, ⟨hl, hr, hrb, hb⟩, ?_, rfl, ?_, ?_, ?_, ?_, ?_⟩
      · rw [insert_mk, if_neg h1, if_neg h2, fix_up_id_LL v l r c hl hrb]; rfl
      · intro _; exact ⟨hl, hr, hrb, hlc, hb⟩
      · rw [iterate_inorder_mk, sorted_mid ho]; exact ⟨sl, sr, hlv, hvr⟩
      · intro y; simp
      · simp only [Bool.false_eq_true, false_iff, not_not]
        exact ⟨v, by simp, hc⟩
      · simp
      · intro _; rfl
    · -- the item goes to the left
      obtain ⟨l', b, e, w, s, ebh, sl', mem, bst, len, same⟩ := ihl hl sl
      obtain ⟨t', ef, ei, wt, st, ebt⟩ :=
        fix_up_ins_left v l' r c w (fun h => s (hlc h)) hr hrb (by omega)
      refine ⟨t', b, ?_, wt, ?_, ?_, ?_, ?_, ?_, ?_, ?_⟩
      · rw [insert_mk, if_pos hc, e]; simp [ef]
      · intro h; exact st (by simpa using h)
      · rw [ebt, ebh]; simp
      · rw [ei, sorted_mid ho]
        refine ⟨sl', sr, ?_, hvr⟩
        intro y hy
        rcases (mem y).1 hy with h | ⟨_, rfl⟩
        · exact hlv y h
        · exact cmp_before_of_pos ho hc
      · intro y
        rw [ei]
        simp only [List.mem_append, List.mem_cons, mem y, iterate_inorder_mk]
        exact or_shuffle _ _ _ _
      · rw [bst, stored_left ho v x l r c hvr hc]
      · rw [ei]
        simp only [List.length_append, List.length_cons, len, iterate_inorder_mk]
        omega
      · intro hb'
        have := same hb'
        subst this
        rw [fix_up_id_LL v l' r c hl hrb] at ef
        exact (Except.ok.inj ef).symm

/-! ## The tree-level insertion -/

theorem llrb_invariants_iff [Item α] (ho : CmpOrder α) (t : ll_rb_node α) :
    llrb_invariants t ↔ LL t ∧ is_red t = false ∧ ascending (iterate_inorder t) := by
  constructor
  · intro h
    exact ⟨(LL_iff t).2 ⟨h.right_black, h.no_red_red, h.balanced⟩, h.black_root,
      (search_ordered_iff ho t).1 h.ordered⟩
  · rintro ⟨h1, h2, h3⟩
    have := (LL_iff t).1 h1
    exact ⟨(search_ordered_iff ho t).2 h3, this.1, this.2.1, this.2.2, h2⟩

theorem set_red_false_spec {t t' : ll_rb_node α} (h : set_red t false = .ok t') (hw : LLw t) :
    LL t' ∧ is_red t' = false ∧ iterate_inorder t' = iterate_inorder t ∧
      (is_red t = false → t' = t) := by
  cases t with
  | nil => exact Except.noConfusion h
  | mk v l r c =>
    simp only [set_red, Except.ok.injEq] at h
    subst h
    refine ⟨⟨hw.1, hw.2.1, hw.2.2.1, fun h => Bool.noConfusion h, hw.2.2.2⟩, rfl, by simp, ?_⟩
    intro hc
    simp only [is_red_mk] at hc
    rw [hc]

theorem tree_insert_eq [Item α] (t : ll_rb_tree α) (x : α) (root : ll_rb_node α) (b : Bool)
    (h : llrb_tree.insert t.root x = .ok (root, b)) :
    t.insert x =
      set_red root false >>= fun r =>
        .ok ⟨r, if b then (t.count + 1) % 2 ^ 64 else t.count⟩ := by
  unfold ll_rb_tree.insert
  rw [h]
  rfl

theorem tree_insert_spec [Item α] (ho : CmpOrder α) (t : ll_rb_tree α) (x : α)
    (hLL : LL t.root) (hs : ascending (iterate_inorder t.root)) :
    ∃ t', t.insert x = .ok t' ∧ LL t'.root ∧ is_red t'.root = false ∧
      ascending (iterate_inorder t'.root) ∧
      (∀ y, y ∈ iterate_inorder t'.root ↔
        y ∈ iterate_inorder t.root ∨ (¬ stored t.root x ∧ y = x)) ∧
      (stored t.root x → t'.count = t.count ∧ size t'.root = size t.root ∧
        (is_red t.root = false → t' = t)) ∧
      (¬ stored t.root x → t'.count = (t.count + 1) % 2 ^ 64 ∧
        size t'.root = size t.root + 1) := by
  obtain ⟨r', b, e, w, _, _, sr', mem, bst, len, same⟩ := insert_spec ho x t.root hLL hs
  have hne : ∃ r'', set_red r' false = .ok r'' := by
    cases r' with
    | nil =>
      exfalso
      cases b
      · have := same rfl
        have hst : stored t.root x := by
          by_contra hn
          exact Bool.noConfusion (bst.2 hn)
        obtain ⟨y, hy, _⟩ := hst
        rw [← this] at hy
        simp at hy
      · have := (mem x).2 (Or.inr ⟨rfl, rfl⟩)
        simp at this
    | mk v l r c => exact ⟨_, rfl⟩
  obtain ⟨r'', e2⟩ := hne
  obtain ⟨h1, h2, h3, h4⟩ := set_red_false_spec e2 w
  refine ⟨⟨r'', if b then (t.count + 1) % 2 ^ 64 else t.count⟩, ?_, h1, h2, ?_, ?_, ?_, ?_⟩
  · rw [tree_insert_eq t x r' b e, e2]; rfl
  · show ascending (iterate_inorder r'')
    rw [h3]; exact sr'
  · intro y
    show y ∈ iterate_inorder r'' ↔ _
    rw [h3, mem y, bst]
  · intro hst
    have hb : b = false := by
      cases b
      · rfl
      · exact absurd hst (bst.1 rfl)
    subst hb
    have := same rfl
    subst this
    refine ⟨rfl, ?_, ?_⟩
    · show size r'' = size t.root
      rw [size_eq_length, size_eq_length, h3]
    · intro hb
      have := h4 hb
      subst this
      rfl
  · intro hst
    have hb : b = true := bst.2 hst
    subst hb
    refine ⟨rfl, ?_⟩
    show size r'' = size t.root + 1
    rw [size_eq_length, size_eq_length, h3, len]
    rfl

/-- Every tree reachable by insertions from a tree that has the invariants has them, and its
count is the number of nodes modulo `2 ^ 64` if that holds at the start. -/
theorem reachable_from_inv [Item α] (ho : CmpOrder α) (t0 t : ll_rb_tree α)
    (h : reachable_from t0 t) (h0 : LL t0.root ∧ is_red t0.root = false ∧
      ascending (iterate_inorder t0.root)) :
    (LL t.root ∧ is_red t.root = false ∧ ascending (iterate_inorder t.root)) ∧
      (t0.count = size t0.root % 2 ^ 64 → t.count = size t.root % 2 ^ 64) ∧
      size t0.root ≤ size t.root ∧
      (∀ y, stored t0.root y → stored t.root y) := by
  induction h with
  | start => exact ⟨h0, fun h => h, le_refl _, fun _ h => h⟩
  | step t t' x _ hi ih =>
    obtain ⟨⟨i1, i2, i3⟩, ic, isz, ist⟩ := ih
    obtain ⟨t'', e, j1, j2, j3, j4, j5, j6⟩ := tree_insert_spec ho t x i1 i3
    rw [hi] at e
    have e := Except.ok.inj e
    subst e
    refine ⟨⟨j1, j2, j3⟩, ?_, ?_, ?_⟩
    · intro hc
      have hc := ic hc
      by_cases hst : stored t.root x
      · obtain ⟨k1, k2, _⟩ := j5 hst
        rw [k1, k2, hc]
      · obtain ⟨k1, k2⟩ := j6 hst
        rw [k1, k2, hc]
        omega
    · by_cases hst : stored t.root x
      · obtain ⟨_, k2, _⟩ := j5 hst
        omega
      · obtain ⟨_, k2⟩ := j6 hst
        omega
    · intro y hy
      obtain ⟨z, hz, hzy⟩ := ist y hy
      exact ⟨z, (j4 z).2 (Or.inl hz), hzy⟩

theorem reachable_inv [Item α] (ho : CmpOrder α) (t : ll_rb_tree α) (h : reachable t) :
    LL t.root ∧ is_red t.root = false ∧ ascending (iterate_inorder t.root) ∧
      t.count = size t.root % 2 ^ 64 := by
  have := reachable_from_inv ho _ t h ⟨trivial, rfl, List.Pairwise.nil⟩
  exact ⟨this.1.1, this.1.2.1, this.1.2.2, this.2.1 rfl⟩

/-! ## `find` -/

theorem find_loop_spec [Item α] (ho : CmpOrder α) (x : α) (t : ll_rb_node α) :
    ascending (iterate_inorder t) → ∀ n, (find_loop x t n).1 = true ↔ stored t x := by
  induction t with
  | nil =>
    intro _ n
    simp [find_loop, stored]
  | mk v l r c ihl ihr =>
    intro hs n
    unfold ascending at hs
    rw [iterate_inorder_mk, sorted_mid ho] at hs
    obtain ⟨sl, sr, hlv, hvr⟩ := hs
    rcases lt_trichotomy (compare_items v x) 0 with hc | hc | hc
    · have hc' : ¬ 0 < compare_items v x := by omega
      rw [stored_right ho v x l r c hlv hc, ← ihr sr (n + 1)]
      simp [find_loop, hc, hc']
    · have h1 : ¬ 0 < compare_items v x := by omega
      have h2 : ¬ compare_items v x < 0 := by omega
      have : stored (.mk v l r c) x := ⟨v, by simp, hc⟩
      simp [find_loop, h1, h2, this]
    · rw [stored_left ho v x l r c hvr hc, ← ihl sl (n + 1)]
      simp [find_loop, hc]

theorem find_spec [Item α] (ho : CmpOrder α) (t : ll_rb_tree α) (x : α)
    (hs : ascending (iterate_inorder t.root)) :
    (t.find x).1 = true ↔ t.count ≠ 0 ∧ stored t.root x := by
  unfold ll_rb_tree.find
  by_cases h : t.count = 0
  · simp [h]
  · simp only [h, if_false, ne_eq, not_false_eq_true, true_and]
    exact find_loop_spec ho x t.root hs 0

/-! ## Height -/

theorem LL_size_bound : ∀ t : ll_rb_node α, LLw t → 2 ^ bh t ≤ size t + 1
  | .nil, _ => by simp
  | .mk v l r c, h => by
    have h1 := LL_size_bound l (LL_weak h.1)
    have h2 := LL_size_bound r (LL_weak h.2.1)
    have e : bh l = bh r := h.2.2.2
    rw [← e] at h2
    simp only [bh_mk, size_mk]
    cases c
    · simp only [Bool.false_eq_true, if_false, pow_succ]
      omega
    · simp only [if_true, add_zero]
      omega

theorem LL_depth_bound : ∀ t : ll_rb_node α, LL t →
    max_depth t ≤ 2 * bh t + (if is_red t then 1 else 0)
  | .nil, _ => by simp [max_depth]
  | .mk v l r c, h => by
    obtain ⟨hl, hr, hrb, hlc, e⟩ := h
    have h1 := LL_depth_bound l hl
    have h2 := LL_depth_bound r hr
    rw [hrb] at h2
    simp only [max_depth, bh_mk, is_red_mk]
    cases c
    · simp only [Bool.false_eq_true, if_false] at h1 h2 ⊢
      split <;> split at h1 <;> omega
    · rw [hlc rfl] at h1
      simp only [Bool.false_eq_true, if_false, if_true] at h1 h2 ⊢
      split <;> omega

theorem height_bound_of_LL (t : ll_rb_node α) (h : LL t) (hb : is_red t = false) :
    2 ^ max_depth t ≤ (size t + 1) ^ 2 := by
  have h1 := LL_depth_bound t h
  rw [hb] at h1
  simp only [Bool.false_eq_true, if_false, add_zero] at h1
  have h2 := LL_size_bound t (LL_weak h)
  calc 2 ^ max_depth t ≤ 2 ^ (2 * bh t) := Nat.pow_le_pow_right (by norm_num) h1
    _ = (2 ^ bh t) ^ 2 := by rw [Nat.mul_comm, pow_mul]
    _ ≤ (size t + 1) ^ 2 := Nat.pow_le_pow_left h2 2

/-! ## The branches of `delete_left_most` and `delete` -/

@[simp] theorem needs_red_nil : needs_red (.nil : ll_rb_node α) = .error .nil_deref := rfl

@[simp] theorem needs_red_mk (v : α) (l r : ll_rb_node α) (c : Bool) :
    needs_red (.mk v l r c) = .ok (!c && !is_red l) := by
  cases c <;> simp [needs_red]

theorem move_red_left_plain (v lv rv : α) (ll lr rl rr : ll_rb_node α) (c lc rc : Bool)
    (h : is_red rl = false) :
    move_red_left (.mk v (.mk lv ll lr lc) (.mk rv rl rr rc) c) =
      .ok (.mk v (.mk lv ll lr (!lc)) (.mk rv rl rr (!rc)) (!c)) := by
  simp [move_red_left, h]

theorem move_red_left_rotate (v lv rv rlv : α) (ll lr rll rlr rr : ll_rb_node α)
    (c lc rc : Bool) :
    move_red_left (.mk v (.mk lv ll lr lc) (.mk rv (.mk rlv rll rlr true) rr rc) c) =
      .ok (.mk rlv (.mk v (.mk lv ll lr (!lc)) rll false) (.mk rv rlr rr false) c) := by
  simp [move_red_left, set_right]

theorem move_red_right_plain (v lv rv : α) (ll lr rl rr : ll_rb_node α) (c lc rc : Bool)
    (h : is_red ll = false) :
    move_red_right (.mk v (.mk lv ll lr lc) (.mk rv rl rr rc) c) =
      .ok (.mk v (.mk lv ll lr (!lc)) (.mk rv rl rr (!rc)) (!c)) := by
  simp [move_red_right, h]

theorem move_red_right_rotate (v lv rv llv : α) (lll llr lr rl rr : ll_rb_node α)
    (c lc rc : Bool) :
    move_red_right (.mk v (.mk lv (.mk llv lll llr true) lr lc) (.mk rv rl rr rc) c) =
      .ok (.mk lv (.mk llv lll llr false) (.mk v lr (.mk rv rl rr (!rc)) false) (!!c)) := by
  simp [move_red_right]

theorem delete_left_most_nil_left (fuel : Nat) (v : α) (r : ll_rb_node α) (c : Bool) :
    delete_left_most (fuel + 1) (.mk v .nil r c) = .ok .nil := by
  simp [delete_left_most, is_nil]

theorem delete_left_most_stay (fuel : Nat) (v lv : α) (ll lr r : ll_rb_node α) (c lc : Bool)
    (h : (!lc && !is_red ll) = false) :
    delete_left_most (fuel + 1) (.mk v (.mk lv ll lr lc) r c) =
      delete_left_most fuel (.mk lv ll lr lc) >>= fun l' => fix_up (.mk v l' r c) := by
  simp only [delete_left_most, get_left_mk, ok_bind, is_nil, needs_red_mk, h, set_left]
  simp

theorem delete_left_most_move (fuel : Nat) (v lv nv : α) (ll lr r nl nr : ll_rb_node α)
    (c lc nc : Bool) (h : (!lc && !is_red ll) = true)
    (hm : move_red_left (.mk v (.mk lv ll lr lc) r c) = .ok (.mk nv nl nr nc)) :
    delete_left_most (fuel + 1) (.mk v (.mk lv ll lr lc) r c) =
      delete_left_most fuel nl >>= fun l' => fix_up (.mk nv l' nr nc) := by
  simp only [delete_left_most, get_left_mk, ok_bind, is_nil, needs_red_mk, h, hm, set_left]
  simp

theorem compare_item_mk [Item α] (v x : α) (l r : ll_rb_node α) (c : Bool) :
    compare_item (.mk v l r c) x = .ok (compare_items v x) := rfl

theorem delete_left_stay [Item α] (fuel : Nat) (v lv x : α) (ll lr r : ll_rb_node α)
    (c lc : Bool) (hc : 0 < compare_items v x) (h : (!lc && !is_red ll) = false) :
    delete (fuel + 1) (.mk v (.mk lv ll lr lc) r c) x =
      delete fuel (.mk lv ll lr lc) x >>= fun p =>
        fix_up (.mk v p.1 r c) >>= fun t => .ok (t, p.2) := by
  simp only [delete, compare_item_mk, get_left_mk, ok_bind, needs_red_mk, h, set_left, hc]
  simp

theorem delete_left_move [Item α] (fuel : Nat) (v lv nv x : α) (ll lr r nl nr : ll_rb_node α)
    (c lc nc : Bool) (hc : 0 < compare_items v x) (h : (!lc && !is_red ll) = true)
    (hm : move_red_left (.mk v (.mk lv ll lr lc) r c) = .ok (.mk nv nl nr nc)) :
    delete (fuel + 1) (.mk v (.mk lv ll lr lc) r c) x =
      delete fuel nl x >>= fun p =>
        fix_up (.mk nv p.1 nr nc) >>= fun t => .ok (t, p.2) := by
  simp only [delete, compare_item_mk, get_left_mk, ok_bind, needs_red_mk, h, hm, set_left, hc]
  simp

theorem delete_right_nil [Item α] (fuel : Nat) (v x : α) (l : ll_rb_node α)
    (c : Bool) (hc : ¬ 0 < compare_items v x) (hl : is_red l = false)
    (hz : compare_items v x = 0) :
    delete (fuel + 1) (.mk v l .nil c) x = .ok (.nil, true) := by
  have hc' : ¬ compare_items v x > 0 := hc
  simp only [delete, compare_item_mk, get_left_mk, ok_bind, pure_eq_ok, hc', if_false, hl,
    get_right_mk, hz, is_nil, Bool.false_eq_true]
  simp

theorem delete_right_rotate [Item α] (fuel : Nat) (v lv x : α) (ll lr r : ll_rb_node α)
    (c : Bool) (hc : ¬ 0 < compare_items v x) (hz : ¬ compare_items lv x = 0) :
    delete (fuel + 1) (.mk v (.mk lv ll lr true) r c) x =
      delete fuel (.mk v lr r true) x >>= fun p =>
        fix_up (.mk lv ll p.1 c) >>= fun t => .ok (t, p.2) := by
  have hc' : ¬ compare_items v x > 0 := hc
  simp only [delete, compare_item_mk, get_left_mk, ok_bind, pure_eq_ok, hc', if_false,
    is_red_mk, if_true, rotate_right_mk, get_right_mk, hz, is_nil, needs_red_mk, set_right]
  simp

theorem delete_right_min [Item α] (fuel : Nat) (v rv v2 x : α)
    (l rl rr l2 r2 : ll_rb_node α) (c rc c2 : Bool) (hc : ¬ 0 < compare_items v x)
    (hl : is_red l = false)
    (h2 : (if (!rc && !is_red rl) = true then move_red_right (.mk v l (.mk rv rl rr rc) c)
      else .ok (.mk v l (.mk rv rl rr rc) c)) = .ok (.mk v2 l2 r2 c2))
    (hz : compare_items v2 x = 0) :
    delete (fuel + 1) (.mk v l (.mk rv rl rr rc) c) x =
      left_most_item r2 >>= fun m => delete_left_most fuel r2 >>= fun r' =>
        fix_up (.mk m l2 r' c2) >>= fun t => .ok (t, true) := by
  have hc' : ¬ compare_items v x > 0 := hc
  by_cases hn : (!rc && !is_red rl) = true
  · simp only [hn, if_true] at h2
    simp only [delete, compare_item_mk, get_left_mk, ok_bind, pure_eq_ok, hc', if_false, hl,
      get_right_mk, is_nil, needs_red_mk, hn, h2, hz, if_true, set_item, set_right,
      Bool.false_eq_true, Bool.and_false]
  · simp only [hn, if_false, Except.ok.injEq, ll_rb_node.mk.injEq] at h2
    obtain ⟨rfl, rfl, rfl, rfl⟩ := h2
    simp only [delete, compare_item_mk, get_left_mk, ok_bind, pure_eq_ok, hc', if_false, hl,
      get_right_mk, is_nil, needs_red_mk, hn, hz, if_true, set_item, set_right,
      Bool.false_eq_true, Bool.and_false]
    simp

theorem delete_right_rec [Item α] (fuel : Nat) (v rv v2 x : α)
    (l rl rr l2 r2 : ll_rb_node α) (c rc c2 : Bool) (hc : ¬ 0 < compare_items v x)
    (hl : is_red l = false)
    (h2 : (if (!rc && !is_red rl) = true then move_red_right (.mk v l (.mk rv rl rr rc) c)
      else .ok (.mk v l (.mk rv rl rr rc) c)) = .ok (.mk v2 l2 r2 c2))
    (hz : ¬ compare_items v2 x = 0) :
    delete (fuel + 1) (.mk v l (.mk rv rl rr rc) c) x =
      delete fuel r2 x >>= fun p =>
        fix_up (.mk v2 l2 p.1 c2) >>= fun t => .ok (t, p.2) := by
  have hc' : ¬ compare_items v x > 0 := hc
  by_cases hn : (!rc && !is_red rl) = true
  · simp only [hn, if_true] at h2
    simp only [delete, compare_item_mk, get_left_mk, ok_bind, pure_eq_ok, hc', if_false, hl,
      get_right_mk, is_nil, needs_red_mk, hn, h2, hz, if_true, set_item, set_right,
      Bool.false_eq_true, Bool.and_false]
  · simp only [hn, if_false, Except.ok.injEq, ll_rb_node.mk.injEq] at h2
    obtain ⟨rfl, rfl, rfl, rfl⟩ := h2
    simp only [delete, compare_item_mk, get_left_mk, ok_bind, pure_eq_ok, hc', if_false, hl,
      get_right_mk, is_nil, needs_red_mk, hn, hz, if_true, set_item, set_right,
      Bool.false_eq_true, Bool.and_false]

/-! ## `fix_up` on the way back from a deletion -/

theorem red_absurd {t : ll_rb_node α} {P : Prop} (h1 : is_red t = false)
    (h2 : is_red t = true) : P := by
  rw [h1] at h2
  exact Bool.noConfusion h2

theorem bh_pos_of_black {t : ll_rb_node α} (h : is_red t = false) (hn : is_nil t = false) :
    0 < bh t := by
  cases t with
  | nil => exact Bool.noConfusion hn
  | mk v l r c =>
    simp only [is_red_mk] at h
    subst h
    simp

theorem nil_of_bh_zero {t : ll_rb_node α} (h : is_red t = false) (hb : bh t = 0) :
    t = .nil := by
  cases t with
  | nil => rfl
  | mk v l r c =>
    have := bh_pos_of_black h rfl
    omega

/-- After a deletion in the left subtree that was made red by `move_red_left`. -/
theorem fix_del_left_moved (v rv : α) (l rl rr : ll_rb_node α) (c : Bool) (hl : LL l)
    (h1 : LL rl) (h2 : LL rr) (h3 : is_red rl = false) (h4 : is_red rr = false)
    (h5 : bh rl = bh rr) (hb : bh l = bh rl) :
    ∃ t, fix_up (.mk v l (.mk rv rl rr true) c) = .ok t ∧
      iterate_inorder t = iterate_inorder l ++ v :: (iterate_inorder rl ++ rv :: iterate_inorder rr) ∧
      LLw t ∧ (c = false → LL t ∧ bh t = bh l + 1) := by
  by_cases hlr : is_red l = false
  · have hA : LL (.mk v l rl true) := ⟨hl, h1, h3, fun _ => hlr, hb⟩
    have e2 : bh (.mk v l rl true) = bh rr := by simp; omega
    refine ⟨_, fix_up_rotate_left v rv l rl rr c hlr h4, by simp, ⟨hA, h2, h4, e2⟩, ?_⟩
    intro hc
    subst hc
    exact ⟨⟨hA, h2, h4, fun h => Bool.noConfusion h, e2⟩, by simp⟩
  · rcases l with _ | ⟨lv, ll, lr, lc⟩
    · exact absurd rfl hlr
    · cases lc
      · exact absurd rfl hlr
      · obtain ⟨l1, l2, l3, l4, l5⟩ := hl
        have l4 := l4 rfl
        have hA : LL (.mk lv ll lr false) := ⟨l1, l2, l3, fun h => Bool.noConfusion h, l5⟩
        have hB : LL (.mk rv rl rr false) := ⟨h1, h2, h4, fun h => Bool.noConfusion h, h5⟩
        have e2 : bh (.mk lv ll lr false) = bh (.mk rv rl rr false) := by
          simp at hb ⊢; omega
        refine ⟨_, fix_up_flip v lv rv ll lr rl rr c l4, by simp, ⟨hA, hB, rfl, e2⟩, ?_⟩
        intro hc
        subst hc
        exact ⟨⟨hA, hB, rfl, fun _ => rfl, e2⟩, by simp⟩

/-- After a deletion in the right subtree, beside a black left child. -/
theorem fix_del_right (v : α) (l r : ll_rb_node α) (c : Bool) (hl : LL l) (hr : LL r)
    (hlb : is_red l = false) (hb : bh l = bh r) (hc : c = true → is_red r = false) :
    ∃ t, fix_up (.mk v l r c) = .ok t ∧
      iterate_inorder t = iterate_inorder l ++ v :: iterate_inorder r ∧
      LL t ∧ bh t = bh l + (if c then 0 else 1) ∧ is_red t = c := by
  by_cases hrr : is_red r = false
  · exact ⟨_, fix_up_id_LL v l r c hl hrr, by simp, ⟨hl, hr, hrr, fun _ => hlb, hb⟩, by simp,
      rfl⟩
  · have hcf : c = false := by
      cases c
      · rfl
      · exact absurd (hc rfl) hrr
    subst hcf
    rcases r with _ | ⟨rv, rl, rr, rc⟩
    · exact absurd rfl hrr
    · cases rc
      · exact absurd rfl hrr
      · obtain ⟨r1, r2, r3, r4, r5⟩ := hr
        have r4 := r4 rfl
        have e1 : bh l = bh rl := by simpa using hb
        have hA : LL (.mk v l rl true) := ⟨hl, r1, r4, fun _ => hlb, e1⟩
        have e2 : bh (.mk v l rl true) = bh rr := by simp; omega
        exact ⟨_, fix_up_rotate_left v rv l rl rr false hlb r3, by simp,
          ⟨hA, r2, r3, fun h => Bool.noConfusion h, e2⟩, by simp, rfl⟩

/-- After a deletion in the right subtree, beside a left child made red by
`move_red_right`. -/
theorem fix_del_right_moved (v lv : α) (ll lr r : ll_rb_node α) (c : Bool) (h1 : LL ll)
    (h2 : LL lr) (h3 : is_red ll = false) (h4 : is_red lr = false) (h5 : bh ll = bh lr)
    (hr : LL r) (hb : bh r = bh ll) :
    ∃ t, fix_up (.mk v (.mk lv ll lr true) r c) = .ok t ∧
      iterate_inorder t =
        (iterate_inorder ll ++ lv :: iterate_inorder lr) ++ v :: iterate_inorder r ∧
      LLw t ∧ (c = false → LL t ∧ bh t = bh ll + 1) := by
  have hA : LL (.mk lv ll lr true) := ⟨h1, h2, h4, fun _ => h3, h5⟩
  by_cases hrr : is_red r = false
  · refine ⟨_, fix_up_id_LL v _ r c hA hrr, by simp, ⟨hA, hr, hrr, by simp; omega⟩, ?_⟩
    intro hc
    subst hc
    exact ⟨⟨hA, hr, hrr, fun h => Bool.noConfusion h, by simp; omega⟩, by simp⟩
  · rcases r with _ | ⟨rv, rl, rr, rc⟩
    · exact absurd rfl hrr
    · cases rc
      · exact absurd rfl hrr
      · obtain ⟨r1, r2, r3, r4, r5⟩ := hr
        have hA' : LL (.mk lv ll lr false) := ⟨h1, h2, h4, fun h => Bool.noConfusion h, h5⟩
        have hB : LL (.mk rv rl rr false) := ⟨r1, r2, r3, fun h => Bool.noConfusion h, r5⟩
        have e2 : bh (.mk lv ll lr false) = bh (.mk rv rl rr false) := by
          simp at hb ⊢; omega
        refine ⟨_, fix_up_flip v lv rv ll lr rl rr c h3, by simp, ⟨hA', hB, rfl, e2⟩, ?_⟩
        intro hc
        subst hc
        exact ⟨⟨hA', hB, rfl, fun _ => rfl, e2⟩, by simp⟩

/-! ## The leftmost item -/

theorem left_most_item_spec : ∀ (v : α) (l r : ll_rb_node α) (c : Bool),
    ∃ m rest, left_most_item (.mk v l r c) = .ok m ∧
      iterate_inorder (.mk v l r c) = m :: rest
  | v, .nil, r, c => ⟨v, iterate_inorder r, rfl, by simp⟩
  | v, .mk lv ll lr lc, r, c => by
    obtain ⟨m, rest, h1, h2⟩ := left_most_item_spec lv ll lr lc
    refine ⟨m, rest ++ v :: iterate_inorder r, ?_, ?_⟩
    · exact h1
    · rw [iterate_inorder_mk, h2]; rfl

/-! ## `delete_left_most` -/

theorem delete_left_most_spec (fuel : Nat) : ∀ (v : α) (l r : ll_rb_node α) (c : Bool),
    size (.mk v l r c) ≤ fuel → DelPre (.mk v l r c) → is_red r = false →
    ∃ t' m, delete_left_most fuel (.mk v l r c) = .ok t' ∧
      iterate_inorder (.mk v l r c) = m :: iterate_inorder t' ∧ DelPost (.mk v l r c) t' := by
  induction fuel with
  | zero =>
    intro v l r c hsz
    simp at hsz
  | succ fuel ih =>
    intro v l r c hsz hpre hrb
    obtain ⟨hl, hr, hb, hlr, _⟩ := hpre
    simp only [size_mk] at hsz
    rcases l with _ | ⟨lv, ll, lr, lc⟩
    · -- the node is the leftmost one
      have hrn : r = .nil := nil_of_bh_zero hrb (by simpa using hb.symm)
      subst hrn
      refine ⟨.nil, v, delete_left_most_nil_left fuel v .nil c, by simp, trivial, ?_, ?_⟩
      · rintro (h | h | h)
        · subst h; exact ⟨trivial, rfl⟩
        · exact Bool.noConfusion h
        · exact Bool.noConfusion h
      · rintro (h | h) <;> exact Bool.noConfusion h
    · obtain ⟨l1, l2, l3, l4, l5⟩ := hl
      simp only [size_mk] at hsz
      cases lc
      · by_cases hll : is_red ll = true
        · -- the left child is black and has a red left child
          obtain ⟨l', m, e1, e2, p1, p2, p3⟩ := ih lv ll lr false (by simp only [size_mk]; omega)
            ⟨l1, l2, l5, fun _ => ⟨l3, rfl⟩, fun h => red_absurd l3 h⟩
            l3
          obtain ⟨q1, q2⟩ := p2 (Or.inr (Or.inl hll))
          have q3 := p3 (Or.inl hll)
          have hb' : bh l' = bh r := by rw [q2]; exact hb
          refine ⟨.mk v l' r c, m, ?_, ?_, ?_⟩
          · rw [delete_left_most_stay fuel v lv ll lr r c false (by simp [hll]), e1]
            exact fix_up_id_LL v l' r c q1 hrb
          · rw [iterate_inorder_mk, e2]; simp
          · refine ⟨⟨q1, hr, hrb, hb'⟩, ?_, ?_⟩
            · intro _
              exact ⟨⟨q1, hr, hrb, fun _ => q3, hb'⟩, by simp [q2]⟩
            · rintro (h | h)
              · exact Bool.noConfusion h
              · rw [hrb] at h; exact Bool.noConfusion h
        · -- the left child is black and so is its left child: a red node is borrowed
          have hll : is_red ll = false := by simpa using hll
          rcases r with _ | ⟨rv, rl, rr, rc⟩
          · simp at hb
          · simp only [is_red_mk] at hrb
            subst hrb
            obtain ⟨r1, r2, r3, r4, r5⟩ := hr
            have e0 : bh ll = bh rl := by simpa using hb
            simp only [size_mk] at hsz
            by_cases hrl : is_red rl = true
            · rcases rl with _ | ⟨rlv, rll, rlr, rlc⟩
              · exact Bool.noConfusion hrl
              · simp only [is_red_mk] at hrl
                subst hrl
                obtain ⟨s1, s2, s3, s4, s5⟩ := r1
                have s4 := s4 rfl
                have e3 : bh ll = bh rll := by simpa using e0
                simp only [size_mk] at hsz
                obtain ⟨l', m, e1, e2, p1, p2, p3⟩ := ih v (.mk lv ll lr true) rll false
                  (by simp only [size_mk]; omega)
                  ⟨⟨l1, l2, l3, fun _ => hll, l5⟩, s1, by simpa using e3,
                    fun _ => ⟨s4, rfl⟩, fun h => red_absurd s4 h⟩
                  s4
                obtain ⟨q1, q2⟩ := p2 (Or.inr (Or.inl rfl))
                have q3 := p3 (Or.inl rfl)
                have hB : LL (.mk rv rlr rr false) :=
                  ⟨s2, r2, r3, fun h => Bool.noConfusion h, by simp at r5; omega⟩
                have hb' : bh l' = bh (.mk rv rlr rr false) := by
                  rw [q2]; simp; omega
                refine ⟨.mk rlv l' (.mk rv rlr rr false) c, m, ?_, ?_, ?_⟩
                · rw [delete_left_most_move fuel v lv rlv ll lr _ _ _ c false c
                    (by simp [hll])
                    (move_red_left_rotate v lv rv rlv ll lr rll rlr rr c false false)]
                  simp only [Bool.not_false]
                  rw [e1]
                  exact fix_up_id_LL rlv l' (.mk rv rlr rr false) c q1 rfl
                · calc iterate_inorder
                        (.mk v (.mk lv ll lr false) (.mk rv (.mk rlv rll rlr true) rr false) c)
                      = iterate_inorder (.mk v (.mk lv ll lr true) rll false) ++
                          rlv :: (iterate_inorder rlr ++ rv :: iterate_inorder rr) := by simp
                    _ = m :: iterate_inorder (.mk rlv l' (.mk rv rlr rr false) c) := by
                      rw [e2]; simp
                · refine ⟨⟨q1, hB, rfl, hb'⟩, ?_, ?_⟩
                  · intro _
                    refine ⟨⟨q1, hB, rfl, fun _ => q3, hb'⟩, ?_⟩
                    simp [q2]
                  · rintro (h | h) <;> exact Bool.noConfusion h
            · have hrl : is_red rl = false := by simpa using hrl
              obtain ⟨l', m, e1, e2, p1, p2, p3⟩ := ih lv ll lr true (by simp only [size_mk]; omega)
                ⟨l1, l2, l5, fun h => red_absurd hll h,
                  fun h => red_absurd l3 h⟩
                l3
              obtain ⟨q1, q2⟩ := p2 (Or.inl rfl)
              obtain ⟨t', f1, f2, f3, f4⟩ := fix_del_left_moved v rv l' rl rr (!c) q1 r1 r2 hrl r3
                r5 (by rw [q2]; simpa using e0)
              refine ⟨t', m, ?_, ?_, ?_⟩
              · rw [delete_left_most_move fuel v lv v ll lr _ _ _ c false (!c)
                  (by simp [hll]) (move_red_left_plain v lv rv ll lr rl rr c false false hrl)]
                simp only [Bool.not_false]
                rw [e1]
                exact f1
              · rw [f2]
                calc iterate_inorder (.mk v (.mk lv ll lr false) (.mk rv rl rr false) c)
                      = iterate_inorder (.mk lv ll lr true) ++
                          v :: (iterate_inorder rl ++ rv :: iterate_inorder rr) := by simp
                    _ = m :: (iterate_inorder l' ++
                          v :: (iterate_inorder rl ++ rv :: iterate_inorder rr)) := by
                      rw [e2]; simp
              · refine ⟨f3, ?_, ?_⟩
                · rintro (h | h | h)
                  · subst h
                    obtain ⟨g1, g2⟩ := f4 rfl
                    refine ⟨g1, ?_⟩
                    rw [g2, q2]; simp
                  · exact Bool.noConfusion h
                  · exact Bool.noConfusion h
                · rintro (h | h) <;> exact Bool.noConfusion h
      · -- the left child is red
        have l4 := l4 rfl
        obtain ⟨hrb', hc⟩ := hlr rfl
        subst hc
        obtain ⟨l', m, e1, e2, p1, p2, p3⟩ := ih lv ll lr true (by simp only [size_mk]; omega)
          ⟨l1, l2, l5, fun h => red_absurd l4 h,
            fun h => red_absurd l3 h⟩
          l3
        obtain ⟨q1, q2⟩ := p2 (Or.inl rfl)
        have hb' : bh l' = bh r := by rw [q2]; exact hb
        refine ⟨.mk v l' r false, m, ?_, ?_, ?_⟩
        · rw [delete_left_most_stay fuel v lv ll lr r false true (by simp), e1]
          exact fix_up_id_LL v l' r false q1 hrb
        · rw [iterate_inorder_mk, e2]; simp
        · refine ⟨⟨q1, hr, hrb, hb'⟩, ?_, ?_⟩
          · intro _
            exact ⟨⟨q1, hr, hrb, fun h => Bool.noConfusion h, hb'⟩, by simp [q2]⟩
          · intro _; rfl

/-! ## Removing an item from an ascending sequence -/

theorem without_append [Item α] (x : α) (A B : List α) :
    without x (A ++ B) = without x A ++ without x B := by
  simp [without]

theorem without_cons_ne [Item α] (x p : α) (A : List α) (h : compare_items p x ≠ 0) :
    without x (p :: A) = p :: without x A := by
  simp [without, h]

theorem without_cons_eq [Item α] (x p : α) (A : List α) (h : compare_items p x = 0) :
    without x (p :: A) = without x A := by
  simp [without, h]

theorem without_all_before [Item α] (x : α) (A : List α) (h : ∀ a ∈ A, before a x) :
    without x A = A := by
  unfold without
  rw [List.filter_eq_self]
  intro a ha
  have := h a ha
  unfold before at this
  simp only [ne_eq, decide_eq_true_eq]
  omega

theorem without_all_after [Item α] (ho : CmpOrder α) (x : α) (A : List α)
    (h : ∀ a ∈ A, before x a) : without x A = A := by
  unfold without
  rw [List.filter_eq_self]
  intro a ha
  have := cmp_pos_of_before ho (h a ha)
  simp only [ne_eq, decide_eq_true_eq]
  omega

theorem cmp_before_of_le [Item α] (ho : CmpOrder α) {a v x : α} (h1 : before a v)
    (h2 : ¬ 0 < compare_items v x) : before a x := by
  rcases lt_or_eq_of_le (not_lt.1 h2) with h | h
  · exact ho.trans _ _ _ h1 h
  · exact ho.eq_right _ _ _ h h1

theorem descend_left [Item α] (ho : CmpOrder α) (C S : List α) (p x : α)
    (hs : ascending (C ++ p :: S)) (hst : ∃ y ∈ C ++ p :: S, compare_items y x = 0)
    (hp : before x p) :
    ascending C ∧ (∃ y ∈ C, compare_items y x = 0) ∧
      without x (C ++ p :: S) = without x C ++ p :: S := by
  obtain ⟨sC, sS, hCp, hpS⟩ := (sorted_mid ho C S p).1 hs
  have hS : ∀ s ∈ S, before x s := fun s hs' => ho.trans _ _ _ hp (hpS s hs')
  have hpx : compare_items p x ≠ 0 := by
    have := cmp_pos_of_before ho hp
    omega
  refine ⟨sC, ?_, ?_⟩
  · obtain ⟨y, hy, e⟩ := hst
    rcases List.mem_append.1 hy with h | h
    · exact ⟨y, h, e⟩
    · exfalso
      rcases List.mem_cons.1 h with rfl | h
      · exact hpx e
      · have := cmp_pos_of_before ho (hS y h)
        omega
  · rw [without_append, without_cons_ne x p S hpx, without_all_after ho x S hS]

theorem descend_right [Item α] (ho : CmpOrder α) (S C : List α) (p x : α)
    (hs : ascending (S ++ p :: C)) (hst : ∃ y ∈ S ++ p :: C, compare_items y x = 0)
    (hp : before p x) :
    ascending C ∧ (∃ y ∈ C, compare_items y x = 0) ∧
      without x (S ++ p :: C) = S ++ p :: without x C := by
  obtain ⟨sS, sC, hSp, hpC⟩ := (sorted_mid ho S C p).1 hs
  have hS : ∀ s ∈ S, before s x := fun s hs' => ho.trans _ _ _ (hSp s hs') hp
  have hpx : compare_items p x ≠ 0 := by
    unfold before at hp
    omega
  refine ⟨sC, ?_, ?_⟩
  · obtain ⟨y, hy, e⟩ := hst
    rcases List.mem_append.1 hy with h | h
    · exfalso
      have := hS y h
      unfold before at this
      omega
    · rcases List.mem_cons.1 h with rfl | h
      · exact absurd e hpx
      · exact ⟨y, h, e⟩
  · rw [without_append, without_cons_ne x p C hpx, without_all_before x S hS]

theorem at_mid [Item α] (ho : CmpOrder α) (S R : List α) (p x : α)
    (hs : ascending (S ++ p :: R)) (hp : compare_items p x = 0) :
    without x (S ++ p :: R) = S ++ R := by
  obtain ⟨sS, sR, hSp, hpR⟩ := (sorted_mid ho S R p).1 hs
  have hS : ∀ s ∈ S, before s x := fun s hs' => ho.eq_right _ _ _ hp (hSp s hs')
  have hR : ∀ s ∈ R, before x s := fun s hs' =>
    ho.eq_left _ _ _ (cmp_zero_symm ho _ _ hp) (hpR s hs')
  rw [without_append, without_cons_eq x p R hp, without_all_before x S hS,
    without_all_after ho x R hR]

/-! ## `delete`: the item is in the left subtree -/

theorem finish_left [Item α] (x p : α) (C C' S L L' : List α) (hL : L = C ++ p :: S)
    (hL' : L' = C' ++ p :: S)
    (hw : without x (C ++ p :: S) = without x C ++ p :: S) (e3 : C' = without x C)
    (e4 : C'.length + 1 = C.length) :
    L' = without x L ∧ L'.length + 1 = L.length := by
  subst hL hL'
  rw [hw, ← e3]
  refine ⟨rfl, ?_⟩
  simp only [List.length_append, List.length_cons]
  omega

theorem finish_right [Item α] (x p : α) (C C' S L L' : List α) (hL : L = S ++ p :: C)
    (hL' : L' = S ++ p :: C')
    (hw : without x (S ++ p :: C) = S ++ p :: without x C) (e3 : C' = without x C)
    (e4 : C'.length + 1 = C.length) :
    L' = without x L ∧ L'.length + 1 = L.length := by
  subst hL hL'
  rw [hw, ← e3]
  refine ⟨rfl, ?_⟩
  simp only [List.length_append, List.length_cons]
  omega

theorem delete_case_left [Item α] (ho : CmpOrder α) (x : α) (fuel : Nat)
    (ih : DeleteSpec x fuel) (v : α) (l r : ll_rb_node α) (c : Bool)
    (hsz : size (.mk v l r c) ≤ fuel + 1) (hpre : DelPre (.mk v l r c))
    (hs : ascending (iterate_inorder (.mk v l r c))) (hst : stored (.mk v l r c) x)
    (hc : 0 < compare_items v x) (hrb : is_red r = false) :
    DeleteResult x (fuel + 1) (.mk v l r c) := by
  obtain ⟨hl, hr, hb, hlr, _⟩ := hpre
  have hxv : before x v := cmp_before_of_pos ho hc
  simp only [size_mk] at hsz
  have hs1 : ascending (iterate_inorder l ++ v :: iterate_inorder r) := by
    rw [← iterate_inorder_mk v l r c]; exact hs
  have hst1 : ∃ y ∈ iterate_inorder l ++ v :: iterate_inorder r, compare_items y x = 0 := by
    rw [← iterate_inorder_mk v l r c]; exact hst
  obtain ⟨sC, stC, hw⟩ := descend_left ho _ _ v x hs1 hst1 hxv
  obtain ⟨_, _, _, hvr⟩ := (sorted_mid ho _ _ v).1 hs1
  unfold DeleteResult
  rcases l with _ | ⟨lv, ll, lr, lc⟩
  · obtain ⟨y, hy, _⟩ := stC
    simp at hy
  · obtain ⟨l1, l2, l3, l4, l5⟩ := hl
    simp only [size_mk] at hsz
    cases lc
    · by_cases hll : is_red ll = true
      · -- the left child is black and has a red left child
        obtain ⟨l', e1, ⟨p1, p2, p3⟩, e3, e4⟩ := ih lv ll lr false
          (by simp only [size_mk]; omega)
          ⟨l1, l2, l5, fun _ => ⟨l3, rfl⟩, fun h => red_absurd l3 h⟩
          (fun h => red_absurd l3 h) sC stC
        obtain ⟨q1, q2⟩ := p2 (Or.inr (Or.inl hll))
        have q3 := p3 (Or.inl hll)
        have hb' : bh l' = bh r := by rw [q2]; exact hb
        refine ⟨.mk v l' r c, ?_, ?_, ?_⟩
        · rw [delete_left_stay fuel v lv x ll lr r c false hc (by simp [hll]), e1]
          simp only [ok_bind]
          rw [fix_up_id_LL v l' r c q1 hrb]
          rfl
        · refine ⟨⟨q1, hr, hrb, hb'⟩, ?_, ?_⟩
          · intro _
            exact ⟨⟨q1, hr, hrb, fun _ => q3, hb'⟩, by simp [q2]⟩
          · rintro (h | h)
            · exact Bool.noConfusion h
            · exact red_absurd hrb h
        · exact finish_left x v _ _ _ _ _ (iterate_inorder_mk v _ r c)
            (iterate_inorder_mk v l' r c) hw e3 e4
      · -- a red node is borrowed from the right
        have hll : is_red ll = false := by simpa using hll
        rcases r with _ | ⟨rv, rl, rr, rc⟩
        · simp at hb
        · simp only [is_red_mk] at hrb
          subst hrb
          obtain ⟨r1, r2, r3, r4, r5⟩ := hr
          have e0 : bh ll = bh rl := by simpa using hb
          simp only [size_mk] at hsz
          by_cases hrl : is_red rl = true
          · rcases rl with _ | ⟨rlv, rll, rlr, rlc⟩
            · exact Bool.noConfusion hrl
            · simp only [is_red_mk] at hrl
              subst hrl
              obtain ⟨s1, s2, s3, s4, s5⟩ := r1
              have s4 := s4 rfl
              have e3' : bh ll = bh rll := by simpa using e0
              simp only [size_mk] at hsz
              have hL : iterate_inorder
                  (.mk v (.mk lv ll lr false) (.mk rv (.mk rlv rll rlr true) rr false) c) =
                  iterate_inorder (.mk v (.mk lv ll lr true) rll false) ++
                    rlv :: (iterate_inorder rlr ++ rv :: iterate_inorder rr) := by simp
              have hs2 := hs
              have hst2 : ∃ y ∈ iterate_inorder
                  (.mk v (.mk lv ll lr false) (.mk rv (.mk rlv rll rlr true) rr false) c),
                  compare_items y x = 0 := hst
              rw [hL] at hs2 hst2
              have hx2 : before x rlv := ho.trans _ _ _ hxv (hvr rlv (by simp))
              obtain ⟨sC2, stC2, hw2⟩ := descend_left ho _ _ rlv x hs2 hst2 hx2
              obtain ⟨l', e1, ⟨p1, p2, p3⟩, e3, e4⟩ := ih v (.mk lv ll lr true) rll false
                (by simp only [size_mk]; omega)
                ⟨⟨l1, l2, l3, fun _ => hll, l5⟩, s1, by simpa using e3',
                  fun _ => ⟨s4, rfl⟩, fun h => red_absurd s4 h⟩
                (fun h => red_absurd s4 h) sC2 stC2
              obtain ⟨q1, q2⟩ := p2 (Or.inr (Or.inl rfl))
              have q3 := p3 (Or.inl rfl)
              have hB : LL (.mk rv rlr rr false) :=
                ⟨s2, r2, r3, fun h => Bool.noConfusion h, by simp at r5; omega⟩
              have hb' : bh l' = bh (.mk rv rlr rr false) := by
                rw [q2]; simp; omega
              refine ⟨.mk rlv l' (.mk rv rlr rr false) c, ?_, ?_, ?_⟩
              · rw [delete_left_move fuel v lv rlv x ll lr _ _ _ c false c hc (by simp [hll])
                  (move_red_left_rotate v lv rv rlv ll lr rll rlr rr c false false)]
                simp only [Bool.not_false]
                rw [e1]
                simp only [ok_bind]
                rw [fix_up_id_LL rlv l' (.mk rv rlr rr false) c q1 rfl]
                rfl
              · refine ⟨⟨q1, hB, rfl, hb'⟩, ?_, ?_⟩
                · intro _
                  refine ⟨⟨q1, hB, rfl, fun _ => q3, hb'⟩, ?_⟩
                  simp [q2]
                · rintro (h | h) <;> exact Bool.noConfusion h
              · exact finish_left x rlv _ _ _ _ _ hL (by simp) hw2 e3 e4
          · have hrl : is_red rl = false := by simpa using hrl
            obtain ⟨l', e1, ⟨p1, p2, p3⟩, e3, e4⟩ := ih lv ll lr true
              (by simp only [size_mk]; omega)
              ⟨l1, l2, l5, fun h => red_absurd hll h, fun h => red_absurd l3 h⟩
              (fun h => red_absurd l3 h) sC stC
            obtain ⟨q1, q2⟩ := p2 (Or.inl rfl)
            obtain ⟨t', f1, f2, f3, f4⟩ := fix_del_left_moved v rv l' rl rr (!c) q1 r1 r2 hrl r3
              r5 (by rw [q2]; simpa using e0)
            refine ⟨t', ?_, ?_, ?_⟩
            · rw [delete_left_move fuel v lv v x ll lr _ _ _ c false (!c) hc (by simp [hll])
                (move_red_left_plain v lv rv ll lr rl rr c false false hrl)]
              simp only [Bool.not_false]
              rw [e1]
              simp only [ok_bind]
              rw [f1]
              rfl
            · refine ⟨f3, ?_, ?_⟩
              · rintro (h | h | h)
                · subst h
                  obtain ⟨g1, g2⟩ := f4 rfl
                  refine ⟨g1, ?_⟩
                  rw [g2, q2]; simp
                · exact Bool.noConfusion h
                · exact Bool.noConfusion h
              · rintro (h | h) <;> exact Bool.noConfusion h
            · exact finish_left x v _ _ _ _ _ (iterate_inorder_mk v _ _ c)
                (by rw [f2]; simp) hw e3 e4
    · -- the left child is red
      have l4 := l4 rfl
      obtain ⟨_, hc0⟩ := hlr rfl
      subst hc0
      obtain ⟨l', e1, ⟨p1, p2, p3⟩, e3, e4⟩ := ih lv ll lr true
        (by simp only [size_mk]; omega)
        ⟨l1, l2, l5, fun h => red_absurd l4 h, fun h => red_absurd l3 h⟩
        (fun h => red_absurd l3 h) sC stC
      obtain ⟨q1, q2⟩ := p2 (Or.inl rfl)
      have hb' : bh l' = bh r := by rw [q2]; exact hb
      refine ⟨.mk v l' r false, ?_, ?_, ?_⟩
      · rw [delete_left_stay fuel v lv x ll lr r false true hc (by simp), e1]
        simp only [ok_bind]
        rw [fix_up_id_LL v l' r false q1 hrb]
        rfl
      · refine ⟨⟨q1, hr, hrb, hb'⟩, ?_, ?_⟩
        · intro _
          exact ⟨⟨q1, hr, hrb, fun h => Bool.noConfusion h, hb'⟩, by simp [q2]⟩
        · intro _; rfl
      · exact finish_left x v _ _ _ _ _ (iterate_inorder_mk v _ r false)
          (iterate_inorder_mk v l' r false) hw e3 e4

/-! ## `delete`: the item is at the node or in the right subtree -/

theorem finish_mid [Item α] (x p m : α) (S R R' L L' : List α) (hL : L = S ++ p :: R)
    (hL' : L' = S ++ m :: R') (hR : R = m :: R')
    (hw : without x (S ++ p :: R) = S ++ R) :
    L' = without x L ∧ L'.length + 1 = L.length := by
  subst hL hL' hR
  rw [hw]
  refine ⟨rfl, ?_⟩
  simp only [List.length_append, List.length_cons]
  omega

theorem delete_case_right_rotate [Item α] (ho : CmpOrder α) (x : α) (fuel : Nat)
    (ih : DeleteSpec x fuel) (v lv : α) (ll lr r : ll_rb_node α) (c : Bool)
    (hsz : size (.mk v (.mk lv ll lr true) r c) ≤ fuel + 1)
    (hpre : DelPre (.mk v (.mk lv ll lr true) r c))
    (hs : ascending (iterate_inorder (.mk v (.mk lv ll lr true) r c)))
    (hst : stored (.mk v (.mk lv ll lr true) r c) x)
    (hc : ¬ 0 < compare_items v x) :
    DeleteResult x (fuel + 1) (.mk v (.mk lv ll lr true) r c) := by
  obtain ⟨hl, hr, hb, hlr, _⟩ := hpre
  obtain ⟨hrb, hc0⟩ := hlr rfl
  subst hc0
  obtain ⟨l1, l2, l3, l4, l5⟩ := hl
  have l4 := l4 rfl
  simp only [size_mk] at hsz
  have hL : iterate_inorder (.mk v (.mk lv ll lr true) r false) =
      iterate_inorder ll ++ lv :: iterate_inorder (.mk v lr r true) := by simp
  have hs2 := hs
  have hst2 : ∃ y ∈ iterate_inorder (.mk v (.mk lv ll lr true) r false),
      compare_items y x = 0 := hst
  rw [hL] at hs2 hst2
  have hlv : before lv v := by
    have h := (sorted_mid ho _ _ v).1
      (by rw [← iterate_inorder_mk v (.mk lv ll lr true) r false]; exact hs)
    exact h.2.2.1 lv (by simp)
  have hlx : before lv x := cmp_before_of_le ho hlv hc
  have hz : ¬ compare_items lv x = 0 := by
    unfold before at hlx; omega
  obtain ⟨sC, stC, hw⟩ := descend_right ho _ _ lv x hs2 hst2 hlx
  obtain ⟨m', e1, ⟨p1, p2, p3⟩, e3, e4⟩ := ih v lr r true
    (by simp only [size_mk]; omega)
    ⟨l2, hr, by simpa using (show bh ll = bh r by simpa using hb) ▸ l5.symm,
      fun h => red_absurd l3 h, fun h => red_absurd hrb h⟩
    (fun h => red_absurd hrb h) sC stC
  obtain ⟨q1, q2⟩ := p2 (Or.inl rfl)
  obtain ⟨t', f1, f2, f3, f4, f5⟩ := fix_del_right lv ll m' false l1 q1 l4
    (by rw [q2]; simpa using l5) (fun h => Bool.noConfusion h)
  unfold DeleteResult
  refine ⟨t', ?_, ?_, ?_⟩
  · rw [delete_right_rotate fuel v lv x ll lr r false hc hz, e1]
    simp only [ok_bind]
    rw [f1]
    rfl
  · refine ⟨LL_weak f3, ?_, ?_⟩
    · intro _
      refine ⟨f3, ?_⟩
      rw [f4]; simp
    · intro _; exact f5
  · exact finish_right x lv _ _ _ _ _ hL f2 hw e3 e4

theorem delete_case_leaf [Item α] (x : α) (fuel : Nat) (v : α) (l : ll_rb_node α) (c : Bool)
    (hpre : DelPre (.mk v l .nil c)) (hst : stored (.mk v l .nil c) x)
    (hlb : is_red l = false) (hc : ¬ 0 < compare_items v x) :
    DeleteResult x (fuel + 1) (.mk v l .nil c) := by
  obtain ⟨hl, hr, hb, hlr, _⟩ := hpre
  have hln : l = .nil := nil_of_bh_zero hlb (by simpa using hb)
  subst hln
  have hz : compare_items v x = 0 := by
    obtain ⟨y, hy, e⟩ := hst
    simp only [iterate_inorder_mk, iterate_inorder_nil, List.nil_append, List.mem_singleton]
      at hy
    subst hy
    exact e
  unfold DeleteResult
  refine ⟨.nil, delete_right_nil fuel v x .nil c hc rfl hz, ⟨trivial, ?_, ?_⟩, ?_, by simp⟩
  · rintro (h | h | h)
    · subst h; exact ⟨trivial, rfl⟩
    · exact Bool.noConfusion h
    · exact Bool.noConfusion h
  · rintro (h | h) <;> exact Bool.noConfusion h
  · simp [without, hz]

/-- The right child is red, or it is black with a red left child: no red node is borrowed. -/
theorem delete_case_right_stay [Item α] (ho : CmpOrder α) (x : α) (fuel : Nat)
    (ih : DeleteSpec x fuel) (v rv : α) (l rl rr : ll_rb_node α) (c rc : Bool)
    (hsz : size (.mk v l (.mk rv rl rr rc) c) ≤ fuel + 1)
    (hpre : DelPre (.mk v l (.mk rv rl rr rc) c))
    (hs : ascending (iterate_inorder (.mk v l (.mk rv rl rr rc) c)))
    (hst : stored (.mk v l (.mk rv rl rr rc) c) x)
    (hlb : is_red l = false) (hc : ¬ 0 < compare_items v x)
    (hn : (!rc && !is_red rl) = false) :
    DeleteResult x (fuel + 1) (.mk v l (.mk rv rl rr rc) c) := by
  obtain ⟨hl, hr, hb, hlr, hrc⟩ := hpre
  obtain ⟨r1, r2, r3, r4, r5⟩ := hr
  simp only [size_mk] at hsz
  have hs1 : ascending (iterate_inorder l ++ v :: iterate_inorder (.mk rv rl rr rc)) := by
    rw [← iterate_inorder_mk v l _ c]; exact hs
  have hst1 : ∃ y ∈ iterate_inorder l ++ v :: iterate_inorder (.mk rv rl rr rc),
      compare_items y x = 0 := by
    rw [← iterate_inorder_mk v l _ c]; exact hst
  have h2 : (if (!rc && !is_red rl) = true then move_red_right (.mk v l (.mk rv rl rr rc) c)
      else .ok (.mk v l (.mk rv rl rr rc) c)) = .ok (.mk v l (.mk rv rl rr rc) c) := by
    rw [hn]; rfl
  -- the precondition of the call on the right child, and what it gives
  have hpr : DelPre (.mk rv rl rr rc) :=
    ⟨r1, r2, r5, fun _ => ⟨r3, by cases rc <;> simp_all⟩, fun h => red_absurd r3 h⟩
  have hpost : ∀ r', DelPost (.mk rv rl rr rc) r' →
      LL r' ∧ bh r' = bh (.mk rv rl rr rc) ∧ (c = true → is_red r' = false) := by
    intro r' ⟨_, p2, p3⟩
    cases rc
    · have hrl : is_red rl = true := by simpa using hn
      obtain ⟨q1, q2⟩ := p2 (Or.inr (Or.inl hrl))
      exact ⟨q1, q2, fun _ => p3 (Or.inl hrl)⟩
    · obtain ⟨q1, q2⟩ := p2 (Or.inl rfl)
      refine ⟨q1, q2, fun h => ?_⟩
      have := hrc rfl
      rw [h] at this
      exact Bool.noConfusion this
  have hfin : ∀ (m : α) (r' : ll_rb_node α), LL r' → bh r' = bh (.mk rv rl rr rc) →
      (c = true → is_red r' = false) →
      ∃ t', fix_up (.mk m l r' c) = .ok t' ∧
        iterate_inorder t' = iterate_inorder l ++ m :: iterate_inorder r' ∧
        DelPost (.mk v l (.mk rv rl rr rc) c) t' := by
    intro m r' q1 q2 q3
    obtain ⟨t', f1, f2, f3, f4, f5⟩ := fix_del_right m l r' c hl q1 hlb (by rw [q2]; exact hb) q3
    refine ⟨t', f1, f2, LL_weak f3, ?_, ?_⟩
    · intro _
      refine ⟨f3, ?_⟩
      rw [f4]; simp
    · rintro (h | h)
      · exact red_absurd hlb h
      · have := hrc h
        rw [f5]; exact this
  unfold DeleteResult
  by_cases hz : compare_items v x = 0
  · -- the item is at this node: the leftmost item of the right subtree replaces it
    obtain ⟨r', m, d1, d2, dp⟩ := delete_left_most_spec fuel rv rl rr rc
      (by simp only [size_mk]; omega) hpr r3
    obtain ⟨m0, rest, lm1, lm2⟩ := left_most_item_spec rv rl rr rc
    have hm : m0 = m := by
      rw [d2] at lm2
      exact (List.cons.inj lm2).1.symm
    subst hm
    obtain ⟨q1, q2, q3⟩ := hpost r' dp
    obtain ⟨t', f1, f2, f3⟩ := hfin m0 r' q1 q2 q3
    refine ⟨t', ?_, f3, ?_⟩
    · rw [delete_right_min fuel v rv v x l rl rr l (.mk rv rl rr rc) c rc c hc hlb h2 hz, lm1]
      simp only [ok_bind]
      rw [d1]
      simp only [ok_bind]
      rw [f1]
      rfl
    · exact finish_mid x v m0 _ _ _ _ _ (iterate_inorder_mk v l _ c) f2 d2
        (at_mid ho _ _ v x hs1 hz)
  · -- the item is in the right subtree
    have hvx : before v x := by
      unfold before; omega
    obtain ⟨sC, stC, hw⟩ := descend_right ho _ _ v x hs1 hst1 hvx
    obtain ⟨r', e1, dp, e3, e4⟩ := ih rv rl rr rc (by simp only [size_mk]; omega) hpr
      (fun h => red_absurd r3 h) sC stC
    obtain ⟨q1, q2, q3⟩ := hpost r' dp
    obtain ⟨t', f1, f2, f3⟩ := hfin v r' q1 q2 q3
    refine ⟨t', ?_, f3, ?_⟩
    · rw [delete_right_rec fuel v rv v x l rl rr l (.mk rv rl rr rc) c rc c hc hlb h2 hz, e1]
      simp only [ok_bind]
      rw [f1]
      rfl
    · exact finish_right x v _ _ _ _ _ (iterate_inorder_mk v l _ c) f2 hw e3 e4

/-- Both children are black, the right one has a black left child, and the left one has a red
left child: `move_red_right` rotates. -/
theorem delete_case_right_move_rotate [Item α] (ho : CmpOrder α) (x : α) (fuel : Nat)
    (ih : DeleteSpec x fuel) (v lv llv rv : α) (lll llr lr rl rr : ll_rb_node α) (c : Bool)
    (hsz : size (.mk v (.mk lv (.mk llv lll llr true) lr false) (.mk rv rl rr false) c) ≤
      fuel + 1)
    (hpre : DelPre (.mk v (.mk lv (.mk llv lll llr true) lr false) (.mk rv rl rr false) c))
    (hs : ascending (iterate_inorder
      (.mk v (.mk lv (.mk llv lll llr true) lr false) (.mk rv rl rr false) c)))
    (hst : stored (.mk v (.mk lv (.mk llv lll llr true) lr false) (.mk rv rl rr false) c) x)
    (hc : ¬ 0 < compare_items v x) (hrl : is_red rl = false) :
    DeleteResult x (fuel + 1)
      (.mk v (.mk lv (.mk llv lll llr true) lr false) (.mk rv rl rr false) c) := by
  obtain ⟨hl, hr, hb, _, _⟩ := hpre
  obtain ⟨l1, l2, l3, _, l5⟩ := hl
  obtain ⟨r1, r2, r3, _, r5⟩ := hr
  obtain ⟨k1, k2, k3, k4, k5⟩ := l1
  simp only [size_mk] at hsz
  have hL : iterate_inorder
      (.mk v (.mk lv (.mk llv lll llr true) lr false) (.mk rv rl rr false) c) =
      iterate_inorder (.mk llv lll llr false) ++
        lv :: iterate_inorder (.mk v lr (.mk rv rl rr true) false) := by simp
  have hs2 := hs
  have hst2 : ∃ y ∈ iterate_inorder
      (.mk v (.mk lv (.mk llv lll llr true) lr false) (.mk rv rl rr false) c),
      compare_items y x = 0 := hst
  rw [hL] at hs2 hst2
  have hlv : before lv v := by
    have h := (sorted_mid ho _ _ v).1
      (by rw [← iterate_inorder_mk v (.mk lv (.mk llv lll llr true) lr false)
        (.mk rv rl rr false) c]; exact hs)
    exact h.2.2.1 lv (by simp)
  have hlx : before lv x := cmp_before_of_le ho hlv hc
  have hz : ¬ compare_items lv x = 0 := by
    unfold before at hlx; omega
  obtain ⟨sC, stC, hw⟩ := descend_right ho _ _ lv x hs2 hst2 hlx
  have e0 : bh lll = bh lr := by simpa using l5
  have e1 : bh lll = bh rl := by simpa using hb
  obtain ⟨m', d1, ⟨p1, p2, p3⟩, e3, e4⟩ := ih v lr (.mk rv rl rr true) false
    (by simp only [size_mk]; omega)
    ⟨l2, ⟨r1, r2, r3, fun _ => hrl, r5⟩, by simp; omega, fun h => red_absurd l3 h,
      fun _ => rfl⟩
    (fun _ => hc) sC stC
  obtain ⟨q1, q2⟩ := p2 (Or.inr (Or.inr rfl))
  have q3 := p3 (Or.inr rfl)
  have hA : LL (.mk llv lll llr false) := ⟨k1, k2, k3, fun h => Bool.noConfusion h, k5⟩
  have hb' : bh (.mk llv lll llr false) = bh m' := by
    rw [q2]; simp; omega
  have h2 : (if (!false && !is_red rl) = true then
      move_red_right (.mk v (.mk lv (.mk llv lll llr true) lr false) (.mk rv rl rr false) c)
      else .ok (.mk v (.mk lv (.mk llv lll llr true) lr false) (.mk rv rl rr false) c)) =
      .ok (.mk lv (.mk llv lll llr false) (.mk v lr (.mk rv rl rr true) false) c) := by
    rw [move_red_right_rotate]
    simp [hrl]
  unfold DeleteResult
  refine ⟨.mk lv (.mk llv lll llr false) m' c, ?_, ?_, ?_⟩
  · rw [delete_right_rec fuel v rv lv x (.mk lv (.mk llv lll llr true) lr false) rl rr _ _ c false c hc
      rfl h2 hz, d1]
    simp only [ok_bind]
    rw [fix_up_id_LL lv _ m' c hA q3]
    rfl
  · refine ⟨⟨hA, q1, q3, hb'⟩, ?_, ?_⟩
    · intro _
      refine ⟨⟨hA, q1, q3, fun _ => rfl, hb'⟩, ?_⟩
      simp
    · rintro (h | h) <;> exact Bool.noConfusion h
  · exact finish_right x lv _ _ _ _ _ hL (iterate_inorder_mk lv _ m' c) hw e3 e4

/-- Both children are black, the right one has a black left child, and so has the left
one: `move_red_right` only flips the colours. -/
theorem delete_case_right_move_plain [Item α] (ho : CmpOrder α) (x : α) (fuel : Nat)
    (ih : DeleteSpec x fuel) (v lv rv : α) (ll lr rl rr : ll_rb_node α) (c : Bool)
    (hsz : size (.mk v (.mk lv ll lr false) (.mk rv rl rr false) c) ≤ fuel + 1)
    (hpre : DelPre (.mk v (.mk lv ll lr false) (.mk rv rl rr false) c))
    (hs : ascending (iterate_inorder (.mk v (.mk lv ll lr false) (.mk rv rl rr false) c)))
    (hst : stored (.mk v (.mk lv ll lr false) (.mk rv rl rr false) c) x)
    (hc : ¬ 0 < compare_items v x) (hrl : is_red rl = false) (hll : is_red ll = false) :
    DeleteResult x (fuel + 1) (.mk v (.mk lv ll lr false) (.mk rv rl rr false) c) := by
  obtain ⟨hl, hr, hb, _, _⟩ := hpre
  obtain ⟨l1, l2, l3, _, l5⟩ := hl
  obtain ⟨r1, r2, r3, _, r5⟩ := hr
  simp only [size_mk] at hsz
  have hL : iterate_inorder (.mk v (.mk lv ll lr false) (.mk rv rl rr false) c) =
      iterate_inorder (.mk lv ll lr true) ++ v :: iterate_inorder (.mk rv rl rr true) := by
    simp
  have hs1 := hs
  have hst1 : ∃ y ∈ iterate_inorder (.mk v (.mk lv ll lr false) (.mk rv rl rr false) c),
      compare_items y x = 0 := hst
  rw [hL] at hs1 hst1
  have e0 : bh ll = bh rl := by simpa using hb
  have h2 : (if (!false && !is_red rl) = true then
      move_red_right (.mk v (.mk lv ll lr false) (.mk rv rl rr false) c)
      else .ok (.mk v (.mk lv ll lr false) (.mk rv rl rr false) c)) =
      .ok (.mk v (.mk lv ll lr true) (.mk rv rl rr true) (!c)) := by
    rw [move_red_right_plain _ _ _ _ _ _ _ _ _ _ hll]
    simp [hrl]
  have hpr : DelPre (.mk rv rl rr true) :=
    ⟨r1, r2, r5, fun h => red_absurd hrl h, fun h => red_absurd r3 h⟩
  have hfin : ∀ (m : α) (r' : ll_rb_node α), DelPost (.mk rv rl rr true) r' →
      ∃ t', fix_up (.mk m (.mk lv ll lr true) r' (!c)) = .ok t' ∧
        iterate_inorder t' = iterate_inorder (.mk lv ll lr true) ++ m :: iterate_inorder r' ∧
        DelPost (.mk v (.mk lv ll lr false) (.mk rv rl rr false) c) t' := by
    intro m r' ⟨_, p2, _⟩
    obtain ⟨q1, q2⟩ := p2 (Or.inl rfl)
    obtain ⟨t', f1, f2, f3, f4⟩ := fix_del_right_moved m lv ll lr r' (!c) l1 l2 hll l3 l5 q1
      (by rw [q2]; simp; omega)
    refine ⟨t', f1, by rw [f2]; simp, f3, ?_, ?_⟩
    · rintro (h | h | h)
      · subst h
        obtain ⟨g1, g2⟩ := f4 rfl
        refine ⟨g1, ?_⟩
        rw [g2]; simp
      · exact Bool.noConfusion h
      · exact Bool.noConfusion h
    · rintro (h | h) <;> exact Bool.noConfusion h
  unfold DeleteResult
  by_cases hz : compare_items v x = 0
  · obtain ⟨r', m, d1, d2, dp⟩ := delete_left_most_spec fuel rv rl rr true
      (by simp only [size_mk]; omega) hpr r3
    obtain ⟨m0, rest, lm1, lm2⟩ := left_most_item_spec rv rl rr true
    have hm : m0 = m := by
      rw [d2] at lm2
      exact (List.cons.inj lm2).1.symm
    subst hm
    obtain ⟨t', f1, f2, f3⟩ := hfin m0 r' dp
    refine ⟨t', ?_, f3, ?_⟩
    · rw [delete_right_min fuel v rv v x (.mk lv ll lr false) rl rr _ _ c false (!c) hc rfl h2 hz,
      lm1]
      simp only [ok_bind]
      rw [d1]
      simp only [ok_bind]
      rw [f1]
      rfl
    · exact finish_mid x v m0 _ _ _ _ _ hL f2 d2 (at_mid ho _ _ v x hs1 hz)
  · have hvx : before v x := by
      unfold before; omega
    obtain ⟨sC, stC, hw⟩ := descend_right ho _ _ v x hs1 hst1 hvx
    obtain ⟨r', e1, dp, e3, e4⟩ := ih rv rl rr true (by simp only [size_mk]; omega) hpr
      (fun h => red_absurd r3 h) sC stC
    obtain ⟨t', f1, f2, f3⟩ := hfin v r' dp
    refine ⟨t', ?_, f3, ?_⟩
    · rw [delete_right_rec fuel v rv v x (.mk lv ll lr false) rl rr _ _ c false (!c) hc rfl h2 hz,
      e1]
      simp only [ok_bind]
      rw [f1]
      rfl
    · exact finish_right x v _ _ _ _ _ hL f2 hw e3 e4

/-! ## `delete` on a subtree -/

theorem delete_spec [Item α] (ho : CmpOrder α) (x : α) : ∀ fuel, DeleteSpec x fuel := by
  intro fuel
  induction fuel with
  | zero =>
    intro v l r c hsz
    simp at hsz
  | succ fuel ih =>
    intro v l r c hsz hpre hk hs hst
    by_cases hc : 0 < compare_items v x
    · have hrb : is_red r = false := by
        cases h : is_red r
        · rfl
        · exact absurd hc (hk h)
      exact delete_case_left ho x fuel ih v l r c hsz hpre hs hst hc hrb
    · rcases l with _ | ⟨lv, ll, lr, lc⟩
      · rcases r with _ | ⟨rv, rl, rr, rc⟩
        · exact delete_case_leaf x fuel v .nil c hpre hst rfl hc
        · have hb := hpre.2.2.1
          cases rc
          · simp at hb
          · exact delete_case_right_stay ho x fuel ih v rv .nil rl rr c true hsz hpre hs hst
              rfl hc (by simp)
      · cases lc
        · rcases r with _ | ⟨rv, rl, rr, rc⟩
          · exact delete_case_leaf x fuel v _ c hpre hst rfl hc
          · cases rc
            · by_cases hrl : is_red rl = true
              · exact delete_case_right_stay ho x fuel ih v rv _ rl rr c false hsz hpre hs hst
                  rfl hc (by simp [hrl])
              · have hrl : is_red rl = false := by simpa using hrl
                rcases ll with _ | ⟨llv, lll, llr, llc⟩
                · exact delete_case_right_move_plain ho x fuel ih v lv rv .nil lr rl rr c hsz
                    hpre hs hst hc hrl rfl
                · cases llc
                  · exact delete_case_right_move_plain ho x fuel ih v lv rv _ lr rl rr c hsz
                      hpre hs hst hc hrl rfl
                  · exact delete_case_right_move_rotate ho x fuel ih v lv llv rv lll llr lr rl
                      rr c hsz hpre hs hst hc hrl
            · exact delete_case_right_stay ho x fuel ih v rv _ rl rr c true hsz hpre hs hst
                rfl hc (by simp)
        · exact delete_case_right_rotate ho x fuel ih v lv ll lr r c hsz hpre hs hst hc

/-! ## The tree-level deletion -/

theorem ascending_without [Item α] (x : α) (L : List α) (h : ascending L) :
    ascending (without x L) :=
  List.Pairwise.sublist (List.filter_sublist L) h

theorem mem_without [Item α] (x y : α) (L : List α) :
    y ∈ without x L ↔ y ∈ L ∧ compare_items y x ≠ 0 := by
  simp [without]

theorem tree_delete_eq [Item α] (t : ll_rb_tree α) (x : α) (root : ll_rb_node α) (b : Bool)
    (h : llrb_tree.delete (size t.root) t.root x = .ok (root, b)) :
    t.delete x =
      set_red root false >>= fun r =>
        .ok ⟨r, if b then (t.count + 2 ^ 64 - 1) % 2 ^ 64 else t.count⟩ := by
  unfold ll_rb_tree.delete
  rw [h]
  rfl

theorem tree_delete_spec [Item α] (ho : CmpOrder α) (t : ll_rb_tree α) (x : α)
    (hLL : LL t.root) (hb : is_red t.root = false) (hs : ascending (iterate_inorder t.root))
    (hsize : 2 ≤ size t.root) (hst : stored t.root x) :
    ∃ t', t.delete x = .ok t' ∧ LL t'.root ∧ is_red t'.root = false ∧
      iterate_inorder t'.root = without x (iterate_inorder t.root) ∧
      (iterate_inorder t'.root).length + 1 = (iterate_inorder t.root).length ∧
      t'.count = (t.count + 2 ^ 64 - 1) % 2 ^ 64 := by
  obtain ⟨root, count⟩ := t
  simp only at hLL hb hs hsize hst ⊢
  rcases root with _ | ⟨v, l, r, c⟩
  · simp at hsize
  · simp only [is_red_mk] at hb
    subst hb
    obtain ⟨hl, hr, hrb, _, hbh⟩ := hLL
    obtain ⟨r', e, ⟨p1, _, _⟩, e3, e4⟩ := delete_spec ho x (size (.mk v l r false)) v l r false
      (le_refl _) ⟨hl, hr, hbh, fun _ => ⟨hrb, rfl⟩, fun h => red_absurd hrb h⟩
      (fun h => red_absurd hrb h) hs hst
    rw [size_eq_length] at hsize
    rcases r' with _ | ⟨v', l', r'', c'⟩
    · simp only [iterate_inorder_nil, List.length_nil] at e4
      omega
    · refine ⟨⟨.mk v' l' r'' false, (count + 2 ^ 64 - 1) % 2 ^ 64⟩, ?_, ?_, rfl, ?_, ?_, rfl⟩
      · rw [tree_delete_eq _ x _ true e]
        simp only [set_red, ok_bind, ↓reduceIte]
      · exact ⟨p1.1, p1.2.1, p1.2.2.1, fun h => Bool.noConfusion h, p1.2.2.2⟩
      · rw [← e3]; simp
      · rw [← e4]; simp

/-! ## `delete` of an item that is not stored -/

theorem delete_left_nil [Item α] (fuel : Nat) (v x : α) (r : ll_rb_node α) (c : Bool)
    (hc : 0 < compare_items v x) :
    delete (fuel + 1) (.mk v .nil r c) x = .error .nil_deref := by
  simp only [delete, compare_item_mk, get_left_mk, ok_bind, needs_red_nil, hc]
  rfl

theorem delete_right_nil_absent [Item α] (fuel : Nat) (v x : α) (l : ll_rb_node α) (c : Bool)
    (hc : ¬ 0 < compare_items v x) (hl : is_red l = false) (hz : ¬ compare_items v x = 0) :
    delete (fuel + 1) (.mk v l .nil c) x = .error .nil_deref := by
  have hc' : ¬ compare_items v x > 0 := hc
  simp only [delete, compare_item_mk, get_left_mk, ok_bind, pure_eq_ok, hc', if_false, hl,
    get_right_mk, hz, is_nil, Bool.false_eq_true, needs_red_nil, decide_False, Bool.false_and]
  rfl

theorem absent_left {P : α → Prop} (C S L : List α) (p : α) (hL : L = C ++ p :: S)
    (h : ∀ y ∈ L, P y) : ∀ y ∈ C, P y := by
  subst hL
  exact fun y hy => h y (List.mem_append_left _ hy)

theorem absent_right {P : α → Prop} (S C L : List α) (p : α) (hL : L = S ++ p :: C)
    (h : ∀ y ∈ L, P y) : ∀ y ∈ C, P y := by
  subst hL
  exact fun y hy => h y (List.mem_append_right _ (List.mem_cons_of_mem _ hy))

/-- On a subtree that meets what `delete` needs, an item that compares equal to no stored item
makes `delete` dereference a nil pointer. -/
theorem delete_absent_spec [Item α] (x : α) (fuel : Nat) :
    ∀ (v : α) (l r : ll_rb_node α) (c : Bool), size (.mk v l r c) ≤ fuel →
    DelPre (.mk v l r c) → (is_red r = true → ¬ 0 < compare_items v x) →
    (∀ y ∈ iterate_inorder (.mk v l r c), compare_items y x ≠ 0) →
    delete fuel (.mk v l r c) x = .error .nil_deref := by
  induction fuel with
  | zero =>
    intro v l r c hsz
    simp at hsz
  | succ fuel ih =>
    intro v l r c hsz hpre hk hns
    obtain ⟨hl, hr, hb, hlr, hrc⟩ := hpre
    simp only [size_mk] at hsz
    have hv : ¬ compare_items v x = 0 := hns v (by simp)
    by_cases hc : 0 < compare_items v x
    · have hrb : is_red r = false := by
        cases h : is_red r
        · rfl
        · exact absurd hc (hk h)
      rcases l with _ | ⟨lv, ll, lr, lc⟩
      · exact delete_left_nil fuel v x r c hc
      · obtain ⟨l1, l2, l3, l4, l5⟩ := hl
        simp only [size_mk] at hsz
        have hnl : ∀ y ∈ iterate_inorder (.mk lv ll lr true), compare_items y x ≠ 0 :=
          absent_left _ (iterate_inorder r) _ v (by simp) hns
        cases lc
        · by_cases hll : is_red ll = true
          · rw [delete_left_stay fuel v lv x ll lr r c false hc (by simp [hll]),
              ih lv ll lr false (by simp only [size_mk]; omega)
                ⟨l1, l2, l5, fun _ => ⟨l3, rfl⟩, fun h => red_absurd l3 h⟩
                (fun h => red_absurd l3 h) hnl]
            rfl
          · have hll : is_red ll = false := by simpa using hll
            rcases r with _ | ⟨rv, rl, rr, rc⟩
            · simp at hb
            · simp only [is_red_mk] at hrb
              subst hrb
              obtain ⟨r1, r2, r3, r4, r5⟩ := hr
              have e0 : bh ll = bh rl := by simpa using hb
              simp only [size_mk] at hsz
              by_cases hrl : is_red rl = true
              · rcases rl with _ | ⟨rlv, rll, rlr, rlc⟩
                · exact Bool.noConfusion hrl
                · simp only [is_red_mk] at hrl
                  subst hrl
                  obtain ⟨s1, s2, s3, s4, s5⟩ := r1
                  have s4 := s4 rfl
                  have e3' : bh ll = bh rll := by simpa using e0
                  simp only [size_mk] at hsz
                  rw [delete_left_move fuel v lv rlv x ll lr _ _ _ c false c hc (by simp [hll])
                    (move_red_left_rotate v lv rv rlv ll lr rll rlr rr c false false)]
                  simp only [Bool.not_false]
                  rw [ih v (.mk lv ll lr true) rll false (by simp only [size_mk]; omega)
                    ⟨⟨l1, l2, l3, fun _ => hll, l5⟩, s1, by simpa using e3',
                      fun _ => ⟨s4, rfl⟩, fun h => red_absurd s4 h⟩
                    (fun h => red_absurd s4 h)
                    (absent_left _ (iterate_inorder rlr ++ rv :: iterate_inorder rr) _ rlv
                      (by simp) hns)]
                  rfl
              · have hrl : is_red rl = false := by simpa using hrl
                rw [delete_left_move fuel v lv v x ll lr _ _ _ c false (!c) hc (by simp [hll])
                  (move_red_left_plain v lv rv ll lr rl rr c false false hrl)]
                simp only [Bool.not_false]
                rw [ih lv ll lr true (by simp only [size_mk]; omega)
                  ⟨l1, l2, l5, fun h => red_absurd hll h, fun h => red_absurd l3 h⟩
                  (fun h => red_absurd l3 h) hnl]
                rfl
        · have l4 := l4 rfl
          rw [delete_left_stay fuel v lv x ll lr r c true hc (by simp),
            ih lv ll lr true (by simp only [size_mk]; omega)
              ⟨l1, l2, l5, fun h => red_absurd l4 h, fun h => red_absurd l3 h⟩
              (fun h => red_absurd l3 h) hnl]
          rfl
    · rcases l with _ | ⟨lv, ll, lr, lc⟩
      · rcases r with _ | ⟨rv, rl, rr, rc⟩
        · exact delete_right_nil_absent fuel v x .nil c hc rfl hv
        · obtain ⟨r1, r2, r3, r4, r5⟩ := hr
          cases rc
          · simp at hb
          · have r4 := r4 rfl
            simp only [size_mk] at hsz
            rw [delete_right_rec fuel v rv v x .nil rl rr .nil (.mk rv rl rr true) c true c hc rfl
              (by simp) hv,
              ih rv rl rr true (by simp only [size_mk]; omega)
                ⟨r1, r2, r5, fun h => red_absurd r4 h, fun h => red_absurd r3 h⟩
                (fun h => red_absurd r3 h) (absent_right [] _ _ v (by simp) hns)]
            rfl
      · obtain ⟨l1, l2, l3, l4, l5⟩ := hl
        simp only [size_mk] at hsz
        cases lc
        · rcases r with _ | ⟨rv, rl, rr, rc⟩
          · exact delete_right_nil_absent fuel v x _ c hc rfl hv
          · obtain ⟨r1, r2, r3, r4, r5⟩ := hr
            simp only [size_mk] at hsz
            have hnr : ∀ y ∈ iterate_inorder (.mk rv rl rr true), compare_items y x ≠ 0 :=
              absent_right (iterate_inorder (.mk lv ll lr false)) _ _ v (by simp) hns
            cases rc
            · have e0 : bh ll = bh rl := by simpa using hb
              by_cases hrl : is_red rl = true
              · rw [delete_right_rec fuel v rv v x (.mk lv ll lr false) rl rr
                  (.mk lv ll lr false) (.mk rv rl rr false) c false c hc rfl
                  (by simp [hrl]) hv,
                  ih rv rl rr false (by simp only [size_mk]; omega)
                    ⟨r1, r2, r5, fun _ => ⟨r3, rfl⟩, fun h => red_absurd r3 h⟩
                    (fun h => red_absurd r3 h) hnr]
                rfl
              · have hrl : is_red rl = false := by simpa using hrl
                by_cases hll : is_red ll = true
                · rcases ll with _ | ⟨llv, lll, llr, llc⟩
                  · exact Bool.noConfusion hll
                  · simp only [is_red_mk] at hll
                    subst hll
                    obtain ⟨k1, k2, k3, k4, k5⟩ := l1
                    have e1 : bh lll = bh lr := by simpa using l5
                    have e2 : bh lll = bh rl := by simpa using e0
                    simp only [size_mk] at hsz
                    rw [delete_right_rec fuel v rv lv x
                      (.mk lv (.mk llv lll llr true) lr false) rl rr
                      (.mk llv lll llr false) (.mk v lr (.mk rv rl rr true) false) c false c hc
                      rfl (by rw [move_red_right_rotate]; simp [hrl]) (hns lv (by simp)),
                      ih v lr (.mk rv rl rr true) false (by simp only [size_mk]; omega)
                        ⟨l2, ⟨r1, r2, r3, fun _ => hrl, r5⟩, by simp; omega,
                          fun h => red_absurd l3 h, fun _ => rfl⟩
                        (fun _ => hc)
                        (absent_right (iterate_inorder (.mk llv lll llr false)) _ _ lv
                          (by simp) hns)]
                    rfl
                · have hll : is_red ll = false := by simpa using hll
                  rw [delete_right_rec fuel v rv v x (.mk lv ll lr false) rl rr
                    (.mk lv ll lr true) (.mk rv rl rr true) c false (!c) hc rfl
                    (by rw [move_red_right_plain _ _ _ _ _ _ _ _ _ _ hll]; simp [hrl]) hv,
                    ih rv rl rr true (by simp only [size_mk]; omega)
                      ⟨r1, r2, r5, fun h => red_absurd hrl h, fun h => red_absurd r3 h⟩
                      (fun h => red_absurd r3 h) hnr]
                  rfl
            · have r4 := r4 rfl
              rw [delete_right_rec fuel v rv v x (.mk lv ll lr false) rl rr
                (.mk lv ll lr false) (.mk rv rl rr true) c true c hc rfl (by simp) hv,
                ih rv rl rr true (by simp only [size_mk]; omega)
                  ⟨r1, r2, r5, fun h => red_absurd r4 h, fun h => red_absurd r3 h⟩
                  (fun h => red_absurd r3 h) hnr]
              rfl
        · have l4 := l4 rfl
          obtain ⟨hrb, hc0⟩ := hlr rfl
          subst hc0
          rw [delete_right_rotate fuel v lv x ll lr r false hc (hns lv (by simp)),
            ih v lr r true (by simp only [size_mk]; omega)
              ⟨l2, hr, by simp at hb; omega, fun h => red_absurd l3 h,
                fun h => red_absurd hrb h⟩
              (fun h => red_absurd hrb h)
              (absent_right (iterate_inorder ll) _ _ lv (by simp) hns)]
          rfl

/-- The tree-level `delete` of an item that is not stored, on a tree that has the invariants
(b)-(e), dereferences a nil pointer. -/
theorem tree_delete_absent [Item α] (t : ll_rb_tree α) (x : α) (hLL : LL t.root)
    (hb : is_red t.root = false) (hns : ¬ stored t.root x) :
    t.delete x = .error .nil_deref := by
  obtain ⟨root, count⟩ := t
  simp only at hLL hb hns ⊢
  have key : llrb_tree.delete (size root) root x = .error .nil_deref := by
    rcases root with _ | ⟨v, l, r, c⟩
    · rfl
    · simp only [is_red_mk] at hb
      subst hb
      obtain ⟨hl, hr, hrb, _, hbh⟩ := hLL
      exact delete_absent_spec x _ v l r false (le_refl _)
        ⟨hl, hr, hbh, fun _ => ⟨hrb, rfl⟩, fun h => red_absurd hrb h⟩
        (fun h => red_absurd hrb h) (fun y hy hyx => hns ⟨y, hy, hyx⟩)
  unfold ll_rb_tree.delete
  simp only
  rw [key]
  rfl

/-! ## The trees of the tests -/

theorem test_tree1_reachable : reachable test_tree1 :=
  .step ll_rb_tree.empty test_tree1 (.Int 1) .start rfl

theorem test_tree2_reachable : reachable test_tree2 :=
  .step test_tree1 test_tree2 (.Int 2) test_tree1_reachable rfl

theorem test_tree3_reachable : reachable test_tree3 :=
  .step test_tree2 test_tree3 (.Int 3) test_tree2_reachable rfl

theorem reachable_invariants [Item α] (ho : CmpOrder α) (t : ll_rb_tree α) (h : reachable t) :
    llrb_invariants t.root := by
  obtain ⟨h1, h2, h3, _⟩ := reachable_inv ho t h
  exact (llrb_invariants_iff ho t.root).2 ⟨h1, h2, h3⟩

theorem test_tree2_invariants : llrb_invariants test_tree2.root :=
  reachable_invariants test_item_cmp_order _ test_tree2_reachable

theorem test_tree3_invariants : llrb_invariants test_tree3.root :=
  reachable_invariants test_item_cmp_order _ test_tree3_reachable

theorem iterator_in_order (t : ll_rb_tree α) :
    t.iterator IN_ORDER = iterate_inorder t.root := by
  simp [ll_rb_tree.iterator, iterate, IN_ORDER, PRE_ORDER]

/-! ## Insertion, deletion and lookup -/

/-- Insert preserves the LLRB invariants when the types of the items are told apart by their
names. For items whose `Less` is a strict weak order on each type, distinct types having
distinct (package path, type name) pairs: for every tree that
has (a) strict binary-search order under `compare_item`, (b) no red right child, (c) no red
node with a red left child, (d) the same number of black nodes on every path from the root to
an empty subtree and (e) a black root, and for every item, the tree-level insert returns and
the tree after it has (a)-(e) again; and every tree reachable from the empty tree by insertions
has them. -/
theorem insert_preserves_invariants [Item α] (hL : LessContract α) (hT : TypesNamedApart α) :
    (∀ (t : ll_rb_tree α) (x : α), llrb_invariants t.root →
      ∃ t', t.insert x = .ok t' ∧ llrb_invariants t'.root) ∧
    (∀ t : ll_rb_tree α, reachable t → llrb_invariants t.root) := by
  have ho := cmp_order_of_contract hL hT
  refine ⟨?_, fun t h => reachable_invariants ho t h⟩
  intro t x hinv
  obtain ⟨h1, _, h3⟩ := (llrb_invariants_iff ho t.root).1 hinv
  obtain ⟨t', e, j1, j2, j3, _⟩ := tree_insert_spec ho t x h1 h3
  exact ⟨t', e, (llrb_invariants_iff ho t'.root).2 ⟨j1, j2, j3⟩⟩

/-- Example: inserting `Int(3)` into the tree holding `Int(1)` and `Int(2)` gives the
tree of the three items, which has the invariants. -/
theorem insert_preserves_invariants_witness :
    llrb_invariants test_tree2.root ∧ test_tree2.insert (.Int 3) = .ok test_tree3 ∧
      llrb_invariants test_tree3.root := by
  obtain ⟨t', h, inv⟩ := (insert_preserves_invariants test_item_less_contract
    test_item_types_named_apart).1 test_tree2 (.Int 3) test_tree2_invariants
  have e : test_tree2.insert (.Int 3) = .ok test_tree3 := rfl
  rw [e] at h
  have h' := Except.ok.inj h
  subst h'
  exact ⟨test_tree2_invariants, e, inv⟩

/-- Delete preserves the LLRB invariants when the types of the items are told apart by their
names. For items whose `Less` is a strict weak order on each type, distinct types having
distinct (package path, type name) pairs: for every tree of at
least two nodes that has the invariants (a)-(e) and every item stored in it, the tree-level
delete returns a tree (no nil pointer is dereferenced and the recursion budget is not
exhausted) and that tree has the invariants (a)-(e), in particular a black root. -/
theorem delete_preserves_invariants [Item α] (hL : LessContract α) (hT : TypesNamedApart α)
    (t : ll_rb_tree α) (x : α) (hinv : llrb_invariants t.root) (hsize : 2 ≤ size t.root)
    (hst : stored t.root x) :
    ∃ t', t.delete x = .ok t' ∧ llrb_invariants t'.root ∧ root_black t'.root := by
  have ho := cmp_order_of_contract hL hT
  obtain ⟨h1, h2, h3⟩ := (llrb_invariants_iff ho t.root).1 hinv
  obtain ⟨t', e, j1, j2, j3, _⟩ := tree_delete_spec ho t x h1 h2 h3 hsize hst
  refine ⟨t', e, (llrb_invariants_iff ho t'.root).2 ⟨j1, j2, ?_⟩, j2⟩
  rw [j3]
  exact ascending_without x _ h3

theorem test_tree3_stored_one : stored test_tree3.root (.Int 1) :=
  ⟨.Int 1, by simp [test_tree3], by decide⟩

/-- Example: deleting `Int(1)` from the tree of `Int(1)`, `Int(2)`, `Int(3)`. -/
theorem delete_preserves_invariants_witness :
    llrb_invariants test_tree3.root ∧ 2 ≤ size test_tree3.root ∧
      stored test_tree3.root (.Int 1) ∧
      ∃ t', test_tree3.delete (.Int 1) = .ok t' ∧ llrb_invariants t'.root ∧
        root_black t'.root :=
  ⟨test_tree3_invariants, by decide, test_tree3_stored_one,
    delete_preserves_invariants test_item_less_contract test_item_types_named_apart test_tree3
      (.Int 1) test_tree3_invariants (by decide) test_tree3_stored_one⟩

/-- Delete removes exactly the requested item when the types of the items are told apart by
their names. For items whose `Less` is a strict weak order on each type, distinct types having
distinct (package path, type name) pairs: for every
tree of at least two nodes that has the invariants (a)-(e), whose count is its number of nodes
(a `uint64`), and every item `x` stored in it, the tree-level delete returns a tree whose
in-order sequence is the previous one without the items that compare equal to `x`, all others
kept in their order; exactly one item is removed and the count goes down by one; afterwards
`find(x)` is false and `find(y)` is true for every other item `y` that was stored. -/
theorem delete_removes_item [Item α] (hL : LessContract α) (hT : TypesNamedApart α)
    (t : ll_rb_tree α) (x : α) (hinv : llrb_invariants t.root)
    (hcount : t.count = size t.root) (hwf : t.count < 2 ^ 64) (hsize : 2 ≤ size t.root)
    (hst : stored t.root x) :
    ∃ t', t.delete x = .ok t' ∧
      iterate_inorder t'.root =
        (iterate_inorder t.root).filter (fun y => decide (compare_items y x ≠ 0)) ∧
      (iterate_inorder t'.root).length + 1 = (iterate_inorder t.root).length ∧
      t'.count + 1 = t.count ∧
      (t'.find x).1 = false ∧
      ∀ y ∈ iterate_inorder t.root, compare_items y x ≠ 0 → (t'.find y).1 = true := by
  have ho := cmp_order_of_contract hL hT
  obtain ⟨h1, h2, h3⟩ := (llrb_invariants_iff ho t.root).1 hinv
  obtain ⟨t', e, j1, j2, j3, j4, j5⟩ := tree_delete_spec ho t x h1 h2 h3 hsize hst
  have hs' : ascending (iterate_inorder t'.root) := by
    rw [j3]; exact ascending_without x _ h3
  have hc : t'.count + 1 = t.count := by
    rw [j5]; omega
  refine ⟨t', e, j3, j4, hc, ?_, ?_⟩
  · cases hf : (t'.find x).1
    · rfl
    · exfalso
      obtain ⟨_, y, hy, hyx⟩ := (find_spec ho t' x hs').1 hf
      rw [j3] at hy
      exact ((mem_without x y _).1 hy).2 hyx
  · intro y hy hyx
    refine (find_spec ho t' y hs').2 ⟨by omega, y, ?_, cmp_refl ho y⟩
    rw [j3]
    exact (mem_without x y _).2 ⟨hy, hyx⟩

/-- Example: deleting `Int(1)` from the tree of `Int(1)`, `Int(2)`, `Int(3)`. -/
theorem delete_removes_item_witness :
    ∃ t', test_tree3.delete (.Int 1) = .ok t' ∧
      iterate_inorder t'.root =
        (iterate_inorder test_tree3.root).filter
          (fun y => decide (compare_items y (TestItem.Int 1) ≠ 0)) ∧
      (iterate_inorder t'.root).length + 1 = (iterate_inorder test_tree3.root).length ∧
      t'.count + 1 = test_tree3.count ∧
      (t'.find (.Int 1)).1 = false ∧
      ∀ y ∈ iterate_inorder test_tree3.root, compare_items y (TestItem.Int 1) ≠ 0 →
        (t'.find y).1 = true :=
  delete_removes_item test_item_less_contract test_item_types_named_apart test_tree3 (.Int 1)
    test_tree3_invariants rfl (by decide) (by decide) test_tree3_stored_one

/-- The in-order enumeration is sorted when the types of the items are told apart by their
names. For items whose `Less` is a strict weak order on each type, distinct types having
distinct (package path, type name) pairs: in the in-order
sequence of a tree reachable from the empty tree by insertions, every item compares negative
against every later one; that is, for any two positions `i < j`, either the type of item `i`
sorts before that of item `j` under `cmp_type`, or both items have the same type and item `i`
is `Less` than item `j`; so an item between two items of one type has that type. -/
theorem inorder_ascending [Item α] (hL : LessContract α) (hT : TypesNamedApart α)
    (t : ll_rb_tree α) (h : reachable t) :
    (t.iterator IN_ORDER).Pairwise (fun a b => compare_items a b < 0) ∧
    (t.iterator IN_ORDER).Pairwise (fun a b =>
      cmp_type a b < 0 ∨ (Item.TypeOf a = Item.TypeOf b ∧ Item.Less a b = true)) ∧
    ∀ a b c : α, [a, b, c].Sublist (t.iterator IN_ORDER) →
      Item.TypeOf a = Item.TypeOf c → Item.TypeOf b = Item.TypeOf a := by
  have ho := cmp_order_of_contract hL hT
  obtain ⟨_, _, h3, _⟩ := reachable_inv ho t h
  rw [iterator_in_order]
  have key : ∀ a b : α, compare_items a b < 0 →
      cmp_type a b < 0 ∨ (Item.TypeOf a = Item.TypeOf b ∧ Item.Less a b = true) := by
    intro a b hab
    rcases (compare_items_neg_iff a b).1 hab with h1 | ⟨h1, h2⟩
    · exact Or.inl h1
    · exact Or.inr ⟨(cmp_type_eq_zero hT a b).1 h1, h2⟩
  refine ⟨h3, List.Pairwise.imp (fun {a b} hab => key a b hab) h3, ?_⟩
  intro a b c hsub hac
  have hp := List.Pairwise.sublist hsub h3
  simp only [List.pairwise_cons, List.mem_cons, List.mem_singleton, forall_eq_or_imp,
    forall_eq, List.not_mem_nil, false_implies, implies_true, List.Pairwise.nil, and_true]
    at hp
  obtain ⟨⟨hab, _⟩, hbc⟩ := hp
  rcases key a b hab with h1 | ⟨h1, _⟩
  · exfalso
    rw [cmp_type_congr_left a c b hac] at h1
    rcases key b c hbc with h2 | ⟨h2, _⟩
    · have h3 := cmp_type_trans c b c h1 h2
      rw [cmp_type_self_type c c rfl] at h3
      exact lt_irrefl _ h3
    · rw [cmp_type_self_type c b h2.symm] at h1
      exact lt_irrefl _ h1
  · exact h1.symm

/-- Example: the tree of `Int(1)`, `Int(2)`, `Int(3)`. -/
theorem inorder_ascending_witness :
    reachable test_tree3 ∧
    (test_tree3.iterator IN_ORDER).Pairwise (fun a b => compare_items a b < 0) ∧
    (test_tree3.iterator IN_ORDER).Pairwise (fun a b =>
      cmp_type a b < 0 ∨ (Item.TypeOf a = Item.TypeOf b ∧ Item.Less a b = true)) ∧
    ∀ a b c : TestItem, [a, b, c].Sublist (test_tree3.iterator IN_ORDER) →
      Item.TypeOf a = Item.TypeOf c → Item.TypeOf b = Item.TypeOf a :=
  ⟨test_tree3_reachable, inorder_ascending test_item_less_contract test_item_types_named_apart
    test_tree3 test_tree3_reachable⟩

/-- Round-trip membership when the types of the items are told apart by their names. For items
whose `Less` is a strict weak order on each type, distinct types having distinct (package path,
type name) pairs: for every tree reachable from
the empty tree by insertions and every item `x`, `insert(x)` returns, and `find(x)` is true
in the tree it gives and in every tree that further insertions of any items make of it (a tree
of fewer than `2 ^ 64` nodes, the range of the `uint64` count). -/
theorem find_after_insert [Item α] (hL : LessContract α) (hT : TypesNamedApart α)
    (t : ll_rb_tree α) (x : α) (h : reachable t) :
    (∃ t1, t.insert x = .ok t1) ∧
    ∀ t1 t2 : ll_rb_tree α, t.insert x = .ok t1 → reachable_from t1 t2 →
      size t2.root < 2 ^ 64 → (t2.find x).1 = true := by
  have ho := cmp_order_of_contract hL hT
  obtain ⟨h1, _, h3, _⟩ := reachable_inv ho t h
  obtain ⟨t', e, j1, j2, j3, j4, _⟩ := tree_insert_spec ho t x h1 h3
  refine ⟨⟨t', e⟩, ?_⟩
  intro t1 t2 e1 h12 hsz
  rw [e] at e1
  have e1 := Except.ok.inj e1
  subst e1
  have hr1 : reachable t' := .step t t' x h e
  obtain ⟨_, _, _, c1⟩ := reachable_inv ho t' hr1
  have hst1 : stored t'.root x := by
    by_cases hst : stored t.root x
    · obtain ⟨y, hy, hyx⟩ := hst
      exact ⟨y, (j4 y).2 (Or.inl hy), hyx⟩
    · exact ⟨x, (j4 x).2 (Or.inr ⟨hst, rfl⟩), cmp_refl ho x⟩
  obtain ⟨⟨_, _, k3⟩, kc, ksz, kst⟩ := reachable_from_inv ho t' t2 h12 ⟨j1, j2, j3⟩
  have hpos : 0 < size t'.root := by
    obtain ⟨y, hy, _⟩ := hst1
    rw [size_eq_length]
    exact List.length_pos_of_mem hy
  have hc2 := kc c1
  refine (find_spec ho t2 x k3).2 ⟨?_, kst x hst1⟩
  rw [hc2]
  omega

/-- Example: `Int(2)` is inserted into the tree of `Int(1)`, then `Int(3)`. -/
theorem find_after_insert_witness :
    reachable test_tree1 ∧ test_tree1.insert (.Int 2) = .ok test_tree2 ∧
      reachable_from test_tree2 test_tree3 ∧ (test_tree3.find (.Int 2)).1 = true :=
  ⟨test_tree1_reachable, rfl, .step test_tree2 test_tree3 (.Int 3) .start rfl,
    (find_after_insert test_item_less_contract test_item_types_named_apart test_tree1 (.Int 2)
      test_tree1_reachable).2 test_tree2 test_tree3 rfl
      (.step test_tree2 test_tree3 (.Int 3) .start rfl) (by decide)⟩

/-- C8 (the code fails the claim): deleting an item that is not stored does not leave the
tree unchanged with `deleted = false`; it dereferences a nil pointer. The tree of `Int(1)`,
`Int(2)`, `Int(3)` is reachable by insertions and has the invariants, `Int(0)` and `Int(4)`
are not stored in it, and `delete` of either panics; so does `delete` on the empty tree. -/
theorem delete_absent_item_faults :
    reachable test_tree3 ∧ ¬ stored test_tree3.root (.Int 0) ∧
      ¬ stored test_tree3.root (.Int 4) ∧
      test_tree3.delete (.Int 0) = .error .nil_deref ∧
      test_tree3.delete (.Int 4) = .error .nil_deref ∧
      (ll_rb_tree.empty : ll_rb_tree TestItem).delete (.Int 1) = .error .nil_deref := by
  refine ⟨test_tree3_reachable, ?_, ?_, rfl, rfl, rfl⟩
  · unfold stored
    decide
  · unfold stored
    decide

/-- C9 (the code fails the claim): deleting the only item of a one-item tree does not give
the empty tree with count 0. The tree is reachable (`insert(Int(1))` into the empty tree),
`Int(1)` is stored in it, and the tree-level `delete(Int(1))` panics: `delete` on the root
returns nil and the root's colour is then set through the nil pointer. -/
theorem delete_last_item_faults :
    (ll_rb_tree.empty : ll_rb_tree TestItem).insert (.Int 1) = .ok test_tree1 ∧
      stored test_tree1.root (.Int 1) ∧
      llrb_tree.delete (size test_tree1.root) test_tree1.root (.Int 1) = .ok (.nil, true) ∧
      test_tree1.delete (.Int 1) = .error .nil_deref :=
  ⟨rfl, ⟨.Int 1, by simp [test_tree1], by decide⟩, rfl, rfl⟩

/-- Inserting an already-stored item changes nothing when the types of the items are told apart
by their names. For items whose `Less` is a strict weak order on each type, distinct types
having distinct (package path, type name) pairs: for
every tree that has the invariants (a)-(e) and every item that compares equal to a stored one,
`insert` on the root reports `inserted = false` and returns the same node, and the tree-level
insert returns the same tree (shape, colours, stored items and count); so a second insert of
an item gives the tree of the first. -/
theorem insert_stored_unchanged [Item α] (hL : LessContract α) (hT : TypesNamedApart α) :
    (∀ (t : ll_rb_tree α) (x : α), llrb_invariants t.root → stored t.root x →
      llrb_tree.insert t.root x = .ok (t.root, false) ∧ t.insert x = .ok t) ∧
    (∀ (t t1 : ll_rb_tree α) (x : α), llrb_invariants t.root → t.insert x = .ok t1 →
      t1.insert x = .ok t1) := by
  have ho := cmp_order_of_contract hL hT
  have key : ∀ (t : ll_rb_tree α) (x : α), llrb_invariants t.root → stored t.root x →
      llrb_tree.insert t.root x = .ok (t.root, false) ∧ t.insert x = .ok t := by
    intro t x hinv hst
    obtain ⟨h1, h2, h3⟩ := (llrb_invariants_iff ho t.root).1 hinv
    obtain ⟨r', b, e, _, _, _, _, _, bst, _, same⟩ := insert_spec ho x t.root h1 h3
    have hb : b = false := by
      cases b
      · rfl
      · exact absurd hst (bst.1 rfl)
    subst hb
    have hr := same rfl
    subst hr
    refine ⟨e, ?_⟩
    obtain ⟨t', e', _, _, _, _, j5, _⟩ := tree_insert_spec ho t x h1 h3
    rw [e', (j5 hst).2.2 h2]
  refine ⟨key, ?_⟩
  intro t t1 x hinv e
  obtain ⟨h1, _, h3⟩ := (llrb_invariants_iff ho t.root).1 hinv
  obtain ⟨t', e', j1, j2, j3, j4, _⟩ := tree_insert_spec ho t x h1 h3
  rw [e] at e'
  have e' := Except.ok.inj e'
  subst e'
  have hst1 : stored t1.root x := by
    by_cases hst : stored t.root x
    · obtain ⟨y, hy, hyx⟩ := hst
      exact ⟨y, (j4 y).2 (Or.inl hy), hyx⟩
    · exact ⟨x, (j4 x).2 (Or.inr ⟨hst, rfl⟩), cmp_refl ho x⟩
  exact (key t1 x ((llrb_invariants_iff ho t1.root).2 ⟨j1, j2, j3⟩) hst1).2

/-- Example: `Int(2)` is inserted again into the tree of `Int(1)`, `Int(2)`,
`Int(3)`. -/
theorem insert_stored_unchanged_witness :
    llrb_invariants test_tree3.root ∧ stored test_tree3.root (.Int 2) ∧
      llrb_tree.insert test_tree3.root (.Int 2) = .ok (test_tree3.root, false) ∧
      test_tree3.insert (.Int 2) = .ok test_tree3 :=
  ⟨test_tree3_invariants, ⟨.Int 2, by simp [test_tree3], by decide⟩,
    (insert_stored_unchanged test_item_less_contract test_item_types_named_apart).1 test_tree3
      (.Int 2) test_tree3_invariants ⟨.Int 2, by simp [test_tree3], by decide⟩⟩

/-! ## Signs of comparisons -/

theorem sign_swap (x y : Int) (h1 : 0 < x ↔ y < 0) (h2 : 0 < y ↔ x < 0) :
    Int.sign x = - Int.sign y := by
  rcases lt_trichotomy x 0 with h | h | h
  · rw [Int.sign_eq_neg_one_of_neg h, Int.sign_eq_one_of_pos (h2.2 h)]
  · have hy : y = 0 := by
      rcases lt_trichotomy y 0 with h' | h' | h'
      · have := h1.2 h'
        omega
      · exact h'
      · have := h2.1 h'
        omega
    rw [h, hy]
    rfl
  · rw [Int.sign_eq_one_of_pos h, Int.sign_eq_neg_one_of_neg (h1.1 h)]
    rfl

/-! ## `cmp_string` and the lexicographic order -/

theorem cmp_list_neg_iff_lex : ∀ (a b : GoString), cmp_list a b < 0 ↔ lex_less a b
  | [], [] => by
    simp only [cmp_list, lex_less, List.length_nil]
    constructor
    · intro h; omega
    · intro h; cases h
  | [], y :: b => by
    simp only [cmp_list, lex_less]
    constructor
    · intro _; exact List.Lex.nil
    · intro _
      simp only [List.length_cons]
      omega
  | x :: a, [] => by
    simp only [cmp_list, lex_less]
    constructor
    · intro h
      simp only [List.length_cons] at h
      omega
    · intro h; cases h
  | x :: a, y :: b => by
    have ih := cmp_list_neg_iff_lex a b
    simp only [lex_less] at ih ⊢
    simp only [cmp_list]
    by_cases h1 : x < y
    · simp only [h1, if_true]
      exact ⟨fun _ => List.Lex.rel h1, fun _ => by omega⟩
    · by_cases h2 : x > y
      · simp only [h1, h2, if_false, if_true]
        constructor
        · intro h; omega
        · intro h
          cases h with
          | cons h => omega
          | rel h => omega
      · have hxy : x = y := by omega
        subst hxy
        simp only [h1, if_false, ih]
        constructor
        · intro h; exact List.Lex.cons h
        · intro h
          cases h with
          | cons h => exact h
          | rel h => omega

theorem cmp_list_append : ∀ (a s : GoString), s ≠ [] → cmp_list a (a ++ s) < 0
  | [], [], h => absurd rfl h
  | [], y :: s, _ => by
    simp only [List.nil_append, cmp_list, List.length_cons]
    omega
  | x :: a, s, h => by
    have ih := cmp_list_append a s h
    simp only [List.cons_append, cmp_list, lt_self_iff_false, if_false, gt_iff_lt]
    exact ih

/-! ## The calls of `Less` -/

/-- With types told apart by their names, `Less` is called on two items of one type only. -/
theorem compare_items_calls_same_type [Item α] (hT : TypesNamedApart α) (a b : α) :
    ∀ p ∈ compare_items_calls a b, Item.TypeOf p.1 = Item.TypeOf p.2 := by
  intro p hp
  unfold compare_items_calls at hp
  by_cases h : cmp_type a b = 0
  · have ht := (cmp_type_eq_zero hT a b).1 h
    simp only [h, ne_eq, not_true_eq_false, if_false] at hp
    split at hp
    · simp only [List.mem_singleton] at hp
      rw [hp]
      exact ht
    · simp only [List.mem_cons, List.mem_singleton, List.not_mem_nil, or_false] at hp
      rcases hp with hp | hp
      · rw [hp]; exact ht
      · rw [hp]; exact ht.symm
  · simp [h] at hp

/-- Two types of one package path and one name: `cmp_type` is 0 and `Less` is called. -/
theorem compare_items_calls_same_names [Item α] (a b : α)
    (hp : (Item.TypeOf a).PkgPath = (Item.TypeOf b).PkgPath)
    (hn : (Item.TypeOf a).Name = (Item.TypeOf b).Name) :
    cmp_type a b = 0 ∧ (a, b) ∈ compare_items_calls a b := by
  have h : cmp_type a b = 0 := by
    unfold cmp_type
    by_cases ht : Item.TypeOf a = Item.TypeOf b
    · simp [ht]
    · simp only [ht, if_false, ne_eq]
      rw [(cmp_string_eq_zero _ _).2 hp, (cmp_string_eq_zero _ _).2 hn]
      simp
  refine ⟨h, ?_⟩
  unfold compare_items_calls
  simp only [h, ne_eq, not_true_eq_false, if_false]
  split <;> simp

/-- The value of `compare_items` is made of `cmp_type` and of the results of the calls of `Less`
listed by `compare_items_calls`. -/
theorem compare_items_of_calls [Item α] (a b : α) :
    compare_items a b =
      if cmp_type a b ≠ 0 then cmp_type a b
      else if (compare_items_calls a b).length = 1 then -1
      else if Item.Less b a then 1 else 0 := by
  unfold compare_items compare_items_calls
  by_cases h : cmp_type a b = 0
  · simp only [h, ne_eq, not_true_eq_false, if_false]
    cases Item.Less a b <;> simp
  · simp [h]

/-! ## The documented requirements on `Less` -/

theorem less_contract_of_requirements [Item α] (hR : LessRequirements α) : LessContract α := by
  have irr : ∀ a : α, Item.Less a a = false := by
    intro a
    cases h : Item.Less a a
    · rfl
    · have := hR.asymm a a rfl h
      rw [h] at this
      exact Bool.noConfusion this
  refine ⟨irr, hR.trans, ?_⟩
  intro a b c hab hbc h1 h2 h3 h4
  have e1 := hR.eq_of_incomp a b hab h1 h2
  have e2 := hR.eq_of_incomp b c hbc h3 h4
  subst e1
  subst e2
  exact ⟨irr a, irr a⟩

theorem test_item_less_requirements : LessRequirements TestItem := by
  refine ⟨?_, test_item_less_contract.trans, ?_⟩
  · intro a b _
    cases a <;> cases b <;> simp [Item.Less]
    · intro h; exact le_of_lt h
    · intro h; exact le_of_lt h
  · intro a b h
    cases a <;> cases b <;> simp [Item.Less, Item.TypeOf, Int_type, Real_type] at h ⊢
    · intro h1 h2; exact le_antisymm h2 h1
    · intro h1 h2; exact le_antisymm h2 h1

/-! ## Shape and colours after an insertion, whatever the comparison -/

theorem insert_shape [Item α] (x : α) (t : ll_rb_node α) :
    LL t →
    ∃ t' b, llrb_tree.insert t x = .ok (t', b) ∧ LLw t' ∧ (is_red t = false → LL t') ∧
      bh t' = bh t ∧ size t' = size t + (if b then 1 else 0) ∧ 0 < size t' ∧
      ∀ n, (find_loop x t n).1 = !b := by
  induction t with
  | nil =>
    intro _
    refine ⟨new_ll_rb_node x, true, rfl, ?_, ?_, rfl, ?_, ?_, ?_⟩
    · exact ⟨trivial, trivial, rfl, rfl⟩
    · intro _; exact ⟨trivial, trivial, rfl, fun _ => rfl, rfl⟩
    · simp [new_ll_rb_node]
    · simp [new_ll_rb_node]
    · intro n; rfl
  | mk v l r c ihl ihr =>
    intro hLL
    obtain ⟨hl, hr, hrb, hlc, hb⟩ := hLL
    rcases lt_trichotomy (compare_items v x) 0 with hc | hc | hc
    · obtain ⟨r', b, e, w, s, ebh, sz, _, hf⟩ := ihr hr
      have s := s hrb
      obtain ⟨t', ef, ei, wt, st, ebt⟩ := fix_up_ins_right v l r' c hl s hlc (by omega)
      have hc' : ¬ 0 < compare_items v x := by omega
      have hsz : size t' = size l + size r' + 1 := by
        rw [size_eq_length, ei, size_eq_length l, size_eq_length r']
        simp only [List.length_append, List.length_cons]
        omega
      refine ⟨t', b, ?_, wt, ?_, ?_, ?_, ?_, ?_⟩
      · rw [insert_mk, if_neg hc', if_pos hc, e]; simp [ef]
      · intro h; exact st (by simpa using h)
      · rw [ebt]; simp
      · rw [hsz, sz, size_mk]; omega
      · omega
      · intro n
        rw [← hf (n + 1)]
        simp [find_loop, hc, hc']
    · have h1 : ¬ 0 < compare_items v x := by omega
      have h2 : ¬ compare_items v x < 0 := by omega
      refine ⟨.mk v l r c, false, ?_, ⟨hl, hr, hrb, hb⟩, ?_, rfl, ?_, ?_, ?_⟩
      · rw [insert_mk, if_neg h1, if_neg h2, fix_up_id_LL v l r c hl hrb]; rfl
      · intro _; exact ⟨hl, hr, hrb, hlc, hb⟩
      · simp
      · simp
      · intro n
        simp [find_loop, h1, h2]
    · obtain ⟨l', b, e, w, s, ebh, sz, _, hf⟩ := ihl hl
      obtain ⟨t', ef, ei, wt, st, ebt⟩ :=
        fix_up_ins_left v l' r c w (fun h => s (hlc h)) hr hrb (by omega)
      have hsz : size t' = size l' + size r + 1 := by
        rw [size_eq_length, ei, size_eq_length l', size_eq_length r]
        simp only [List.length_append, List.length_cons]
        omega
      refine ⟨t', b, ?_, wt, ?_, ?_, ?_, ?_, ?_⟩
      · rw [insert_mk, if_pos hc, e]; simp [ef]
      · intro h; exact st (by simpa using h)
      · rw [ebt, ebh]; simp
      · rw [hsz, sz, size_mk]; omega
      · omega
      · intro n
        rw [← hf (n + 1)]
        simp [find_loop, hc]

theorem tree_insert_shape [Item α] (t : ll_rb_tree α) (x : α) (hLL : LL t.root) :
    ∃ t', t.insert x = .ok t' ∧ LL t'.root ∧ is_red t'.root = false ∧
      ∃ b : Bool, t'.count = (if b then (t.count + 1) % 2 ^ 64 else t.count) ∧
        size t'.root = size t.root + (if b then 1 else 0) ∧
        (find_loop x t.root 0).1 = !b := by
  obtain ⟨r', b, e, w, _, _, sz, pos, hf⟩ := insert_shape x t.root hLL
  cases r' with
  | nil => simp at pos
  | mk v l r c =>
    have e2 : set_red (.mk v l r c) false = .ok (.mk v l r false) := rfl
    obtain ⟨h1, h2, _, _⟩ := set_red_false_spec e2 w
    refine ⟨⟨.mk v l r false, if b then (t.count + 1) % 2 ^ 64 else t.count⟩, ?_, h1, h2, b,
      rfl, ?_, hf 0⟩
    · rw [tree_insert_eq t x _ b e, e2]; rfl
    · simpa using sz

/-- Whatever the comparison of the items, a tree reachable by insertions has the invariants of
colour and balance, a black root, and a count that is its number of nodes modulo `2 ^ 64`. -/
theorem reachable_shape [Item α] (t : ll_rb_tree α) (h : reachable t) :
    LL t.root ∧ is_red t.root = false ∧ t.count = size t.root % 2 ^ 64 := by
  induction h with
  | start => exact ⟨trivial, rfl, rfl⟩
  | step t t' x _ hi ih =>
    obtain ⟨i1, _, i3⟩ := ih
    obtain ⟨t'', e, j1, j2, b, j3, j4, _⟩ := tree_insert_shape t x i1
    rw [hi] at e
    have e := Except.ok.inj e
    subst e
    refine ⟨j1, j2, ?_⟩
    rw [j3, j4, i3]
    cases b
    · simp
    · simp only [if_true]
      omega

/-! ## The four traversals -/

theorem iterate_reverseorder_eq : ∀ t : ll_rb_node α,
    iterate_reverseorder t = (iterate_inorder t).reverse
  | .nil => rfl
  | .mk v l r c => by
    simp [iterate_reverseorder, iterate_reverseorder_eq l, iterate_reverseorder_eq r]

theorem iterate_preorder_perm : ∀ t : ll_rb_node α,
    (iterate_preorder t).Perm (iterate_inorder t)
  | .nil => List.Perm.refl _
  | .mk v l r c => by
    have h1 := iterate_preorder_perm l
    have h2 := iterate_preorder_perm r
    simp only [iterate_preorder, iterate_inorder_mk, List.singleton_append, List.cons_append,
      List.nil_append]
    exact (List.Perm.cons v (List.Perm.append h1 h2)).trans List.perm_middle.symm

theorem iterate_postorder_perm : ∀ t : ll_rb_node α,
    (iterate_postorder t).Perm (iterate_inorder t)
  | .nil => List.Perm.refl _
  | .mk v l r c => by
    have h1 := iterate_postorder_perm l
    have h2 := iterate_postorder_perm r
    simp only [iterate_postorder, iterate_inorder_mk, List.append_assoc]
    refine (List.Perm.append h1 (List.Perm.append_right [v] h2)).trans ?_
    refine List.Perm.append_left _ ?_
    exact (List.perm_append_comm).trans (List.Perm.refl _)

/-- An order from `PRE_ORDER` to `REVERSE_ORDER` selects one of the four traversals. -/
theorem iterate_cases (t : ll_rb_node α) (order : Int) (h0 : 0 ≤ order) (h3 : order ≤ 3) :
    iterate t order = iterate_preorder t ∨ iterate t order = iterate_inorder t ∨
      iterate t order = iterate_postorder t ∨ iterate t order = iterate_reverseorder t := by
  have : order = 0 ∨ order = 1 ∨ order = 2 ∨ order = 3 := by omega
  rcases this with h | h | h | h <;> subst h
  · left; rfl
  · right; left; rfl
  · right; right; left; rfl
  · right; right; right; rfl

theorem iterate_perm_inorder (t : ll_rb_node α) (order : Int) (h0 : 0 ≤ order)
    (h3 : order ≤ 3) : (iterate t order).Perm (iterate_inorder t) := by
  rcases iterate_cases t order h0 h3 with h | h | h | h <;> rw [h]
  · exact iterate_preorder_perm t
  · exact iterate_postorder_perm t
  · rw [iterate_reverseorder_eq]
    exact List.reverse_perm _

theorem iterate_nil (order : Int) : iterate (.nil : ll_rb_node α) order = [] := by
  unfold iterate
  split
  · rfl
  · split
    · rfl
    · split
      · rfl
      · split <;> rfl

theorem iterator_reverse_order (t : ll_rb_tree α) :
    t.iterator REVERSE_ORDER = iterate_reverseorder t.root := rfl

/-! ## The depth of a tree of two nodes or more -/

/-- A tree as deep as its black height allows has more nodes than the black height alone
requires. -/
theorem LL_deep_size : ∀ t : ll_rb_node α, LL t →
    (is_red t = false → 2 * bh t ≤ max_depth t → 2 ^ (bh t + 1) ≤ size t + 2) ∧
    (is_red t = true → 2 * bh t + 1 ≤ max_depth t → 3 * 2 ^ bh t ≤ size t + 2)
  | .nil, _ => by simp [max_depth]
  | .mk v l r c, h => by
    obtain ⟨hl, hr, hrb, hlc, e⟩ := h
    have il := LL_deep_size l hl
    have ir := LL_deep_size r hr
    have dl := LL_depth_bound l hl
    have dr := LL_depth_bound r hr
    have sl := LL_size_bound l (LL_weak hl)
    have sr := LL_size_bound r (LL_weak hr)
    rw [hrb] at dr
    rw [← e] at sr dr ir
    simp only [Bool.false_eq_true, if_false, add_zero] at dr
    have hd : max_depth (.mk v l r c) = max_depth l + 1 ∨
        max_depth (.mk v l r c) = max_depth r + 1 := by
      simp only [max_depth]
      split
      · left; rfl
      · right; rfl
    have hge : max_depth r + 1 ≤ max_depth (.mk v l r c) ∧
        max_depth l + 1 ≤ max_depth (.mk v l r c) := by
      simp only [max_depth]
      split <;> omega
    cases c
    · refine ⟨?_, fun h' => Bool.noConfusion h'⟩
      intro _ hdeep
      simp only [bh_mk, Bool.false_eq_true, if_false, size_mk] at hdeep ⊢
      have hlr : is_red l = true := by
        cases hlr : is_red l
        · rw [hlr] at dl
          simp only [Bool.false_eq_true, if_false, add_zero] at dl
          omega
        · rfl
      rw [hlr] at dl
      simp only [if_true] at dl
      have := il.2 hlr (by omega)
      have p2 : 2 ^ (bh l + 1 + 1) = 4 * 2 ^ bh l := by
        rw [pow_succ, pow_succ]; omega
      rw [p2]
      omega
    · refine ⟨fun h' => Bool.noConfusion h', ?_⟩
      intro _ hdeep
      have hlb := hlc rfl
      rw [hlb] at dl
      simp only [Bool.false_eq_true, if_false, add_zero] at dl
      simp only [bh_mk, if_true, add_zero, size_mk] at hdeep ⊢
      have p2 : 2 ^ (bh l + 1) = 2 * 2 ^ bh l := by
        rw [pow_succ]; omega
      rcases hd with hd | hd
      · have := il.1 hlb (by omega)
        omega
      · have := ir.1 hrb (by omega)
        omega

theorem depth_bound_of_LL (t : ll_rb_node α) (h : LL t) (hb : is_red t = false)
    (hn : 2 ≤ size t) : 2 ^ max_depth t ≤ size t ^ 2 := by
  have h1 := LL_depth_bound t h
  rw [hb] at h1
  simp only [Bool.false_eq_true, if_false, add_zero] at h1
  have h2 := LL_size_bound t (LL_weak h)
  have h3 := (LL_deep_size t h).1 hb
  by_cases hd : 2 * bh t ≤ max_depth t
  · have h4 := h3 hd
    have p2 : 2 ^ (bh t + 1) = 2 * 2 ^ bh t := by
      rw [pow_succ]; omega
    have h5 : 2 ^ bh t ≤ size t := by omega
    calc 2 ^ max_depth t ≤ 2 ^ (2 * bh t) := Nat.pow_le_pow_right (by norm_num) h1
      _ = (2 ^ bh t) ^ 2 := by rw [Nat.mul_comm, pow_mul]
      _ ≤ size t ^ 2 := Nat.pow_le_pow_left h5 2
  · obtain ⟨k, hk⟩ : ∃ k, bh t = k + 1 := ⟨bh t - 1, by omega⟩
    rw [hk] at h2
    have hdk : max_depth t ≤ 2 * k + 1 := by omega
    have p2 : 2 ^ (k + 1) = 2 * 2 ^ k := by
      rw [pow_succ]; omega
    have p3 : 2 ^ (2 * k + 1) = 2 * (2 ^ k) ^ 2 := by
      rw [pow_succ, Nat.mul_comm 2 k, pow_mul]; omega
    have q1 : 1 ≤ 2 ^ k := Nat.one_le_two_pow
    calc 2 ^ max_depth t ≤ 2 ^ (2 * k + 1) := Nat.pow_le_pow_right (by norm_num) hdk
      _ = 2 * (2 ^ k) ^ 2 := p3
      _ ≤ size t ^ 2 := by
        rw [p2] at h2
        generalize 2 ^ k = q at h2 q1
        generalize size t = n at h2 hn
        rcases Nat.lt_or_ge q 2 with hq | hq
        · have : q = 1 := by omega
          subst this
          nlinarith
        · nlinarith

/-! ## Items that compare equal -/

theorem cmp_zero_trans [Item α] (ho : CmpOrder α) {a b c : α} (h1 : compare_items a b = 0)
    (h2 : compare_items b c = 0) : compare_items a c = 0 := by
  have h3 := cmp_zero_symm ho b c h2
  rcases lt_trichotomy (compare_items a c) 0 with h | h | h
  · have h4 := ho.eq_right a c b h3 h
    unfold before at h4
    omega
  · exact h
  · have h4 := ho.eq_right c a b h1 (cmp_before_of_pos ho h)
    unfold before at h4
    omega

theorem ascending_ne [Item α] (xs : List α) (h : ascending xs) :
    xs.Pairwise (fun a b => compare_items a b ≠ 0) := by
  refine List.Pairwise.imp ?_ h
  intro a b hab
  unfold before at hab
  omega

/-! ## Sequences of insertions -/

theorem reachable_from_trans [Item α] (a b c : ll_rb_tree α) (h1 : reachable_from a b)
    (h2 : reachable_from b c) : reachable_from a c := by
  induction h2 with
  | start => exact h1
  | step t t' x _ hi ih => exact .step t t' x ih hi

theorem count_new_le [Item α] : ∀ (xs seen : List α), count_new seen xs ≤ xs.length
  | [], _ => by simp [count_new]
  | x :: xs, seen => by
    have := count_new_le xs (x :: seen)
    simp only [count_new, List.length_cons]
    split <;> omega

theorem any_equal_iff [Item α] (seen : List α) (x : α) :
    seen.any (fun y => decide (compare_items y x = 0)) = true ↔
      ∃ y ∈ seen, compare_items y x = 0 := by
  simp [List.any_eq_true]

theorem insert_all_spec [Item α] (ho : CmpOrder α) :
    ∀ (xs : List α) (t : ll_rb_tree α) (seen : List α),
    LL t.root → ascending (iterate_inorder t.root) →
    (∀ z, stored t.root z ↔ ∃ y ∈ seen, compare_items y z = 0) →
    ∃ t', insert_all t xs = .ok t' ∧ reachable_from t t' ∧
      size t'.root = size t.root + count_new seen xs ∧
      ascending (iterate_inorder t'.root) ∧
      (∀ z, stored t'.root z ↔
        ((∃ y ∈ xs, compare_items y z = 0) ∨ ∃ y ∈ seen, compare_items y z = 0)) := by
  intro xs
  induction xs with
  | nil =>
    intro t seen _ hs hseen
    refine ⟨t, rfl, .start, by simp [count_new], hs, ?_⟩
    intro z
    rw [hseen z]
    simp
  | cons x xs ih =>
    intro t seen hLL hs hseen
    obtain ⟨t1, e, j1, _, j3, j4, j5, j6⟩ := tree_insert_spec ho t x hLL hs
    have hst1 : ∀ z, stored t1.root z ↔ ∃ y ∈ x :: seen, compare_items y z = 0 := by
      intro z
      constructor
      · rintro ⟨y, hy, hyz⟩
        rcases (j4 y).1 hy with h | ⟨_, h⟩
        · obtain ⟨w, hw, hwz⟩ := (hseen z).1 ⟨y, h, hyz⟩
          exact ⟨w, List.mem_cons_of_mem _ hw, hwz⟩
        · subst h
          exact ⟨y, List.mem_cons_self _ _, hyz⟩
      · rintro ⟨y, hy, hyz⟩
        rcases List.mem_cons.1 hy with h | h
        · subst h
          by_cases hst : stored t.root y
          · obtain ⟨w, hw, hwy⟩ := hst
            exact ⟨w, (j4 w).2 (Or.inl hw), cmp_zero_trans ho hwy hyz⟩
          · exact ⟨y, (j4 y).2 (Or.inr ⟨hst, rfl⟩), hyz⟩
        · obtain ⟨w, hw, hwz⟩ := (hseen z).2 ⟨y, h, hyz⟩
          exact ⟨w, (j4 w).2 (Or.inl hw), hwz⟩
    obtain ⟨t', e', r', sz', as', st'⟩ := ih t1 (x :: seen) j1 j3 hst1
    refine ⟨t', ?_, ?_, ?_, as', ?_⟩
    · simp only [insert_all, e]
      exact e'
    · exact reachable_from_trans t t1 t' (.step t t1 x .start e) r'
    · rw [sz']
      simp only [count_new]
      by_cases hst : stored t.root x
      · have hany := (any_equal_iff seen x).2 ((hseen x).1 hst)
        rw [(j5 hst).2.1, hany]
        simp
      · have hany : ¬ seen.any (fun y => decide (compare_items y x = 0)) = true := fun h =>
          hst ((hseen x).2 ((any_equal_iff seen x).1 h))
        rw [(j6 hst).2, if_neg hany]
        omega
    · intro z
      rw [st' z]
      constructor
      · rintro (⟨y, hy, hyz⟩ | ⟨y, hy, hyz⟩)
        · exact Or.inl ⟨y, List.mem_cons_of_mem _ hy, hyz⟩
        · rcases List.mem_cons.1 hy with h | h
          · subst h
            exact Or.inl ⟨y, List.mem_cons_self _ _, hyz⟩
          · exact Or.inr ⟨y, h, hyz⟩
      · rintro (⟨y, hy, hyz⟩ | ⟨y, hy, hyz⟩)
        · rcases List.mem_cons.1 hy with h | h
          · subst h
            exact Or.inr ⟨y, List.mem_cons_self _ _, hyz⟩
          · exact Or.inl ⟨y, h, hyz⟩
        · exact Or.inr ⟨y, List.mem_cons_of_mem _ hy, hyz⟩

/-- The tree made of a list of fewer than `2 ^ 64` items by insertions into the empty tree. -/
theorem insert_all_empty_spec [Item α] (ho : CmpOrder α) (xs : List α)
    (hlen : xs.length < 2 ^ 64) :
    ∃ t, insert_all ll_rb_tree.empty xs = .ok t ∧ reachable t ∧
      t.count = distinct_count xs ∧
      ∀ x, (t.find x).1 = true ↔ ∃ y ∈ xs, compare_items y x = 0 := by
  obtain ⟨t, e, hr, sz, as, st⟩ :=
    insert_all_spec ho xs ll_rb_tree.empty [] trivial List.Pairwise.nil
      (by intro z; simp [stored, ll_rb_tree.empty])
  have hc := (reachable_inv ho t hr).2.2.2
  have hle : distinct_count xs ≤ xs.length := count_new_le xs []
  have hsz : size t.root = distinct_count xs := by
    rw [sz]
    simp [ll_rb_tree.empty, distinct_count]
  have hc' : t.count = size t.root := by
    rw [hc]
    omega
  refine ⟨t, e, hr, by rw [hc', hsz], ?_⟩
  intro x
  rw [find_spec ho t x as, st x]
  constructor
  · rintro ⟨_, h | ⟨y, hy, _⟩⟩
    · exact h
    · simp at hy
  · intro h
    refine ⟨?_, Or.inl h⟩
    have hst : stored t.root x := (st x).2 (Or.inl h)
    obtain ⟨y, hy, _⟩ := hst
    have := List.length_pos_of_mem hy
    rw [← size_eq_length] at this
    omega

/-! ## `Intersect` and `Disjoint` -/

theorem Intersect_iff [Item α] (ho : CmpOrder α) (a b : ll_rb_tree α)
    (hb : ascending (iterate_inorder b.root)) (hc : b.count = size b.root) :
    Intersect a b = true ↔
      ∃ x ∈ iterate_inorder a.root, ∃ y ∈ iterate_inorder b.root, compare_items y x = 0 := by
  unfold Intersect
  rw [iterator_in_order, List.any_eq_true]
  constructor
  · rintro ⟨x, hx, hf⟩
    obtain ⟨_, y, hy, hyx⟩ := (find_spec ho b x hb).1 hf
    exact ⟨x, hx, y, hy, hyx⟩
  · rintro ⟨x, hx, y, hy, hyx⟩
    refine ⟨x, hx, (find_spec ho b x hb).2 ⟨?_, y, hy, hyx⟩⟩
    have := List.length_pos_of_mem hy
    rw [← size_eq_length] at this
    omega

theorem Intersect_comm [Item α] (ho : CmpOrder α) (a b : ll_rb_tree α)
    (ha : ascending (iterate_inorder a.root)) (hca : a.count = size a.root)
    (hb : ascending (iterate_inorder b.root)) (hcb : b.count = size b.root) :
    Intersect a b = Intersect b a := by
  rw [Bool.eq_iff_iff, Intersect_iff ho a b hb hcb, Intersect_iff ho b a ha hca]
  constructor
  · rintro ⟨x, hx, y, hy, h⟩
    exact ⟨y, hy, x, hx, cmp_zero_symm ho y x h⟩
  · rintro ⟨x, hx, y, hy, h⟩
    exact ⟨y, hy, x, hx, cmp_zero_symm ho y x h⟩

/-! ## The sets of the test of `Intersect` -/

theorem wrap_int_range (n : ℤ) : -2 ^ 63 ≤ wrap_int n ∧ wrap_int n < 2 ^ 63 := by
  unfold wrap_int
  omega

theorem wrap_int_id (n : ℤ) (h1 : -2 ^ 63 ≤ n) (h2 : n < 2 ^ 63) : wrap_int n = n := by
  unfold wrap_int
  omega

theorem Add_reachable (set : ll_rb_tree TestItem) (x : TestItem) (h : reachable set) :
    ∃ set', Add set x = .ok set' ∧ reachable set' := by
  obtain ⟨h1, _, h3, _⟩ := reachable_inv test_item_cmp_order set h
  obtain ⟨s1, e, _⟩ := tree_insert_spec test_item_cmp_order set x h1 h3
  exact ⟨s1, e, .step set s1 x h e⟩

/-- A set that `make_Int_set_serial` returns is made by insertions. -/
theorem make_Int_set_serial_loop_reachable : ∀ (fuel : Nat) (i end_ : ℤ)
    (set set' : ll_rb_tree TestItem), reachable set →
    make_Int_set_serial_loop fuel i end_ set = .ok set' → reachable set'
  | 0, _, _, _, _, _, e => Except.noConfusion e
  | fuel + 1, i, end_, set, set', h, e => by
    by_cases hi : i ≤ end_
    · obtain ⟨s1, e1, h1⟩ := Add_reachable set (.Int i) h
      simp only [make_Int_set_serial_loop, hi, if_true, e1] at e
      exact make_Int_set_serial_loop_reachable fuel (wrap_int (i + 1)) end_ s1 set' h1 e
    · simp only [make_Int_set_serial_loop, hi, if_false] at e
      have e := Except.ok.inj e
      subst e
      exact h

/-- When `end` is the largest `int` the loop of `make_Int_set_serial` does not end: whatever
the recursion budget, it is exhausted. -/
theorem make_Int_set_serial_loop_endless : ∀ (fuel : Nat) (i : ℤ) (set : ll_rb_tree TestItem),
    reachable set → i < 2 ^ 63 →
    make_Int_set_serial_loop fuel i (2 ^ 63 - 1) set = .error .out_of_fuel
  | 0, _, _, _, _ => rfl
  | fuel + 1, i, set, h, hi => by
    have hle : i ≤ 2 ^ 63 - 1 := by omega
    obtain ⟨s1, e1, h1⟩ := Add_reachable set (.Int i) h
    simp only [make_Int_set_serial_loop, hle, if_true, e1]
    exact make_Int_set_serial_loop_endless fuel (wrap_int (i + 1)) s1 h1
      (wrap_int_range (i + 1)).2

set_option maxRecDepth 100000 in
/-- The test sets `{Int(-100)..Int(0)}`, `{Int(1)..Int(100)}` and `{Int(-50)..Int(50)}`, and
`Intersect` of the first with each of the others, in both argument orders. -/
theorem intersect_test_sets :
    (make_Int_set_serial 200 (-100) 0 >>= fun a =>
      make_Int_set_serial 200 1 100 >>= fun b =>
      make_Int_set_serial 200 (-50) 50 >>= fun c =>
      Except.ok (Intersect a b, Intersect b a, Intersect a c, Intersect c a)) =
      Except.ok (false, false, true, true) := rfl

/-! ## Sets of items whose types are told apart by their names -/

/-- Construction from a list collapses duplicates when the types of the items are told apart by
their names. For items whose `Less` is a strict weak order on each type, distinct types having
distinct (package path, type name) pairs: inserting
the items of a list (of fewer than `2 ^ 64` items) in order into the empty tree returns a tree
whose count is the number of distinct items of the list, items that compare equal being counted
once, and in which `find` is true for exactly the items that compare equal to an item of the
list. The list `Int(1), Int(2), Int(2), Real(3), Int(4), Real(4)` has 5 distinct items and
gives count 5, with `Int(1)` found and `Real(1.0)` not found. -/
theorem construction_collapses_duplicates :
    (∀ (α : Type) [Item α], LessContract α → TypesNamedApart α →
      ∀ xs : List α, xs.length < 2 ^ 64 →
        ∃ t, insert_all ll_rb_tree.empty xs = .ok t ∧ t.count = distinct_count xs ∧
          ∀ x, (t.find x).1 = true ↔ ∃ y ∈ xs, compare_items y x = 0) ∧
    (distinct_count [TestItem.Int 1, .Int 2, .Int 2, .Real 3, .Int 4, .Real 4] = 5 ∧
      ∃ t, insert_all ll_rb_tree.empty
          [TestItem.Int 1, .Int 2, .Int 2, .Real 3, .Int 4, .Real 4] = .ok t ∧
        t.count = 5 ∧ (t.find (.Int 1)).1 = true ∧ (t.find (.Real 1)).1 = false) := by
  constructor
  · intro α _ hL hT xs hlen
    obtain ⟨t, e, _, hc, hf⟩ := insert_all_empty_spec (cmp_order_of_contract hL hT) xs hlen
    exact ⟨t, e, hc, hf⟩
  · refine ⟨rfl, ?_⟩
    obtain ⟨t, e, _⟩ := insert_all_empty_spec test_item_cmp_order
      [TestItem.Int 1, .Int 2, .Int 2, .Real 3, .Int 4, .Real 4] (by decide)
    have key : (insert_all ll_rb_tree.empty
        [TestItem.Int 1, .Int 2, .Int 2, .Real 3, .Int 4, .Real 4] >>= fun t =>
          Except.ok (t.count, (t.find (.Int 1)).1, (t.find (.Real 1)).1)) =
        Except.ok (5, true, false) := rfl
    rw [e] at key
    simp only [ok_bind, Except.ok.injEq, Prod.mk.injEq] at key
    exact ⟨t, e, key.1, key.2.1, key.2.2⟩

/-- Example: the list `Int(2), Int(1), Int(2)`. -/
theorem construction_collapses_duplicates_witness :
    LessContract TestItem ∧ TypesNamedApart TestItem ∧
    ∃ t, insert_all ll_rb_tree.empty [TestItem.Int 2, .Int 1, .Int 2] = .ok t ∧
      t.count = distinct_count [TestItem.Int 2, .Int 1, .Int 2] ∧
      ∀ x, (t.find x).1 = true ↔
        ∃ y ∈ [TestItem.Int 2, .Int 1, .Int 2], compare_items y x = 0 :=
  ⟨test_item_less_contract, test_item_types_named_apart,
    construction_collapses_duplicates.1 TestItem test_item_less_contract
      test_item_types_named_apart [.Int 2, .Int 1, .Int 2] (by decide)⟩

/-- Reverse-order traversal is the in-order traversal reversed. For every tree, the
sequence of the `REVERSE_ORDER` traversal is the reverse of the sequence of the `IN_ORDER`
traversal; for a tree reachable by insertions, `Less` being a strict weak order on each type
and distinct types having distinct (package path, type name) pairs, it is strictly descending:
every item compares positive against every later one, which compares negative against it. -/
theorem reverse_order_is_inorder_reversed [Item α] :
    (∀ t : ll_rb_tree α, t.iterator REVERSE_ORDER = (t.iterator IN_ORDER).reverse) ∧
    (∀ node : ll_rb_node α, iterate node REVERSE_ORDER = (iterate node IN_ORDER).reverse) ∧
    (LessContract α → TypesNamedApart α → ∀ t : ll_rb_tree α, reachable t →
      (t.iterator REVERSE_ORDER).Pairwise
        (fun a b => 0 < compare_items a b ∧ compare_items b a < 0)) := by
  have key : ∀ node : ll_rb_node α,
      iterate node REVERSE_ORDER = (iterate node IN_ORDER).reverse := by
    intro node
    have e1 : iterate node REVERSE_ORDER = iterate_reverseorder node := rfl
    have e2 : iterate node IN_ORDER = iterate_inorder node := rfl
    rw [e1, e2, iterate_reverseorder_eq]
  refine ⟨fun t => key t.root, key, ?_⟩
  intro hL hT t h
  have hord := cmp_order_of_contract hL hT
  have hasc := (reachable_inv hord t h).2.2.1
  rw [iterator_reverse_order, iterate_reverseorder_eq, List.pairwise_reverse]
  refine List.Pairwise.imp ?_ hasc
  intro a b hab
  exact ⟨cmp_pos_of_before hord hab, hab⟩

/-- Example: the tree of `Int(1)`, `Int(2)`, `Int(3)`. -/
theorem reverse_order_is_inorder_reversed_witness :
    reachable test_tree3 ∧
    test_tree3.iterator REVERSE_ORDER = [TestItem.Int 3, .Int 2, .Int 1] ∧
    test_tree3.iterator REVERSE_ORDER = (test_tree3.iterator IN_ORDER).reverse ∧
    (test_tree3.iterator REVERSE_ORDER).Pairwise
      (fun a b => 0 < compare_items a b ∧ compare_items b a < 0) :=
  ⟨test_tree3_reachable, rfl, reverse_order_is_inorder_reversed.1 test_tree3,
    reverse_order_is_inorder_reversed.2.2 test_item_less_contract test_item_types_named_apart
      test_tree3 test_tree3_reachable⟩

/-- With types told apart by their names, `Intersect` and `Disjoint` are symmetric. For items
whose `Less` is a strict weak order on each type, distinct types having distinct (package path,
type name) pairs, and for every two sets `a` and `b` built by insertions (of fewer than `2 ^ 64`
items), `Intersect(a, b) = Intersect(b, a)` and `Disjoint(a, b) = Disjoint(b, a)`. -/
theorem intersect_symmetric [Item α] (hL : LessContract α) (hT : TypesNamedApart α)
    (a b : ll_rb_tree α) (ha : reachable a) (hb : reachable b)
    (hsa : size a.root < 2 ^ 64) (hsb : size b.root < 2 ^ 64) :
    Intersect a b = Intersect b a ∧ Disjoint a b = Disjoint b a := by
  have ho := cmp_order_of_contract hL hT
  obtain ⟨_, _, a3, a4⟩ := reachable_inv ho a ha
  obtain ⟨_, _, b3, b4⟩ := reachable_inv ho b hb
  have hca : a.count = size a.root := by rw [a4]; omega
  have hcb : b.count = size b.root := by rw [b4]; omega
  have key := Intersect_comm ho a b a3 hca b3 hcb
  refine ⟨key, ?_⟩
  unfold Disjoint
  rw [key]

/-- Example: the tree of `Int(1)`, `Int(2)` and the tree of `Int(1)`, `Int(2)`, `Int(3)`. -/
theorem intersect_symmetric_witness :
    reachable test_tree2 ∧ reachable test_tree3 ∧
    Intersect test_tree2 test_tree3 = Intersect test_tree3 test_tree2 ∧
    Disjoint test_tree2 test_tree3 = Disjoint test_tree3 test_tree2 :=
  ⟨test_tree2_reachable, test_tree3_reachable,
    intersect_symmetric test_item_less_contract test_item_types_named_apart
      test_tree2 test_tree3 test_tree2_reachable test_tree3_reachable (by decide) (by decide)⟩

/-- The sets of the test: with `A = {Int(-100)..Int(0)}`, `B = {Int(1)..Int(100)}` and
`C = {Int(-50)..Int(50)}` built by `make_Int_set_serial`, `Intersect(A, B)` is false and
`Intersect(A, C)` is true, in both argument orders. -/
theorem intersect_test_sets_values :
    ∃ A B C : ll_rb_tree TestItem,
      make_Int_set_serial 200 (-100) 0 = .ok A ∧ make_Int_set_serial 200 1 100 = .ok B ∧
      make_Int_set_serial 200 (-50) 50 = .ok C ∧
      Intersect A B = false ∧ Intersect B A = false ∧
      Intersect A C = true ∧ Intersect C A = true ∧
      Disjoint A B = true ∧ Disjoint B A = true ∧
      Disjoint A C = false ∧ Disjoint C A = false := by
  have key := intersect_test_sets
  cases hA : make_Int_set_serial 200 (-100) 0 with
  | error f =>
    rw [hA] at key
    exact Except.noConfusion key
  | ok A =>
    cases hB : make_Int_set_serial 200 1 100 with
    | error f =>
      rw [hA, hB] at key
      exact Except.noConfusion key
    | ok B =>
      cases hC : make_Int_set_serial 200 (-50) 50 with
      | error f =>
        rw [hA, hB, hC] at key
        exact Except.noConfusion key
      | ok C =>
        rw [hA, hB, hC] at key
        simp only [ok_bind, Except.ok.injEq, Prod.mk.injEq] at key
        obtain ⟨k1, k2, k3, k4⟩ := key
        refine ⟨A, B, C, rfl, rfl, rfl, k1, k2, k3, k4, ?_, ?_, ?_, ?_⟩ <;>
          simp only [Disjoint, k1, k2, k3, k4] <;> rfl

/-- The method `find` decides membership when the types of the items are told apart by their
names. For items whose `Less` is a strict weak order on each type, distinct types having
distinct (package path, type name) pairs: for every tree whose stored
items are in strict binary-search order under `compare_item` and whose count is zero exactly
when it has no root, and for every item `x`, `find(x)` returns `found = true` if and only if
some item of the in-order traversal compares equal to `x`; every tree reachable by insertions
(of fewer than `2 ^ 64` nodes) is such a tree; on the empty tree `find` returns false. `find`
has a value receiver and assigns to no field of a node, so there is no tree after it other than
the tree before it. -/
theorem find_decides_membership [Item α] (hL : LessContract α) (hT : TypesNamedApart α)
    (t : ll_rb_tree α) (x : α) (hs : search_ordered t.root)
    (hc : t.count = 0 ↔ t.root = .nil) :
    ((t.find x).1 = true ↔ ∃ y ∈ t.iterator IN_ORDER, compare_items y x = 0) ∧
    (∀ t' : ll_rb_tree α, reachable t' → size t'.root < 2 ^ 64 →
      search_ordered t'.root ∧ (t'.count = 0 ↔ t'.root = .nil)) ∧
    ((ll_rb_tree.empty : ll_rb_tree α).find x).1 = false := by
  have ho := cmp_order_of_contract hL hT
  refine ⟨?_, ?_, rfl⟩
  · rw [iterator_in_order, find_spec ho t x ((search_ordered_iff ho t.root).1 hs)]
    constructor
    · rintro ⟨_, h⟩
      exact h
    · intro h
      refine ⟨?_, h⟩
      intro h0
      obtain ⟨y, hy, _⟩ := h
      rw [hc.1 h0] at hy
      simp at hy
  · intro t' hr hsz
    obtain ⟨_, _, h3, h4⟩ := reachable_inv ho t' hr
    refine ⟨(search_ordered_iff ho t'.root).2 h3, ?_⟩
    have h5 : t'.count = size t'.root := by rw [h4]; omega
    rw [h5]
    cases t'.root with
    | nil => simp
    | mk v l r c => simp

/-- Example: `Int(2)` in the tree of `Int(1)`, `Int(2)`, `Int(3)`. -/
theorem find_decides_membership_witness :
    search_ordered test_tree3.root ∧ (test_tree3.count = 0 ↔ test_tree3.root = .nil) ∧
    ((test_tree3.find (.Int 2)).1 = true ↔
      ∃ y ∈ test_tree3.iterator IN_ORDER, compare_items y (TestItem.Int 2) = 0) ∧
    (test_tree3.find (.Int 2)).1 = true := by
  have hc : test_tree3.count = 0 ↔ test_tree3.root = .nil := by decide
  exact ⟨test_tree3_invariants.ordered, hc,
    (find_decides_membership test_item_less_contract test_item_types_named_apart test_tree3
      (.Int 2) test_tree3_invariants.ordered hc).1, rfl⟩

/-! ## The comparison of items, the traversals and the depth -/

/-- C11: heterogeneous partitioning. For two items `a` and `b` of different types whose type
identifiers (package path, type name) differ, `compare_item` of a node holding `a` against `b`
returns the value of `cmp_type`, which is not 0: it is `cmp_string` of the two package paths
when they differ and `cmp_string` of the two type names when the package paths are equal. No
call of `Less` is made, the value is the same for all items of the two types, and it is the same
whatever the `Less` methods are. A node holding `Int(i)` compares negative against `Real(r)`
for every `i` and `r`. -/
theorem heterogeneous_partitioning :
    (∀ (α : Type) [inst : Item α] (a b : α), Item.TypeOf a ≠ Item.TypeOf b →
      ((Item.TypeOf a).PkgPath ≠ (Item.TypeOf b).PkgPath ∨
        (Item.TypeOf a).Name ≠ (Item.TypeOf b).Name) →
      (∀ (l r : ll_rb_node α) (c : Bool), compare_item (.mk a l r c) b = .ok (cmp_type a b)) ∧
      cmp_type a b ≠ 0 ∧
      ((Item.TypeOf a).PkgPath ≠ (Item.TypeOf b).PkgPath →
        cmp_type a b = cmp_string (Item.TypeOf a).PkgPath (Item.TypeOf b).PkgPath) ∧
      ((Item.TypeOf a).PkgPath = (Item.TypeOf b).PkgPath →
        cmp_type a b = cmp_string (Item.TypeOf a).Name (Item.TypeOf b).Name) ∧
      compare_items_calls a b = [] ∧
      (∀ a' b' : α, Item.TypeOf a' = Item.TypeOf a → Item.TypeOf b' = Item.TypeOf b →
        compare_items a' b' = compare_items a b) ∧
      (∀ less : α → α → Bool,
        @compare_items α ⟨inst.TypeOf, less⟩ a b = compare_items a b)) ∧
    (∀ (i : ℤ) (r : ℚ) (left right : ll_rb_node TestItem) (red : Bool),
      ∃ n, compare_item (.mk (.Int i) left right red) (.Real r) = .ok n ∧ n < 0) := by
  constructor
  · intro α inst a b hty hid
    have hP : (Item.TypeOf a).PkgPath ≠ (Item.TypeOf b).PkgPath →
        cmp_type a b = cmp_string (Item.TypeOf a).PkgPath (Item.TypeOf b).PkgPath := by
      intro hp
      have : cmp_string (Item.TypeOf a).PkgPath (Item.TypeOf b).PkgPath ≠ 0 := fun h =>
        hp ((cmp_string_eq_zero _ _).1 h)
      simp [cmp_type, hty, this]
    have hN : (Item.TypeOf a).PkgPath = (Item.TypeOf b).PkgPath →
        cmp_type a b = cmp_string (Item.TypeOf a).Name (Item.TypeOf b).Name := by
      intro hp
      have : cmp_string (Item.TypeOf a).PkgPath (Item.TypeOf b).PkgPath = 0 :=
        (cmp_string_eq_zero _ _).2 hp
      simp [cmp_type, hty, this]
    have hne : cmp_type a b ≠ 0 := by
      by_cases hp : (Item.TypeOf a).PkgPath = (Item.TypeOf b).PkgPath
      · rw [hN hp]
        intro h
        rcases hid with h1 | h1
        · exact h1 hp
        · exact h1 ((cmp_string_eq_zero _ _).1 h)
      · rw [hP hp]
        intro h
        exact hp ((cmp_string_eq_zero _ _).1 h)
    have hcmp : compare_items a b = cmp_type a b := by
      simp [compare_items, hne]
    refine ⟨?_, hne, hP, hN, ?_, ?_, ?_⟩
    · intro l r c
      rw [compare_item_mk, hcmp]
    · simp [compare_items_calls, hne]
    · intro a' b' ha hb
      have e : cmp_type a' b' = cmp_type a b := by
        rw [cmp_type_congr_left a' a b' ha, cmp_type_congr_right a b' b hb]
      rw [hcmp]
      simp [compare_items, e, hne]
    · intro less
      rw [hcmp]
      have e : @cmp_type α ⟨inst.TypeOf, less⟩ a b = cmp_type a b := rfl
      simp only [compare_items, e, hne, ne_eq, not_false_eq_true, if_true]
  · intro i r left right red
    exact ⟨-1, rfl, by decide⟩

/-- Witness of C11: `Int(5)` against `Real(5.0)`. -/
theorem heterogeneous_partitioning_witness :
    Item.TypeOf (TestItem.Int 5) ≠ Item.TypeOf (TestItem.Real 5) ∧
    (Item.TypeOf (TestItem.Int 5)).Name ≠ (Item.TypeOf (TestItem.Real 5)).Name ∧
    cmp_type (TestItem.Int 5) (TestItem.Real 5) ≠ 0 ∧
    compare_items_calls (TestItem.Int 5) (TestItem.Real 5) = [] := by
  have hty : Item.TypeOf (TestItem.Int 5) ≠ Item.TypeOf (TestItem.Real 5) := by decide
  have hn : (Item.TypeOf (TestItem.Int 5)).Name ≠ (Item.TypeOf (TestItem.Real 5)).Name := by
    decide
  have h := heterogeneous_partitioning.1 TestItem (.Int 5) (.Real 5) hty (Or.inr hn)
  exact ⟨hty, hn, h.2.1, h.2.2.2.2.1⟩

/-- C12 (the code fails the claim): `Less` is called on two items of distinct types. The pointer
types `*A` and `*B` are distinct and both have an empty package path and an empty name, so
`cmp_type` returns 0 for an item of the one and an item of the other, and `compare_item` goes on
to call `Less` on the two, in both directions. -/
theorem less_called_across_types :
    Item.TypeOf (PtrItem.A 1) ≠ Item.TypeOf (PtrItem.B 2) ∧
    (Item.TypeOf (PtrItem.A 1)).PkgPath = (Item.TypeOf (PtrItem.B 2)).PkgPath ∧
    (Item.TypeOf (PtrItem.A 1)).Name = (Item.TypeOf (PtrItem.B 2)).Name ∧
    cmp_type (PtrItem.A 1) (PtrItem.B 2) = 0 ∧
    compare_items_calls (PtrItem.A 1) (PtrItem.B 2) =
      [(PtrItem.A 1, PtrItem.B 2), (PtrItem.B 2, PtrItem.A 1)] ∧
    compare_item (.mk (PtrItem.A 1) .nil .nil false) (PtrItem.B 2) = .ok 0 := by
  refine ⟨by decide, rfl, rfl, by decide, by decide, rfl⟩

/-- C13: the heterogeneous comparison is a valid comparator. If distinct types have distinct
(package path, type name) pairs and `Less` meets the documented requirements on the items of
each type, then the sign of comparing `a` with `b` is the opposite of the sign of comparing `b`
with `a`; the comparison is 0 exactly when `a` and `b` have the same type and neither is `Less`
than the other, and then `a` and `b` are equal; if `a` orders before `b` and `b` before `c` then
`a` orders before `c`. The comparison is the value that `compare_item` of a node holding the
first item returns. -/
theorem compare_item_total_order [Item α] (hT : TypesNamedApart α)
    (hR : LessRequirements α) :
    (∀ a b : α, Int.sign (compare_items a b) = - Int.sign (compare_items b a)) ∧
    (∀ a b : α, compare_items a b = 0 ↔
      (Item.TypeOf a = Item.TypeOf b ∧ Item.Less a b = false ∧ Item.Less b a = false)) ∧
    (∀ a b c : α, compare_items a b < 0 → compare_items b c < 0 → compare_items a c < 0) ∧
    (∀ a b : α, compare_items a b = 0 → a = b) ∧
    (∀ (a b : α) (l r : ll_rb_node α) (c : Bool),
      compare_item (.mk a l r c) b = .ok (compare_items a b)) := by
  have ho := cmp_order_of_contract (less_contract_of_requirements hR) hT
  have hz : ∀ a b : α, compare_items a b = 0 ↔
      (Item.TypeOf a = Item.TypeOf b ∧ Item.Less a b = false ∧ Item.Less b a = false) := by
    intro a b
    rw [compare_items_zero_iff, cmp_type_eq_zero hT]
  refine ⟨?_, hz, ?_, ?_, ?_⟩
  · intro a b
    exact sign_swap _ _ (ho.swap a b) (ho.swap b a)
  · intro a b c
    exact ho.trans a b c
  · intro a b h
    obtain ⟨h1, h2, h3⟩ := (hz a b).1 h
    exact hR.eq_of_incomp a b h1 h2 h3
  · intro a b l r c
    rfl

/-- Witness of C13: the item types `Int` and `Real` of the tests. -/
theorem compare_item_total_order_witness :
    TypesNamedApart TestItem ∧ LessRequirements TestItem ∧
    Int.sign (compare_items (TestItem.Int 5) (TestItem.Real 3)) =
      - Int.sign (compare_items (TestItem.Real 3) (TestItem.Int 5)) ∧
    (compare_items (TestItem.Int 1) (TestItem.Int 2) < 0 →
      compare_items (TestItem.Int 2) (TestItem.Real 0) < 0 →
      compare_items (TestItem.Int 1) (TestItem.Real 0) < 0) :=
  ⟨test_item_types_named_apart, test_item_less_requirements,
    (compare_item_total_order test_item_types_named_apart test_item_less_requirements).1
      (.Int 5) (.Real 3),
    (compare_item_total_order test_item_types_named_apart test_item_less_requirements).2.2.1
      (.Int 1) (.Int 2) (.Real 0)⟩

/-- C14: `cmp_string` is the byte-wise lexicographic comparison. For all strings `a` and `b`,
`cmp_string(a, b)` is negative iff `a` is lexicographically smaller than `b`, positive iff `b`
is lexicographically smaller than `a`, and zero iff `a = b`; `cmp_string(a, a ++ s)` is negative
for every non-empty `s`; and the sign of `cmp_string(a, b)` is the opposite of the sign of
`cmp_string(b, a)`. -/
theorem cmp_string_lexicographic (a b : GoString) :
    (cmp_string a b < 0 ↔ lex_less a b) ∧ (0 < cmp_string a b ↔ lex_less b a) ∧
    (cmp_string a b = 0 ↔ a = b) ∧
    (∀ s : GoString, s ≠ [] → cmp_string a (a ++ s) < 0) ∧
    Int.sign (cmp_string a b) = - Int.sign (cmp_string b a) := by
  refine ⟨?_, ?_, cmp_string_eq_zero a b, ?_, ?_⟩
  · rw [cmp_string_eq_cmp_list]
    exact cmp_list_neg_iff_lex a b
  · rw [cmp_string_swap, cmp_string_eq_cmp_list]
    exact cmp_list_neg_iff_lex b a
  · intro s hs
    rw [cmp_string_eq_cmp_list]
    exact cmp_list_append a s hs
  · exact sign_swap _ _ (cmp_string_swap a b) (cmp_string_swap b a)

/-- Witness of C14: the bytes of `Int` sort before the bytes of `Real`, and before those of
`Int8`, which extend them. -/
theorem cmp_string_lexicographic_witness :
    cmp_string [73, 110, 116] [82, 101, 97, 108] < 0 ∧
    lex_less [73, 110, 116] [82, 101, 97, 108] ∧
    cmp_string [73, 110, 116] ([73, 110, 116] ++ [56]) < 0 := by
  have h := cmp_string_lexicographic [73, 110, 116] [82, 101, 97, 108]
  have h1 : cmp_string [73, 110, 116] [82, 101, 97, 108] < 0 := by decide
  exact ⟨h1, h.1.1 h1, h.2.2.2.1 [56] (by decide)⟩

/-- C16: every traversal yields each stored item exactly once. For every tree reachable from
the empty tree by insertions (of fewer than `2 ^ 64` nodes, the range of the `uint64` count),
each of the four traversal orders produces a sequence whose length is the tree's count, and any
two of the four sequences are permutations of one another; if `Less` is a strict weak order on
each type and distinct types have distinct (package path, type name) pairs, no two items of a
sequence compare equal; the empty tree yields the empty sequence. -/
theorem traversals_yield_each_item_once [Item α] (t : ll_rb_tree α) (h : reachable t)
    (hsz : size t.root < 2 ^ 64) :
    (∀ order ∈ [PRE_ORDER, IN_ORDER, POST_ORDER, REVERSE_ORDER],
      (t.iterator order).length = t.count) ∧
    (∀ o1 ∈ [PRE_ORDER, IN_ORDER, POST_ORDER, REVERSE_ORDER],
      ∀ o2 ∈ [PRE_ORDER, IN_ORDER, POST_ORDER, REVERSE_ORDER],
        (t.iterator o1).Perm (t.iterator o2)) ∧
    (LessContract α → TypesNamedApart α →
      ∀ order ∈ [PRE_ORDER, IN_ORDER, POST_ORDER, REVERSE_ORDER],
        (t.iterator order).Pairwise (fun a b => compare_items a b ≠ 0)) ∧
    (∀ order : Int, (ll_rb_tree.empty : ll_rb_tree α).iterator order = []) := by
  obtain ⟨_, _, hc⟩ := reachable_shape t h
  have hc' : t.count = size t.root := by
    rw [hc]
    omega
  have hrange : ∀ order ∈ [PRE_ORDER, IN_ORDER, POST_ORDER, REVERSE_ORDER],
      0 ≤ order ∧ order ≤ 3 := by
    intro order ho
    simp only [List.mem_cons, List.mem_singleton, List.not_mem_nil, or_false, PRE_ORDER,
      IN_ORDER, POST_ORDER, REVERSE_ORDER] at ho
    omega
  have hperm : ∀ order ∈ [PRE_ORDER, IN_ORDER, POST_ORDER, REVERSE_ORDER],
      (t.iterator order).Perm (iterate_inorder t.root) := fun order ho =>
    iterate_perm_inorder t.root order (hrange order ho).1 (hrange order ho).2
  refine ⟨?_, ?_, ?_, ?_⟩
  · intro order ho
    rw [(hperm order ho).length_eq, ← size_eq_length, hc']
  · intro o1 h1 o2 h2
    exact (hperm o1 h1).trans (hperm o2 h2).symm
  · intro hL hT order ho
    have hord := cmp_order_of_contract hL hT
    have hasc := (reachable_inv hord t h).2.2.1
    have hsymm : ∀ {a b : α}, compare_items a b ≠ 0 → compare_items b a ≠ 0 :=
      fun {a b} hab hba => hab (cmp_zero_symm hord b a hba)
    exact (List.Perm.pairwise_iff hsymm (hperm order ho)).2 (ascending_ne _ hasc)
  · intro order
    exact iterate_nil order

/-- Witness of C16: the tree of `Int(1)`, `Int(2)`, `Int(3)`. -/
theorem traversals_yield_each_item_once_witness :
    reachable test_tree3 ∧ size test_tree3.root < 2 ^ 64 ∧
    (test_tree3.iterator PRE_ORDER).length = test_tree3.count ∧
    (test_tree3.iterator POST_ORDER).Perm (test_tree3.iterator REVERSE_ORDER) := by
  have h := traversals_yield_each_item_once test_tree3 test_tree3_reachable (by decide)
  exact ⟨test_tree3_reachable, by decide, h.1 PRE_ORDER (by simp),
    h.2.1 POST_ORDER (by simp) REVERSE_ORDER (by simp)⟩

/-- C19, the claim as stated fails: the tree of the one item `Int(1)` is reachable by an
insertion and not empty; it has `N = 1` node and depth `d = 1`, and `2 ^ d ≤ N ^ 2` is false. -/
theorem depth_bound_fails_for_one_node :
    reachable test_tree1 ∧ size test_tree1.root = 1 ∧ max_depth test_tree1.root = 1 ∧
      ¬ 2 ^ max_depth test_tree1.root ≤ size test_tree1.root ^ 2 :=
  ⟨test_tree1_reachable, rfl, rfl, by decide⟩

/-- C19 (amended): for every tree reachable from the empty tree by insertions that has
`N ≥ 2` nodes, and maximum depth `d`, the depth is never greater than `2 * log2 N`, that is
`2 ^ d ≤ N ^ 2`; so a tree of `2 ^ k` nodes has depth at most `2 * k`. -/
theorem depth_bound_from_two_nodes [Item α] (t : ll_rb_tree α) (h : reachable t)
    (h2 : 2 ≤ size t.root) :
    2 ^ max_depth t.root ≤ size t.root ^ 2 ∧
    ∀ k : Nat, size t.root = 2 ^ k → max_depth t.root ≤ 2 * k := by
  obtain ⟨h1, hb, _⟩ := reachable_shape t h
  have key := depth_bound_of_LL t.root h1 hb h2
  refine ⟨key, ?_⟩
  intro k hk
  rw [hk, ← pow_mul, Nat.mul_comm] at key
  exact (Nat.pow_le_pow_iff_right (by norm_num)).1 key

/-- Witness of C19 (amended): the tree of `Int(1)`, `Int(2)`, which has `2 ^ 1` nodes. -/
theorem depth_bound_from_two_nodes_witness :
    reachable test_tree2 ∧ 2 ≤ size test_tree2.root ∧
    2 ^ max_depth test_tree2.root ≤ size test_tree2.root ^ 2 ∧
    max_depth test_tree2.root ≤ 2 * 1 :=
  ⟨test_tree2_reachable, by decide,
    (depth_bound_from_two_nodes test_tree2 test_tree2_reachable (by decide)).1,
    (depth_bound_from_two_nodes test_tree2 test_tree2_reachable (by decide)).2 1 rfl⟩

/-! ## Trees of items of two types with one name -/

theorem loose_item_less_contract : LessContract LooseItem := by
  refine ⟨?_, ?_, ?_⟩
  · intro a
    cases a <;> simp [Item.Less]
  · intro a b c h1 h2
    cases a <;> cases b <;> cases c <;>
      simp [Item.Less, Item.TypeOf, PtrC_type, PtrD_type] at h1 h2 ⊢
    · intro h1 h2; exact lt_trans h1 h2
    · intro h1 h2; exact lt_trans h1 h2
  · intro a b c h1 h2
    cases a <;> cases b <;> cases c <;>
      simp [Item.Less, Item.TypeOf, PtrC_type, PtrD_type] at h1 h2 ⊢
    · intro h1 h2 h3 h4
      constructor <;> omega
    · intro h1 h2 h3 h4
      constructor <;> omega

/-- The types `*C` and `*D` are distinct and have the same package path and the same name. -/
theorem loose_item_types_same_names :
    PtrC_type ≠ PtrD_type ∧ PtrC_type.PkgPath = PtrD_type.PkgPath ∧
      PtrC_type.Name = PtrD_type.Name :=
  ⟨by decide, rfl, rfl⟩

theorem insert_all_reachable [Item α] : ∀ (xs : List α) (t t' : ll_rb_tree α),
    insert_all t xs = .ok t' → reachable_from t t'
  | [], t, t', e => by
    have e := Except.ok.inj e
    subst e
    exact .start
  | x :: xs, t, t', e => by
    simp only [insert_all] at e
    cases h : t.insert x with
    | error f =>
      rw [h] at e
      exact Except.noConfusion e
    | ok t1 =>
      rw [h] at e
      exact reachable_from_trans t t1 t' (.step t t1 x .start h)
        (insert_all_reachable xs t1 t' e)

/-- A reachable tree has the invariants if it has the first of them. -/
theorem invariants_of_reachable [Item α] (t : ll_rb_tree α) (h : reachable t)
    (hs : search_ordered t.root) : llrb_invariants t.root := by
  obtain ⟨h1, h2, _⟩ := reachable_shape t h
  obtain ⟨j1, j2, j3⟩ := (LL_iff t.root).1 h1
  exact ⟨hs, j1, j2, j3, h2⟩

theorem loose_tree1_reachable : reachable loose_tree1 :=
  insert_all_reachable [LooseItem.C 0] ll_rb_tree.empty _ rfl

theorem loose_tree2_reachable : reachable loose_tree2 :=
  insert_all_reachable [LooseItem.C 0, LooseItem.D 0] ll_rb_tree.empty _ rfl

theorem loose_tree3_reachable : reachable loose_tree3 :=
  insert_all_reachable [LooseItem.C 0, LooseItem.D 0, LooseItem.D 1] ll_rb_tree.empty _ rfl

theorem loose_tree4_reachable : reachable loose_tree4 :=
  insert_all_reachable [LooseItem.C 0, LooseItem.D 0, LooseItem.D 1, LooseItem.C 0]
    ll_rb_tree.empty _ rfl

theorem loose_tree5_reachable : reachable loose_tree5 :=
  insert_all_reachable
    [LooseItem.C 0, LooseItem.D 0, LooseItem.D 1, LooseItem.C 0, LooseItem.C 1]
    ll_rb_tree.empty _ rfl

theorem loose_tree6_reachable : reachable loose_tree6 :=
  insert_all_reachable [LooseItem.D 0, LooseItem.C 0, LooseItem.C 1] ll_rb_tree.empty _ rfl

theorem loose_tree3_ordered : search_ordered loose_tree3.root := by
  simp only [loose_tree3, search_ordered, iterate_inorder, before]
  decide

theorem loose_tree4_ordered : search_ordered loose_tree4.root := by
  simp only [loose_tree4, search_ordered, iterate_inorder, before]
  decide

theorem loose_tree6_ordered : search_ordered loose_tree6.root := by
  simp only [loose_tree6, search_ordered, iterate_inorder, before]
  decide

theorem loose_tree3_invariants : llrb_invariants loose_tree3.root :=
  invariants_of_reachable _ loose_tree3_reachable loose_tree3_ordered

theorem loose_tree4_invariants : llrb_invariants loose_tree4.root :=
  invariants_of_reachable _ loose_tree4_reachable loose_tree4_ordered

theorem loose_tree6_invariants : llrb_invariants loose_tree6.root :=
  invariants_of_reachable _ loose_tree6_reachable loose_tree6_ordered

/-! ## The claims on insertion, deletion and lookup -/

/-- C1 (the code fails the claim): insert does not preserve the LLRB invariants. The items are
of the two pointer types `*C` and `*D`, which have one (empty) package path and name, and their
`Less` is a strict weak order on each type. The tree made by inserting `C(0)`, `D(0)`, `D(1)`,
`C(0)` has the invariants (a)-(e); the tree-level `insert(C(1))` returns a tree that is not in
search order, so a tree reachable by insertions does not have (a). -/
theorem insert_breaks_search_order :
    LessContract LooseItem ∧ reachable loose_tree4 ∧ llrb_invariants loose_tree4.root ∧
    loose_tree4.insert (.C 1) = .ok loose_tree5 ∧ reachable loose_tree5 ∧
    ¬ search_ordered loose_tree5.root ∧ ¬ llrb_invariants loose_tree5.root := by
  have h5 : ¬ search_ordered loose_tree5.root := by
    simp only [loose_tree5, search_ordered, iterate_inorder, before]
    decide
  exact ⟨loose_item_less_contract, loose_tree4_reachable, loose_tree4_invariants, rfl,
    loose_tree5_reachable, h5, fun h => h5 h.ordered⟩

/-- C2 (the code fails the claim): delete of a stored item dereferences a nil pointer. The
items are of the two pointer types `*C` and `*D`, which have one (empty) package path and name,
and their `Less` is a strict weak order on each type. The tree made by inserting `C(0)`, `D(0)`,
`D(1)` has three nodes and the invariants (a)-(e), `C(0)` is stored in it (it is the item of
the left child), and the tree-level `delete(C(0))` panics. -/
theorem delete_of_stored_item_faults :
    LessContract LooseItem ∧ reachable loose_tree3 ∧ llrb_invariants loose_tree3.root ∧
    2 ≤ size loose_tree3.root ∧ LooseItem.C 0 ∈ iterate_inorder loose_tree3.root ∧
    stored loose_tree3.root (.C 0) ∧
    loose_tree3.delete (.C 0) = .error .nil_deref :=
  ⟨loose_item_less_contract, loose_tree3_reachable, loose_tree3_invariants, by decide,
    by simp [loose_tree3], ⟨.C 0, by simp [loose_tree3], by decide⟩, rfl⟩

/-- C3 (the code fails the claim): delete does not remove the requested item. The items are of
the two pointer types `*C` and `*D`, which have one (empty) package path and name, and their
`Less` is a strict weak order on each type. The tree made by inserting `D(0)`, `C(0)`, `C(1)`
has three nodes, count 3 and the invariants (a)-(e); `D(0)` is stored in it and is the one item
of the in-order sequence that compares equal to `D(0)`; the tree-level `delete(D(0))` panics, so
there is no tree after it. -/
theorem delete_fails_on_stored_item :
    LessContract LooseItem ∧ reachable loose_tree6 ∧ llrb_invariants loose_tree6.root ∧
    loose_tree6.count = size loose_tree6.root ∧ 2 ≤ size loose_tree6.root ∧
    stored loose_tree6.root (.D 0) ∧
    (iterate_inorder loose_tree6.root).filter
      (fun y => decide (compare_items y (LooseItem.D 0) = 0)) = [.D 0] ∧
    loose_tree6.delete (.D 0) = .error .nil_deref ∧
    ¬ ∃ t', loose_tree6.delete (.D 0) = .ok t' := by
  have e : loose_tree6.delete (.D 0) = .error .nil_deref := rfl
  refine ⟨loose_item_less_contract, loose_tree6_reachable, loose_tree6_invariants, rfl,
    by decide, ⟨.D 0, by simp [loose_tree6], by decide⟩, by decide, e, ?_⟩
  rintro ⟨t', h⟩
  rw [e] at h
  exact Except.noConfusion h

/-- C4: height bound. A tree reachable from the empty tree by insertions, of whatever items in
whatever order, with `n` nodes and maximum depth `h` has `2 ^ h ≤ (n + 1) ^ 2`, that is
`h ≤ 2 * log2 (n + 1)`. -/
theorem height_bound [Item α] (t : ll_rb_tree α) (h : reachable t) :
    2 ^ max_depth t.root ≤ (size t.root + 1) ^ 2 := by
  obtain ⟨h1, h2, _⟩ := reachable_shape t h
  exact height_bound_of_LL t.root h1 h2

/-- Witness of C4: the tree of `Int(1)`, `Int(2)`, `Int(3)`, and the tree made by inserting
`C(0)`, `D(0)`, `D(1)`, `C(0)`, `C(1)`, items of two types with one name. -/
theorem height_bound_witness :
    reachable test_tree3 ∧ 2 ^ max_depth test_tree3.root ≤ (size test_tree3.root + 1) ^ 2 ∧
    reachable loose_tree5 ∧ max_depth loose_tree5.root = 3 ∧ size loose_tree5.root = 5 ∧
    2 ^ max_depth loose_tree5.root ≤ (size loose_tree5.root + 1) ^ 2 :=
  ⟨test_tree3_reachable, height_bound test_tree3 test_tree3_reachable,
    loose_tree5_reachable, rfl, rfl, height_bound loose_tree5 loose_tree5_reachable⟩

/-- C5 (the code fails the claim): the in-order enumeration is not sorted. The items are of the
two pointer types `*C` and `*D`, which have one (empty) package path and name, and their `Less`
is a strict weak order on each type. The tree made by inserting `C(0)`, `D(0)`, `D(1)`, `C(0)`
has the in-order sequence `C(0), D(0), D(1), C(0)`: it is not ascending under `compare_item`,
its first and last items have one type and neither is `Less` than the other, and the items of
type `*C` are not contiguous. -/
theorem inorder_not_ascending :
    LessContract LooseItem ∧ reachable loose_tree4 ∧
    loose_tree4.iterator IN_ORDER = [.C 0, .D 0, .D 1, .C 0] ∧
    ¬ (loose_tree4.iterator IN_ORDER).Pairwise (fun a b => compare_items a b < 0) ∧
    ¬ (loose_tree4.iterator IN_ORDER).Pairwise (fun a b =>
      cmp_type a b < 0 ∨ (Item.TypeOf a = Item.TypeOf b ∧ Item.Less a b = true)) ∧
    [LooseItem.C 0, .D 0, .C 0].Sublist (loose_tree4.iterator IN_ORDER) ∧
    Item.TypeOf (LooseItem.D 0) ≠ Item.TypeOf (LooseItem.C 0) := by
  have e : loose_tree4.iterator IN_ORDER = [.C 0, .D 0, .D 1, .C 0] := rfl
  refine ⟨loose_item_less_contract, loose_tree4_reachable, e, ?_, ?_, ?_, by decide⟩
  · rw [e]; decide
  · rw [e]; decide
  · rw [e]; decide

/-- C6 (the code fails the claim): `find(x)` does not remain true. The items are of the two
pointer types `*C` and `*D`, which have one (empty) package path and name, and their `Less` is a
strict weak order on each type. After `insert(C(0))` into the empty tree `find(C(0))` is true;
after the further `insert(D(0))` it is false. -/
theorem find_fails_after_insert :
    LessContract LooseItem ∧
    (ll_rb_tree.empty : ll_rb_tree LooseItem).insert (.C 0) = .ok loose_tree1 ∧
    (loose_tree1.find (.C 0)).1 = true ∧
    loose_tree1.insert (.D 0) = .ok loose_tree2 ∧
    reachable_from loose_tree1 loose_tree2 ∧
    (loose_tree2.find (.C 0)).1 = false :=
  ⟨loose_item_less_contract, rfl, rfl, rfl,
    .step loose_tree1 loose_tree2 (.D 0) .start rfl, rfl⟩

/-- C7: count invariant for insertion. For every tree reachable from the empty tree by
insertions, of whatever items (and of fewer than `2 ^ 64 - 1` nodes, so that the `uint64` count
does not wrap), and every item `x`, the count is the number of nodes before and after the
tree-level insert of `x`, which increases the count by exactly 1 if `find(x)` was false and
leaves it unchanged if `find(x)` was true. -/
theorem insert_count [Item α] (t : ll_rb_tree α) (x : α) (h : reachable t)
    (hsz : size t.root + 1 < 2 ^ 64) :
    t.count = size t.root ∧
    ∃ t', t.insert x = .ok t' ∧ t'.count = size t'.root ∧
      ((t.find x).1 = false → t'.count = t.count + 1) ∧
      ((t.find x).1 = true → t'.count = t.count) := by
  obtain ⟨h1, _, hc⟩ := reachable_shape t h
  have hc' : t.count = size t.root := by rw [hc]; omega
  obtain ⟨t', e, _, _, b, j3, j4, j5⟩ := tree_insert_shape t x h1
  have hfind : (t.find x).1 = !b := by
    unfold ll_rb_tree.find
    by_cases h0 : t.count = 0
    · have hnil : t.root = .nil := by
        cases hr : t.root with
        | nil => rfl
        | mk v l r c =>
          rw [hr] at hc'
          simp only [size_mk] at hc'
          omega
      rw [hnil] at j5
      simp only [h0, if_true]
      exact j5
    · simp only [h0, if_false]
      exact j5
  refine ⟨hc', t', e, ?_, ?_, ?_⟩
  · rw [j3, j4, hc']
    cases b
    · simp
    · simp only [if_true]
      omega
  · intro hf
    rw [hfind] at hf
    have hb : b = true := by
      cases b
      · simp at hf
      · rfl
    rw [j3, hb, hc']
    simp only [if_true]
    omega
  · intro hf
    rw [hfind] at hf
    have hb : b = false := by
      cases b
      · rfl
      · simp at hf
    rw [j3, hb]
    simp

/-- Witness of C7: `Int(3)` is inserted into the tree of `Int(1)` and `Int(2)`; and `C(0)` is
inserted into the tree made by inserting `C(0)`, `D(0)`, `D(1)`, items of two types with one
name, where `find(C(0))` is false. -/
theorem insert_count_witness :
    (reachable test_tree2 ∧ size test_tree2.root + 1 < 2 ^ 64 ∧
      test_tree2.count = size test_tree2.root ∧
      ∃ t', test_tree2.insert (.Int 3) = .ok t' ∧ t'.count = size t'.root ∧
        ((test_tree2.find (.Int 3)).1 = false → t'.count = test_tree2.count + 1) ∧
        ((test_tree2.find (.Int 3)).1 = true → t'.count = test_tree2.count)) ∧
    (reachable loose_tree3 ∧ size loose_tree3.root + 1 < 2 ^ 64 ∧
      (loose_tree3.find (.C 0)).1 = false ∧
      loose_tree3.count = size loose_tree3.root ∧
      ∃ t', loose_tree3.insert (.C 0) = .ok t' ∧ t'.count = size t'.root ∧
        ((loose_tree3.find (.C 0)).1 = false → t'.count = loose_tree3.count + 1) ∧
        ((loose_tree3.find (.C 0)).1 = true → t'.count = loose_tree3.count)) :=
  ⟨⟨test_tree2_reachable, by decide,
      insert_count test_tree2 (.Int 3) test_tree2_reachable (by decide)⟩,
    ⟨loose_tree3_reachable, by decide, rfl,
      insert_count loose_tree3 (.C 0) loose_tree3_reachable (by decide)⟩⟩

/-- C10 (the code fails the claim): inserting an already-stored item adds a node. The items are
of the two pointer types `*C` and `*D`, which have one (empty) package path and name, and their
`Less` is a strict weak order on each type. The tree made by inserting `C(0)`, `D(0)`, `D(1)`
has the invariants (a)-(e) and stores `C(0)`; `insert` of `C(0)` on its root reports
`inserted = true`, and the tree-level insert returns a tree of four nodes with count 4, in which
`C(0)` is stored twice. -/
theorem insert_of_stored_item_adds_node :
    LessContract LooseItem ∧ reachable loose_tree3 ∧ llrb_invariants loose_tree3.root ∧
    LooseItem.C 0 ∈ iterate_inorder loose_tree3.root ∧ stored loose_tree3.root (.C 0) ∧
    llrb_tree.insert loose_tree3.root (.C 0) = .ok (loose_tree4.root, true) ∧
    loose_tree3.insert (.C 0) = .ok loose_tree4 ∧
    loose_tree3.count = 3 ∧ loose_tree4.count = 4 ∧
    size loose_tree4.root = size loose_tree3.root + 1 ∧
    iterate_inorder loose_tree4.root = [.C 0, .D 0, .D 1, .C 0] :=
  ⟨loose_item_less_contract, loose_tree3_reachable, loose_tree3_invariants,
    by simp [loose_tree3], ⟨.C 0, by simp [loose_tree3], by decide⟩, rfl, rfl, rfl, rfl, rfl,
    rfl⟩

/-- C15 (the code fails the claim): construction from a list does not collapse duplicates. The
items are of the two pointer types `*C` and `*D`, which have one (empty) package path and name,
and their `Less` is a strict weak order on each type. Inserting the list `C(0), D(0), D(1),
C(0)` in order into the empty tree gives a tree with count 4 that stores `C(0)` twice, while
the list has 3 distinct items; and `find(D(1))` is false although `D(1)` is in the list. -/
theorem construction_stores_item_twice :
    LessContract LooseItem ∧
    insert_all ll_rb_tree.empty [LooseItem.C 0, .D 0, .D 1, .C 0] = .ok loose_tree4 ∧
    loose_tree4.count = 4 ∧
    distinct_count [LooseItem.C 0, .D 0, .D 1, .C 0] = 3 ∧
    ([LooseItem.C 0, .D 0, .D 1, .C 0] : List LooseItem).dedup.length = 3 ∧
    iterate_inorder loose_tree4.root = [.C 0, .D 0, .D 1, .C 0] ∧
    compare_items (LooseItem.D 1) (LooseItem.D 1) = 0 ∧
    (loose_tree4.find (.D 1)).1 = false :=
  ⟨loose_item_less_contract, rfl, rfl, rfl, by decide, rfl, by decide, rfl⟩

/-- C17 (the code fails the claim): the reverse-order traversal is the in-order traversal
reversed, for every tree and every node, but it is not descending. The items are of the two
pointer types `*C` and `*D`, which have one (empty) package path and name, and their `Less` is a
strict weak order on each type. The tree made by inserting `C(0)`, `D(0)`, `D(1)`, `C(0)` has
the reverse-order sequence `C(0), D(1), D(0), C(0)`, whose first item does not compare positive
against its last. -/
theorem reverse_order_not_descending :
    (∀ (α : Type) (t : ll_rb_tree α),
      t.iterator REVERSE_ORDER = (t.iterator IN_ORDER).reverse) ∧
    (∀ (α : Type) (node : ll_rb_node α),
      iterate node REVERSE_ORDER = (iterate node IN_ORDER).reverse) ∧
    LessContract LooseItem ∧ reachable loose_tree4 ∧
    loose_tree4.iterator REVERSE_ORDER = [.C 0, .D 1, .D 0, .C 0] ∧
    ¬ (loose_tree4.iterator REVERSE_ORDER).Pairwise (fun a b => 0 < compare_items a b) ∧
    ¬ (loose_tree4.iterator REVERSE_ORDER).Pairwise (fun a b => compare_items b a < 0) := by
  have key : ∀ (α : Type) (node : ll_rb_node α),
      iterate node REVERSE_ORDER = (iterate node IN_ORDER).reverse := by
    intro α node
    have e1 : iterate node REVERSE_ORDER = iterate_reverseorder node := rfl
    have e2 : iterate node IN_ORDER = iterate_inorder node := rfl
    rw [e1, e2, iterate_reverseorder_eq]
  have e : loose_tree4.iterator REVERSE_ORDER = [.C 0, .D 1, .D 0, .C 0] := rfl
  refine ⟨fun α t => key α t.root, key, loose_item_less_contract, loose_tree4_reachable, e,
    ?_, ?_⟩
  · rw [e]; decide
  · rw [e]; decide

/-- C18 (the code fails the claim): `Intersect` is not symmetric. The items are of the two
pointer types `*C` and `*D`, which have one (empty) package path and name, and their `Less` is a
strict weak order on each type. With `A` the set made by inserting `C(0)`, `D(0)`, `D(1)` and
`B` the set made by inserting `C(0)`, `Intersect(A, B)` is true and `Intersect(B, A)` is false,
and `Disjoint(A, B)` is false and `Disjoint(B, A)` is true. -/
theorem intersect_not_symmetric :
    LessContract LooseItem ∧ reachable loose_tree3 ∧ reachable loose_tree1 ∧
    Intersect loose_tree3 loose_tree1 = true ∧ Intersect loose_tree1 loose_tree3 = false ∧
    Disjoint loose_tree3 loose_tree1 = false ∧ Disjoint loose_tree1 loose_tree3 = true :=
  ⟨loose_item_less_contract, loose_tree3_reachable, loose_tree1_reachable, rfl, rfl, rfl, rfl⟩

/-- C20 (the code fails the claim): `find` does not decide membership. The items are of the two
pointer types `*C` and `*D`, which have one (empty) package path and name, and their `Less` is a
strict weak order on each type. The tree made by inserting `C(0)`, `D(0)`, `D(1)` is in search
order under `compare_item` and has count 3 and a root; `C(0)` is in its in-order traversal and
compares equal to `C(0)`; `find(C(0))` returns false. -/
theorem find_misses_stored_item :
    LessContract LooseItem ∧ reachable loose_tree3 ∧ search_ordered loose_tree3.root ∧
    (loose_tree3.count = 0 ↔ loose_tree3.root = .nil) ∧
    loose_tree3.iterator IN_ORDER = [.C 0, .D 0, .D 1] ∧
    (∃ y ∈ loose_tree3.iterator IN_ORDER, compare_items y (LooseItem.C 0) = 0) ∧
    (loose_tree3.find (.C 0)).1 = false :=
  ⟨loose_item_less_contract, loose_tree3_reachable, loose_tree3_ordered, by decide, rfl,
    ⟨.C 0, by decide, by decide⟩, rfl⟩

end llrb_tree
